import Mathlib

/-
Verification development for the MagiDict C extension
(src/magidict/_magidict.c).

The C code manipulates CPython object graphs: objects have identity
(their address), dictionaries and lists are mutable in place, and the
conversion engine (`magidict_hook_with_memo`, `magidict_disenchant_recursive`)
is memoized on object identity.  We therefore embed the value domain as an
explicit heap: a list of objects indexed by address, with values being
either immutable scalars (which have no observable identity relevant to the
code: the memo only ever receives dict / MagiDict / list addresses) or
references into the heap.

Python dict keys in every behaviour the claims exercise are scalars
(strings, ints); key lookup is modelled by decidable equality on values,
which coincides with Python `==`/hash lookup for scalar keys.  Sets and
floats never occur in the claims and are out of the modelled value domain.

The recursion of the conversion engine is modelled with explicit fuel;
termination claims become "with enough fuel the function returns `some`".
-/

namespace MagiDict

/-- Immutable scalar values (no identity needed for the modelled behaviour). -/
inductive PyScalar where
  | none : PyScalar
  | int (n : Int) : PyScalar
  | str (s : String) : PyScalar
  | bool (b : Bool) : PyScalar
deriving DecidableEq, Repr

/-- A Python value: a scalar, or a reference to a heap object. -/
inductive PyVal where
  | scalar (s : PyScalar) : PyVal
  | ref (a : Nat) : PyVal
deriving DecidableEq, Repr

/-- Heap objects: plain dicts, MagiDicts (a dict plus the two provenance
flags `from_none` / `from_missing`), lists and tuples.  Dict entries keep
insertion order, as CPython dicts do. -/
inductive PyObj where
  | dict (entries : List (PyVal × PyVal)) : PyObj
  | magi (from_none : Bool) (from_missing : Bool) (entries : List (PyVal × PyVal)) : PyObj
  | list (elems : List PyVal) : PyObj
  | tuple (elems : List PyVal) : PyObj
deriving DecidableEq, Repr

/-- The heap: address `a` denotes `h.get? a`.  Allocation appends. -/
abbrev Heap := List PyObj

/-- The identity memo of one traversal: source address to converted value. -/
abbrev Memo := List (Nat × PyVal)

def heapGet (h : Heap) (a : Nat) : Option PyObj := h.get? a

def heapSet (h : Heap) (a : Nat) (o : PyObj) : Heap := h.set a o

def memoFind : Memo → Nat → Option PyVal
  | [], _ => Option.none
  | (k, v) :: rest, a => if k = a then some v else memoFind rest a

/-- CPython `PyDict_GetItem` on the ordered entry list. -/
def dictGet : List (PyVal × PyVal) → PyVal → Option PyVal
  | [], _ => Option.none
  | (k, v) :: rest, key => if k = key then some v else dictGet rest key

/-- CPython `PyDict_SetItem`: replace in place keeping position and the
original key object, else append. -/
def dictSet : List (PyVal × PyVal) → PyVal → PyVal → List (PyVal × PyVal)
  | [], key, val => [(key, val)]
  | (k, v) :: rest, key, val =>
    if k = key then (k, val) :: rest else (k, v) :: dictSet rest key val

/-- CPython `PyDict_DelItem` (the key is present at most once in a real dict). -/
def dictDel : List (PyVal × PyVal) → PyVal → List (PyVal × PyVal)
  | [], _ => []
  | (k, v) :: rest, key => if k = key then rest else (k, v) :: dictDel rest key

/-- Write `k ↦ v` into the dict-like object stored at address `a`. -/
def heapDictSet (h : Heap) (a : Nat) (k v : PyVal) : Option Heap :=
  match heapGet h a with
  | some (.magi fn fm es) => some (heapSet h a (.magi fn fm (dictSet es k v)))
  | some (.dict es) => some (heapSet h a (.dict (dictSet es k v)))
  | _ => Option.none

/-- Replace element `i` of the list stored at address `a` (PyList_SetItem). -/
def heapListSet (h : Heap) (a : Nat) (i : Nat) (v : PyVal) : Option Heap :=
  match heapGet h a with
  | some (.list xs) => some (heapSet h a (.list (xs.set i v)))
  | _ => Option.none

/-- Fill slot `i` of the (freshly allocated) tuple at address `a`. -/
def heapTupleSet (h : Heap) (a : Nat) (i : Nat) (v : PyVal) : Option Heap :=
  match heapGet h a with
  | some (.tuple xs) => some (heapSet h a (.tuple (xs.set i v)))
  | _ => Option.none

/-- Helper mirroring `magidict_create_protected`: allocate an empty MagiDict
carrying the provenance flags. -/
def createProtected (h : Heap) (from_none from_missing : Bool) : Heap × PyVal :=
  (h ++ [PyObj.magi from_none from_missing []], .ref h.length)

/-! ### The hook conversion engine (`magidict_hook_with_memo`) -/

/-- The dict branch of hook: convert every entry of the source dict, writing
`(key, hooked value)` into the freshly allocated MagiDict at `dst`
(`PyDict_SetItem` inside the `PyDict_Next` loop). -/
def hookEntries (f : Heap → Memo → PyVal → Option (Heap × Memo × PyVal)) (dst : Nat) :
    List (PyVal × PyVal) → Heap → Memo → Option (Heap × Memo)
  | [], h, memo => some (h, memo)
  | (k, v) :: rest, h, memo =>
    match f h memo v with
    | some (h1, m1, v1) =>
      match heapDictSet h1 dst k v1 with
      | some h2 => hookEntries f dst rest h2 m1
      | Option.none => Option.none
    | Option.none => Option.none

/-- The list branch of hook: replace every element of the list at `a` with
its hooked version, in place.  The C loop re-reads the current list at index
`i`, but positions `≥ i` are never written before they are read (the list is
memoized to itself before the loop, so no recursive call writes into it), so
iterating the snapshot is equivalent. -/
def hookListElems (f : Heap → Memo → PyVal → Option (Heap × Memo × PyVal)) (a : Nat) :
    List PyVal → Nat → Heap → Memo → Option (Heap × Memo)
  | [], _, h, memo => some (h, memo)
  | v :: rest, i, h, memo =>
    match f h memo v with
    | some (h1, m1, v1) =>
      match heapListSet h1 a i v1 with
      | some h2 => hookListElems f a rest (i + 1) h2 m1
      | Option.none => Option.none
    | Option.none => Option.none

/-- The tuple branch of hook: fill slot `i` of the freshly allocated tuple at
`a` with the hooked version of the corresponding source element. -/
def hookTupleElems (f : Heap → Memo → PyVal → Option (Heap × Memo × PyVal)) (a : Nat) :
    List PyVal → Nat → Heap → Memo → Option (Heap × Memo)
  | [], _, h, memo => some (h, memo)
  | v :: rest, i, h, memo =>
    match f h memo v with
    | some (h1, m1, v1) =>
      match heapTupleSet h1 a i v1 with
      | some h2 => hookTupleElems f a rest (i + 1) h2 m1
      | Option.none => Option.none
    | Option.none => Option.none

/-- One step of `magidict_hook_with_memo`, parameterized by the recursive
call `f`.  Branch order follows the C function: memo lookup, MagiDict,
dict, list, tuple, anything else unchanged.  Scalars have no identity in
the model (the memo only ever holds dict/MagiDict/list addresses), so the
memo lookup is skipped for them. -/
def hookStep (f : Heap → Memo → PyVal → Option (Heap × Memo × PyVal))
    (h : Heap) (memo : Memo) (v : PyVal) : Option (Heap × Memo × PyVal) :=
  match v with
  | .scalar s => some (h, memo, .scalar s)
  | .ref a =>
    match memoFind memo a with
    | some c => some (h, memo, c)
    | Option.none =>
      match heapGet h a with
      | some (.magi _ _ _) => some (h, (a, PyVal.ref a) :: memo, .ref a)
      | some (.dict es) =>
        let n := h.length
        match hookEntries f n es (h ++ [PyObj.magi false false []]) ((a, PyVal.ref n) :: memo) with
        | some (h2, m2) => some (h2, m2, .ref n)
        | Option.none => Option.none
      | some (.list xs) =>
        match hookListElems f a xs 0 h ((a, PyVal.ref a) :: memo) with
        | some (h2, m2) => some (h2, m2, .ref a)
        | Option.none => Option.none
      | some (.tuple xs) =>
        let n := h.length
        match hookTupleElems f n xs 0 (h ++ [PyObj.tuple (xs.map fun _ => PyVal.scalar .none)]) memo with
        | some (h2, m2) => some (h2, m2, .ref n)
        | Option.none => Option.none
      | Option.none => Option.none

/-- `magidict_hook_with_memo`, with explicit fuel bounding recursion depth. -/
def hookWithMemo : Nat → Heap → Memo → PyVal → Option (Heap × Memo × PyVal)
  | 0, _, _, _ => Option.none
  | fuel + 1, h, memo, v => hookStep (hookWithMemo fuel) h memo v

/-! ### Construction (`magidict_new` + `magidict_init`, main path:
a single plain-dict positional argument, no keywords) -/

/-- `MagiDict(d)`: allocate a fresh unprotected MagiDict, seed the memo with
`id(d) ↦ self`, hook every value of `d` and store it into self
(`PyDict_SetItem` directly, bypassing `__setitem__`).  Returns the new heap
and the address of the constructed MagiDict. -/
def magidict_new_init (fuel : Nat) (h : Heap) (inputA : Nat) : Option (Heap × Nat) :=
  match heapGet h inputA with
  | some (.dict es) | some (.magi _ _ es) =>
    let s := h.length
    match hookEntries (hookWithMemo fuel) s es (h ++ [PyObj.magi false false []])
        [(inputA, PyVal.ref s)] with
    | some (h2, _) => some (h2, s)
    | Option.none => Option.none
  | _ => Option.none

/-! ### Errors -/

/-- Error taxonomy of the spec.  `protectedMutation` is the C code's
`TypeError("Cannot modify NoneType or missing keys.")`; `keyNotFound` is
`KeyError`.  `typeErr` covers operations applied to a non-MagiDict address
(impossible in well-formed use); `outOfFuel` is the model artifact for
exhausted recursion fuel. -/
inductive MagiErr where
  | protectedMutation : MagiErr
  | keyNotFound : MagiErr
  | typeErr : MagiErr
  | outOfFuel : MagiErr
deriving DecidableEq, Repr

instance {ε α : Type} [DecidableEq ε] [DecidableEq α] : DecidableEq (Except ε α) :=
  fun x y =>
    match x, y with
    | .ok a, .ok b =>
      if h : a = b then .isTrue (by rw [h]) else .isFalse (by intro hc; cases hc; exact h rfl)
    | .error a, .error b =>
      if h : a = b then .isTrue (by rw [h]) else .isFalse (by intro hc; cases hc; exact h rfl)
    | .ok _, .error _ => .isFalse (by intro hc; cases hc)
    | .error _, .ok _ => .isFalse (by intro hc; cases hc)

/-! ### Mutation primitives, each guarded by `magidict_raise_if_protected` -/

/-- `__setitem__`: guard, hook the value with a fresh memo, store it. -/
def magidict_setitem (fuel : Nat) (h : Heap) (a : Nat) (k v : PyVal) :
    Heap × Except MagiErr Unit :=
  match heapGet h a with
  | some (.magi fn fm _) =>
    if fn || fm then (h, .error .protectedMutation)
    else
      match hookWithMemo fuel h [] v with
      | some (h1, _, hv) =>
        match heapDictSet h1 a k hv with
        | some h2 => (h2, .ok ())
        | Option.none => (h1, .error .typeErr)
      | Option.none => (h, .error .outOfFuel)
  | _ => (h, .error .typeErr)

/-- `__delitem__`: guard, then `PyDict_DelItem` (KeyError when absent). -/
def magidict_delitem (h : Heap) (a : Nat) (k : PyVal) : Heap × Except MagiErr Unit :=
  match heapGet h a with
  | some (.magi fn fm es) =>
    if fn || fm then (h, .error .protectedMutation)
    else if (dictGet es k).isSome then
      (heapSet h a (.magi fn fm (dictDel es k)), .ok ())
    else (h, .error .keyNotFound)
  | _ => (h, .error .typeErr)

/-- The loop body of `update`: each pair goes through `magidict_setitem`. -/
def updatePairs (fuel : Nat) (a : Nat) : List (PyVal × PyVal) → Heap → Heap × Except MagiErr Unit
  | [], h => (h, .ok ())
  | (k, v) :: rest, h =>
    match magidict_setitem fuel h a k v with
    | (h1, .ok _) => updatePairs fuel a rest h1
    | (h1, .error e) => (h1, .error e)

/-- `update`: guard, then set every pair of the positional mapping and then
of the keyword arguments. -/
def magidict_update (fuel : Nat) (h : Heap) (a : Nat)
    (other kwds : List (PyVal × PyVal)) : Heap × Except MagiErr Unit :=
  match heapGet h a with
  | some (.magi fn fm _) =>
    if fn || fm then (h, .error .protectedMutation)
    else
      match updatePairs fuel a other h with
      | (h1, .ok _) => updatePairs fuel a kwds h1
      | (h1, .error e) => (h1, .error e)
  | _ => (h, .error .typeErr)

/-- `clear`: guard, then `PyDict_Clear`. -/
def magidict_clear (h : Heap) (a : Nat) : Heap × Except MagiErr Unit :=
  match heapGet h a with
  | some (.magi fn fm _) =>
    if fn || fm then (h, .error .protectedMutation)
    else (heapSet h a (.magi fn fm []), .ok ())
  | _ => (h, .error .typeErr)

/-- `pop`: guard, then delegate to `PyDict_Type.tp_methods[0].ml_meth`.
In CPython the first entry of the dict method table is `__contains__`
(registered `METH_O | METH_COEXIST`), not `pop`; the delegated call therefore
performs a containment test of the raw argument tuple `args` against the
dict and returns that boolean. -/
def magidict_pop (h : Heap) (a : Nat) (args : List PyVal) : Heap × Except MagiErr PyVal :=
  match heapGet h a with
  | some (.magi fn fm es) =>
    if fn || fm then (h, .error .protectedMutation)
    else
      let n := h.length
      (h ++ [PyObj.tuple args], .ok (.scalar (.bool (dictGet es (.ref n)).isSome)))
  | _ => (h, .error .typeErr)

/-- `popitem`: guard; empty dict raises KeyError; otherwise pack the first
pair into a fresh tuple, delete the key, return the tuple. -/
def magidict_popitem (h : Heap) (a : Nat) : Heap × Except MagiErr PyVal :=
  match heapGet h a with
  | some (.magi fn fm es) =>
    if fn || fm then (h, .error .protectedMutation)
    else
      match es with
      | [] => (h, .error .keyNotFound)
      | (k, v) :: _ =>
        let h1 := h ++ [PyObj.tuple [k, v]]
        (heapSet h1 a (.magi fn fm (dictDel es k)), .ok (.ref h.length))
  | _ => (h, .error .typeErr)

/-- `setdefault`: guard; return the present value, else hook the default
with a fresh memo, store and return it. -/
def magidict_setdefault (fuel : Nat) (h : Heap) (a : Nat) (k d : PyVal) :
    Heap × Except MagiErr PyVal :=
  match heapGet h a with
  | some (.magi fn fm es) =>
    if fn || fm then (h, .error .protectedMutation)
    else
      match dictGet es k with
      | some v => (h, .ok v)
      | Option.none =>
        match hookWithMemo fuel h [] d with
        | some (h1, _, hv) =>
          match heapDictSet h1 a k hv with
          | some h2 => (h2, .ok hv)
          | Option.none => (h1, .error .typeErr)
        | Option.none => (h, .error .outOfFuel)
  | _ => (h, .error .typeErr)

/-! ### Safe and strict lookup -/

/-- Digit-string parsing, over the character list so that it evaluates by
kernel reduction. -/
def digitsToNatAux : List Char → Nat → Option Nat
  | [], acc => some acc
  | c :: rest, acc =>
    if 48 ≤ c.toNat ∧ c.toNat ≤ 57 then digitsToNatAux rest (acc * 10 + (c.toNat - 48))
    else Option.none

def digitsToNat? : List Char → Option Nat
  | [] => Option.none
  | cs => digitsToNatAux cs 0

/-- `int(s)` on a text value: optional sign followed by decimal digits
(the core of CPython's conversion; exotic forms such as surrounding
whitespace or underscores do not occur in the modelled behaviours). -/
def pyStrToInt? (s : String) : Option Int :=
  match s.data with
  | [] => Option.none
  | c :: rest =>
    if c = Char.ofNat 45 then (digitsToNat? rest).map fun n => -(n : Int)
    else if c = Char.ofNat 43 then (digitsToNat? rest).map fun n => (n : Int)
    else (digitsToNat? (c :: rest)).map fun n => (n : Int)

/-- `strchr(key, '.') != NULL`, over the character list. -/
def strContainsDot (s : String) : Bool := s.data.contains (Char.ofNat 46)

/-- `PyUnicode_Split(key, ".", -1)`, i.e. Python `key.split(".")`. -/
def splitDotAux : List Char → List Char → List String
  | [], acc => [String.mk acc.reverse]
  | c :: rest, acc =>
    if c = Char.ofNat 46 then String.mk acc.reverse :: splitDotAux rest []
    else splitDotAux rest (c :: acc)

def splitDot (s : String) : List String := splitDotAux s.data []

/-- `PyNumber_Long` on the values the lookup paths can feed it. -/
def pyToInt : PyVal → Option Int
  | .scalar (.int n) => some n
  | .scalar (.bool b) => some (if b then 1 else 0)
  | .scalar (.str s) => pyStrToInt? s
  | _ => Option.none

/-- `PySequence_GetItem`: negative indices count from the end. -/
def seqGetElem (xs : List PyVal) (i : Int) : Option PyVal :=
  let j : Int := if i < 0 then i + xs.length else i
  if j < 0 then Option.none else xs.get? j.toNat

/-- The sequence-of-keys walk of `__getitem__` (list/tuple key): mapping
lookup, else integer-indexed bounds-checked sequence access (strings and
bytes excluded), else fail; `Option.none` stands for "produce the missing
sentinel".  No per-step null check; no lazy promotion. -/
def pathLookupSafe (h : Heap) : PyVal → List PyVal → Option PyVal
  | obj, [] => some obj
  | obj, k :: rest =>
    match obj with
    | .ref b =>
      match heapGet h b with
      | some (.magi _ _ es) | some (.dict es) =>
        match dictGet es k with
        | some nxt => pathLookupSafe h nxt rest
        | Option.none => Option.none
      | some (.list xs) | some (.tuple xs) =>
        match pyToInt k with
        | some i =>
          match seqGetElem xs i with
          | some nxt => pathLookupSafe h nxt rest
          | Option.none => Option.none
        | Option.none => Option.none
      | Option.none => Option.none
    | .scalar _ => Option.none

/-- The dotted-string walk of `__getitem__`: same structure, but segments
are strings (converted with `PyNumber_Long` for sequence indexing) and a
failure raises `KeyError` in the caller. -/
def dottedWalk (h : Heap) : PyVal → List String → Option PyVal
  | obj, [] => some obj
  | obj, seg :: rest =>
    match obj with
    | .ref b =>
      match heapGet h b with
      | some (.magi _ _ es) | some (.dict es) =>
        match dictGet es (.scalar (.str seg)) with
        | some nxt => dottedWalk h nxt rest
        | Option.none => Option.none
      | some (.list xs) | some (.tuple xs) =>
        match pyStrToInt? seg with
        | some i =>
          match seqGetElem xs i with
          | some nxt => dottedWalk h nxt rest
          | Option.none => Option.none
        | Option.none => Option.none
      | Option.none => Option.none
    | .scalar _ => Option.none

/-- Standard-access part of `__getitem__`: plain lookup; on a miss, a text
key containing a dot is retried as a dotted path; otherwise KeyError. -/
def getitemStd (h : Heap) (a : Nat) (es : List (PyVal × PyVal)) (key : PyVal) :
    Heap × Except MagiErr PyVal :=
  match dictGet es key with
  | some v => (h, .ok v)
  | Option.none =>
    match key with
    | .scalar (.str s) =>
      if strContainsDot s then
        match dottedWalk h (.ref a) (splitDot s) with
        | some v => (h, .ok v)
        | Option.none => (h, .error .keyNotFound)
      else (h, .error .keyNotFound)
    | _ => (h, .error .keyNotFound)

/-- Result conversion for the sequence-of-keys branch: a failed walk yields
the missing sentinel; a final `None` yields the null sentinel. -/
def pathResult (h : Heap) (r : Option PyVal) : Heap × Except MagiErr PyVal :=
  match r with
  | Option.none =>
    let (h1, p) := createProtected h false true
    (h1, .ok p)
  | some obj =>
    if obj = .scalar .none then
      let (h1, p) := createProtected h true false
      (h1, .ok p)
    else (h, .ok obj)

/-- `magidict_getitem` (`mp_subscript`).  A tuple key that is itself a key
of the backing dict is returned directly; list/tuple keys otherwise walk the
nested structure forgivingly; all other keys use standard access. -/
def magidict_getitem (h : Heap) (a : Nat) (key : PyVal) : Heap × Except MagiErr PyVal :=
  match heapGet h a with
  | some (.magi _ _ es) =>
    match key with
    | .ref ka =>
      match heapGet h ka with
      | some (.tuple ks) =>
        match dictGet es key with
        | some v => (h, .ok v)
        | Option.none => pathResult h (pathLookupSafe h (.ref a) ks)
      | some (.list ks) => pathResult h (pathLookupSafe h (.ref a) ks)
      | _ => getitemStd h a es key
    | _ => getitemStd h a es key
  | _ => (h, .error .typeErr)

/-- `mget`: when no default is supplied the default is a fresh missing
sentinel; a stored `None` is replaced by a fresh null sentinel unless the
supplied default is itself `None`. -/
def magidict_mget (h : Heap) (a : Nat) (key : PyVal) (deflt : Option PyVal) :
    Heap × PyVal :=
  let hd : Heap × PyVal :=
    match deflt with
    | Option.none => createProtected h false true
    | some d => (h, d)
  match heapGet hd.1 a with
  | some (.magi _ _ es) =>
    match dictGet es key with
    | some v =>
      if v = .scalar .none ∧ hd.2 ≠ .scalar .none then createProtected hd.1 true false
      else (hd.1, v)
    | Option.none => hd
  | _ => hd

/-- Truthiness of a MagiDict: that of the underlying dict (non-emptiness). -/
def magidict_bool (h : Heap) (a : Nat) : Bool :=
  match heapGet h a with
  | some (.magi _ _ es) => !es.isEmpty
  | _ => false

/-! ### Disenchant (`magidict_disenchant_recursive`) -/

/-- The dict branch of disenchant: both keys and values are disenchanted
recursively (keys may be containers) and written into the fresh plain dict
at `dst`. -/
def disenchantEntries (f : Heap → Memo → PyVal → Option (Heap × Memo × PyVal)) (dst : Nat) :
    List (PyVal × PyVal) → Heap → Memo → Option (Heap × Memo)
  | [], h, memo => some (h, memo)
  | (k, v) :: rest, h, memo =>
    match f h memo k with
    | some (h1, m1, k1) =>
      match f h1 m1 v with
      | some (h2, m2, v1) =>
        match heapDictSet h2 dst k1 v1 with
        | some h3 => disenchantEntries f dst rest h3 m2
        | Option.none => Option.none
      | Option.none => Option.none
    | Option.none => Option.none

/-- The list branch of disenchant: fill slot `i` of the fresh list at `dst`
(the source list is not mutated, unlike hook). -/
def disenchantListElems (f : Heap → Memo → PyVal → Option (Heap × Memo × PyVal)) (dst : Nat) :
    List PyVal → Nat → Heap → Memo → Option (Heap × Memo)
  | [], _, h, memo => some (h, memo)
  | v :: rest, i, h, memo =>
    match f h memo v with
    | some (h1, m1, v1) =>
      match heapListSet h1 dst i v1 with
      | some h2 => disenchantListElems f dst rest (i + 1) h2 m1
      | Option.none => Option.none
    | Option.none => Option.none

/-- The tuple branch of disenchant (tuples are not memoized, as in the C). -/
def disenchantTupleElems (f : Heap → Memo → PyVal → Option (Heap × Memo × PyVal)) (dst : Nat) :
    List PyVal → Nat → Heap → Memo → Option (Heap × Memo)
  | [], _, h, memo => some (h, memo)
  | v :: rest, i, h, memo =>
    match f h memo v with
    | some (h1, m1, v1) =>
      match heapTupleSet h1 dst i v1 with
      | some h2 => disenchantTupleElems f dst rest (i + 1) h2 m1
      | Option.none => Option.none
    | Option.none => Option.none

/-- One step of `magidict_disenchant_recursive`: memo lookup, then MagiDict
or dict to a fresh plain dict (memoized before recursing), list to a fresh
list (memoized before recursing), tuple to a fresh tuple (not memoized),
anything else unchanged. -/
def disenchantStep (f : Heap → Memo → PyVal → Option (Heap × Memo × PyVal))
    (h : Heap) (memo : Memo) (v : PyVal) : Option (Heap × Memo × PyVal) :=
  match v with
  | .scalar s => some (h, memo, .scalar s)
  | .ref a =>
    match memoFind memo a with
    | some c => some (h, memo, c)
    | Option.none =>
      match heapGet h a with
      | some (.magi _ _ es) | some (.dict es) =>
        let n := h.length
        match disenchantEntries f n es (h ++ [PyObj.dict []]) ((a, PyVal.ref n) :: memo) with
        | some (h2, m2) => some (h2, m2, .ref n)
        | Option.none => Option.none
      | some (.list xs) =>
        let n := h.length
        match disenchantListElems f n xs 0
            (h ++ [PyObj.list (xs.map fun _ => PyVal.scalar .none)]) ((a, PyVal.ref n) :: memo) with
        | some (h2, m2) => some (h2, m2, .ref n)
        | Option.none => Option.none
      | some (.tuple xs) =>
        let n := h.length
        match disenchantTupleElems f n xs 0
            (h ++ [PyObj.tuple (xs.map fun _ => PyVal.scalar .none)]) memo with
        | some (h2, m2) => some (h2, m2, .ref n)
        | Option.none => Option.none
      | Option.none => Option.none

/-- `magidict_disenchant_recursive`, with explicit fuel. -/
def disenchantRec : Nat → Heap → Memo → PyVal → Option (Heap × Memo × PyVal)
  | 0, _, _, _ => Option.none
  | fuel + 1, h, memo, v => disenchantStep (disenchantRec fuel) h memo v

/-- The `disenchant` method: fresh memo, recurse from the container itself. -/
def magidict_disenchant (fuel : Nat) (h : Heap) (a : Nat) :
    Option (Heap × Memo × PyVal) :=
  disenchantRec fuel h [] (.ref a)

/-! ### Plain trees

`PTree` is the abstract shape of an acyclic, unshared tree of plain
mappings, sequences and scalars — the inputs the algebraic claims quantify
over.  `encodeT` lays such a tree out in the heap (children first, each node
at a fresh address), producing exactly the object graph a Python program
building the tree bottom-up would produce. -/

inductive PTree where
  | scalar (s : PyScalar) : PTree
  | pmap (entries : List (PyScalar × PTree)) : PTree
  | plist (elems : List PTree) : PTree
  | ptuple (elems : List PTree) : PTree
deriving Repr

mutual
def PTree.depth : PTree → Nat
  | .scalar _ => 0
  | .pmap es => 1 + PTree.depthEntries es
  | .plist ts => 1 + PTree.depthList ts
  | .ptuple ts => 1 + PTree.depthList ts
def PTree.depthEntries : List (PyScalar × PTree) → Nat
  | [] => 0
  | (_, t) :: rest => max (PTree.depth t) (PTree.depthEntries rest)
def PTree.depthList : List PTree → Nat
  | [] => 0
  | t :: rest => max (PTree.depth t) (PTree.depthList rest)
end

/-- Distinctness of a key list, computed. -/
def keysNodup : List PyScalar → Bool
  | [] => true
  | k :: rest => !rest.contains k && keysNodup rest

/- Well-formedness: every mapping node has pairwise distinct keys, as a
real Python dict does. -/
mutual
def PTree.wf : PTree → Bool
  | .scalar _ => true
  | .pmap es => keysNodup (es.map Prod.fst) && PTree.wfEntries es
  | .plist ts => PTree.wfList ts
  | .ptuple ts => PTree.wfList ts
def PTree.wfEntries : List (PyScalar × PTree) → Bool
  | [] => true
  | (_, t) :: rest => PTree.wf t && PTree.wfEntries rest
def PTree.wfList : List PTree → Bool
  | [] => true
  | t :: rest => PTree.wf t && PTree.wfList rest
end

mutual
def encodeT : PTree → Heap → Heap × PyVal
  | .scalar s, h => (h, .scalar s)
  | .pmap es, h =>
    let p := encodeEntriesT es h
    (p.1 ++ [PyObj.dict p.2], .ref p.1.length)
  | .plist ts, h =>
    let p := encodeListT ts h
    (p.1 ++ [PyObj.list p.2], .ref p.1.length)
  | .ptuple ts, h =>
    let p := encodeListT ts h
    (p.1 ++ [PyObj.tuple p.2], .ref p.1.length)
def encodeEntriesT : List (PyScalar × PTree) → Heap → Heap × List (PyVal × PyVal)
  | [], h => (h, [])
  | (k, t) :: rest, h =>
    let p := encodeT t h
    let q := encodeEntriesT rest p.1
    (q.1, (PyVal.scalar k, p.2) :: q.2)
def encodeListT : List PTree → Heap → Heap × List PyVal
  | [], h => (h, [])
  | t :: ts, h =>
    let p := encodeT t h
    let q := encodeListT ts p.1
    (q.1, p.2 :: q.2)
end

/-! ### Reading object graphs back as trees

`decodeHookedA` reads a value in a heap as the fully hooked image of a
`PTree`: mapping nodes must be unprotected MagiDicts.  `decodePlainA` reads
a value as a plain tree: mapping nodes must be plain dicts.  Both thread a
visited list and fail on any revisited address, so a successful decode
certifies the graph is an unshared tree; both return the extended visited
list. -/

def decodeHEntries (f : Heap → List Nat → PyVal → Option (PTree × List Nat)) (h : Heap) :
    List Nat → List (PyVal × PyVal) → Option (List (PyScalar × PTree) × List Nat)
  | vis, [] => some ([], vis)
  | vis, (.scalar sk, v) :: rest =>
    match f h vis v with
    | some (t, vis1) =>
      match decodeHEntries f h vis1 rest with
      | some (ts, vis2) => some ((sk, t) :: ts, vis2)
      | Option.none => Option.none
    | Option.none => Option.none
  | _, (.ref _, _) :: _ => Option.none

def decodeHList (f : Heap → List Nat → PyVal → Option (PTree × List Nat)) (h : Heap) :
    List Nat → List PyVal → Option (List PTree × List Nat)
  | vis, [] => some ([], vis)
  | vis, v :: rest =>
    match f h vis v with
    | some (t, vis1) =>
      match decodeHList f h vis1 rest with
      | some (ts, vis2) => some (t :: ts, vis2)
      | Option.none => Option.none
    | Option.none => Option.none

def decodeHookedStep (f : Heap → List Nat → PyVal → Option (PTree × List Nat))
    (h : Heap) (vis : List Nat) (v : PyVal) : Option (PTree × List Nat) :=
  match v with
  | .scalar s => some (.scalar s, vis)
  | .ref a =>
    if a ∈ vis then Option.none
    else
      match heapGet h a with
      | some (.magi false false es) =>
        match decodeHEntries f h (a :: vis) es with
        | some (ts, vis1) => some (.pmap ts, vis1)
        | Option.none => Option.none
      | some (.list xs) =>
        match decodeHList f h (a :: vis) xs with
        | some (ts, vis1) => some (.plist ts, vis1)
        | Option.none => Option.none
      | some (.tuple xs) =>
        match decodeHList f h (a :: vis) xs with
        | some (ts, vis1) => some (.ptuple ts, vis1)
        | Option.none => Option.none
      | _ => Option.none

def decodeHookedA : Nat → Heap → List Nat → PyVal → Option (PTree × List Nat)
  | 0, _, _, _ => Option.none
  | fuel + 1, h, vis, v => decodeHookedStep (decodeHookedA fuel) h vis v

def decodePlainStep (f : Heap → List Nat → PyVal → Option (PTree × List Nat))
    (h : Heap) (vis : List Nat) (v : PyVal) : Option (PTree × List Nat) :=
  match v with
  | .scalar s => some (.scalar s, vis)
  | .ref a =>
    if a ∈ vis then Option.none
    else
      match heapGet h a with
      | some (.dict es) =>
        match decodeHEntries f h (a :: vis) es with
        | some (ts, vis1) => some (.pmap ts, vis1)
        | Option.none => Option.none
      | some (.list xs) =>
        match decodeHList f h (a :: vis) xs with
        | some (ts, vis1) => some (.plist ts, vis1)
        | Option.none => Option.none
      | some (.tuple xs) =>
        match decodeHList f h (a :: vis) xs with
        | some (ts, vis1) => some (.ptuple ts, vis1)
        | Option.none => Option.none
      | _ => Option.none

def decodePlainA : Nat → Heap → List Nat → PyVal → Option (PTree × List Nat)
  | 0, _, _, _ => Option.none
  | fuel + 1, h, vis, v => decodePlainStep (decodePlainA fuel) h vis v

/-! ### Dotted-path lookup, as the spec words it

The claim describes the dotted branch of `__getitem__` as: split on the
delimiter, then resolve each segment in turn — a mapping resolves the
segment as a text key, a non-text sequence resolves it as an integer index
with bounds checking, anything else fails — returning the final value when
every segment resolves.  `specResolveSeg`/`specDottedLookup` formalize that
wording; the theorem for the claim connects `magidict_getitem` to it. -/

def specResolveSeg (h : Heap) (obj : PyVal) (seg : String) : Option PyVal :=
  match obj with
  | .ref b =>
    match heapGet h b with
    | some (.magi _ _ es) | some (.dict es) => dictGet es (.scalar (.str seg))
    | some (.list xs) | some (.tuple xs) => (pyStrToInt? seg).bind (seqGetElem xs)
    | Option.none => Option.none
  | .scalar _ => Option.none

def specDottedLookup (h : Heap) (obj : PyVal) (segs : List String) : Option PyVal :=
  segs.foldlM (specResolveSeg h) obj

/-! ## Basic heap lemmas -/

theorem heapGet_lt_length {h : Heap} {a : Nat} {o : PyObj} (hh : heapGet h a = some o) :
    a < h.length := by
  by_contra hc
  rw [heapGet, List.get?_eq_none.2 (Nat.le_of_not_lt hc)] at hh
  exact Option.noConfusion hh

theorem heapGet_append_left {h : Heap} (h2 : Heap) {a : Nat} (ha : a < h.length) :
    heapGet (h ++ h2) a = heapGet h a := by
  simp [heapGet]
  exact List.getElem?_append_left ha

theorem heapGet_append_self (h : Heap) (o : PyObj) :
    heapGet (h ++ [o]) h.length = some o := by
  simp [heapGet]

theorem length_heapSet (h : Heap) (a : Nat) (o : PyObj) :
    (heapSet h a o).length = h.length := by
  simp [heapSet]

theorem heapGet_heapSet_eq {h : Heap} {a : Nat} (ha : a < h.length) (o : PyObj) :
    heapGet (heapSet h a o) a = some o := by
  simp [heapGet, heapSet]
  exact List.getElem?_set_eq_of_lt o ha

theorem heapGet_heapSet_ne (h : Heap) {a b : Nat} (hne : a ≠ b) (o : PyObj) :
    heapGet (heapSet h a o) b = heapGet h b := by
  simp [heapGet, heapSet]
  exact List.getElem?_set_ne hne

/-! ## Association-list and memo lemmas -/

theorem memoFind_cons (k : Nat) (v : PyVal) (m : Memo) (a : Nat) :
    memoFind ((k, v) :: m) a = if k = a then some v else memoFind m a := rfl

theorem dictGet_append_of_forall_ne {es1 : List (PyVal × PyVal)} (es2 : List (PyVal × PyVal))
    {k : PyVal} (hk : ∀ q ∈ es1, q.1 ≠ k) :
    dictGet (es1 ++ es2) k = dictGet es2 k := by
  induction es1 with
  | nil => rfl
  | cons p rest ih =>
    have hp : p.1 ≠ k := hk p (List.mem_cons_self p rest)
    have : dictGet ((p :: rest) ++ es2) k = dictGet (rest ++ es2) k := by
      obtain ⟨p1, p2⟩ := p
      simp [dictGet, hp]
    rw [this, ih]
    intro q hq
    exact hk q (List.mem_cons_of_mem _ hq)

theorem dictGet_append_left {es1 : List (PyVal × PyVal)} (es2 : List (PyVal × PyVal))
    {k v : PyVal} (hv : dictGet es1 k = some v) :
    dictGet (es1 ++ es2) k = some v := by
  induction es1 with
  | nil => exact absurd hv (by simp [dictGet])
  | cons p rest ih =>
    obtain ⟨p1, p2⟩ := p
    by_cases hp : p1 = k
    · simp [dictGet, hp] at hv ⊢
      exact hv
    · simp [dictGet, hp] at hv ⊢
      exact ih hv

theorem dictSet_append {es : List (PyVal × PyVal)} {k : PyVal}
    (hk : ∀ q ∈ es, q.1 ≠ k) (v : PyVal) :
    dictSet es k v = es ++ [(k, v)] := by
  induction es with
  | nil => rfl
  | cons p rest ih =>
    obtain ⟨p1, p2⟩ := p
    have hp : p1 ≠ k := hk (p1, p2) (List.mem_cons_self _ rest)
    simp [dictSet, hp]
    exact ih fun q hq => hk q (List.mem_cons_of_mem _ hq)

theorem set_at_length (l1 : List PyVal) (a : PyVal) (l2 : List PyVal) (b : PyVal) :
    (l1 ++ a :: l2).set l1.length b = l1 ++ b :: l2 := by
  induction l1 with
  | nil => rfl
  | cons x rest ih => simp [List.set, ih]

theorem keysNodup_cons {k : PyScalar} {ks : List PyScalar}
    (h : keysNodup (k :: ks) = true) :
    k ∉ ks ∧ keysNodup ks = true := by
  have h' : (!ks.contains k && keysNodup ks) = true := h
  rw [Bool.and_eq_true, Bool.not_eq_true'] at h'
  refine ⟨?_, h'.2⟩
  intro hmem
  have hc : ks.contains k = true := by simpa using hmem
  rw [hc] at h'
  exact Bool.noConfusion h'.1

/-! ## Encode shape lemmas -/

mutual
theorem encodeT_shape : ∀ (t : PTree) (h0 : Heap), ∃ ext, (encodeT t h0).1 = h0 ++ ext
  | .scalar s, h0 => ⟨[], by simp [encodeT]⟩
  | .pmap es, h0 => by
    obtain ⟨ext, he⟩ := encodeEntriesT_shape es h0
    exact ⟨ext ++ [PyObj.dict (encodeEntriesT es h0).2], by simp [encodeT, he]⟩
  | .plist ts, h0 => by
    obtain ⟨ext, he⟩ := encodeListT_shape ts h0
    exact ⟨ext ++ [PyObj.list (encodeListT ts h0).2], by simp [encodeT, he]⟩
  | .ptuple ts, h0 => by
    obtain ⟨ext, he⟩ := encodeListT_shape ts h0
    exact ⟨ext ++ [PyObj.tuple (encodeListT ts h0).2], by simp [encodeT, he]⟩
theorem encodeEntriesT_shape : ∀ (es : List (PyScalar × PTree)) (h0 : Heap),
    ∃ ext, (encodeEntriesT es h0).1 = h0 ++ ext
  | [], h0 => ⟨[], by simp [encodeEntriesT]⟩
  | (k, t) :: rest, h0 => by
    obtain ⟨e1, h1⟩ := encodeT_shape t h0
    obtain ⟨e2, h2⟩ := encodeEntriesT_shape rest (encodeT t h0).1
    refine ⟨e1 ++ e2, ?_⟩
    show (encodeEntriesT rest (encodeT t h0).1).1 = h0 ++ (e1 ++ e2)
    rw [h2, h1, List.append_assoc]
theorem encodeListT_shape : ∀ (ts : List PTree) (h0 : Heap),
    ∃ ext, (encodeListT ts h0).1 = h0 ++ ext
  | [], h0 => ⟨[], by simp [encodeListT]⟩
  | t :: ts, h0 => by
    obtain ⟨e1, h1⟩ := encodeT_shape t h0
    obtain ⟨e2, h2⟩ := encodeListT_shape ts (encodeT t h0).1
    refine ⟨e1 ++ e2, ?_⟩
    show (encodeListT ts (encodeT t h0).1).1 = h0 ++ (e1 ++ e2)
    rw [h2, h1, List.append_assoc]
end

theorem encodeT_length_le (t : PTree) (h0 : Heap) : h0.length ≤ (encodeT t h0).1.length := by
  obtain ⟨ext, he⟩ := encodeT_shape t h0
  simp [he]

theorem encodeEntriesT_length_le (es : List (PyScalar × PTree)) (h0 : Heap) :
    h0.length ≤ (encodeEntriesT es h0).1.length := by
  obtain ⟨ext, he⟩ := encodeEntriesT_shape es h0
  simp [he]

theorem encodeListT_length_le (ts : List PTree) (h0 : Heap) :
    h0.length ≤ (encodeListT ts h0).1.length := by
  obtain ⟨ext, he⟩ := encodeListT_shape ts h0
  simp [he]

theorem encodeT_get_low {t : PTree} {h0 : Heap} {x : Nat} (hx : x < h0.length) :
    heapGet (encodeT t h0).1 x = heapGet h0 x := by
  obtain ⟨ext, he⟩ := encodeT_shape t h0
  rw [he, heapGet_append_left _ hx]

theorem encodeEntriesT_get_low {es : List (PyScalar × PTree)} {h0 : Heap} {x : Nat}
    (hx : x < h0.length) :
    heapGet (encodeEntriesT es h0).1 x = heapGet h0 x := by
  obtain ⟨ext, he⟩ := encodeEntriesT_shape es h0
  rw [he, heapGet_append_left _ hx]

theorem encodeListT_get_low {ts : List PTree} {h0 : Heap} {x : Nat}
    (hx : x < h0.length) :
    heapGet (encodeListT ts h0).1 x = heapGet h0 x := by
  obtain ⟨ext, he⟩ := encodeListT_shape ts h0
  rw [he, heapGet_append_left _ hx]

/-! ## Frame lemmas for the tree decoders

A successful decode extends the visited list by exactly the set of
addresses it reads, and its result does not depend on the incoming visited
list as long as that set is avoided. -/

def DHFrame (f : Heap → List Nat → PyVal → Option (PTree × List Nat)) (h : Heap) : Prop :=
  ∀ vis v t out, f h vis v = some (t, out) →
    ∃ Δ, out = Δ ++ vis ∧ (∀ x ∈ Δ, x ∉ vis ∧ x < h.length) ∧
      ∀ vis', (∀ x ∈ Δ, x ∉ vis') → f h vis' v = some (t, Δ ++ vis')

theorem decodeHList_frame {f : Heap → List Nat → PyVal → Option (PTree × List Nat)}
    {h : Heap} (hf : DHFrame f h) :
    ∀ (xs : List PyVal) (vis : List Nat) (ts : List PTree) (out : List Nat),
      decodeHList f h vis xs = some (ts, out) →
      ∃ Δ, out = Δ ++ vis ∧ (∀ x ∈ Δ, x ∉ vis ∧ x < h.length) ∧
        ∀ vis', (∀ x ∈ Δ, x ∉ vis') → decodeHList f h vis' xs = some (ts, Δ ++ vis') := by
  intro xs
  induction xs with
  | nil =>
    intro vis ts out hEq
    simp only [decodeHList, Option.some.injEq, Prod.mk.injEq] at hEq
    exact ⟨[], by simp [hEq.2.symm], by simp, fun vis' _ => by simp [decodeHList, hEq.1.symm]⟩
  | cons v rest ih =>
    intro vis ts out hEq
    simp only [decodeHList] at hEq
    cases hE : f h vis v with
    | none => rw [hE] at hEq; exact absurd hEq (by simp)
    | some p =>
      obtain ⟨t1, vis1⟩ := p
      rw [hE] at hEq
      dsimp only at hEq
      cases hR : decodeHList f h vis1 rest with
      | none => rw [hR] at hEq; exact absurd hEq (by simp)
      | some q =>
        obtain ⟨ts2, vis2⟩ := q
        rw [hR] at hEq
        dsimp only at hEq
        simp only [Option.some.injEq, Prod.mk.injEq] at hEq
        obtain ⟨hts, hout⟩ := hEq
        obtain ⟨Δ1, hv1, hΔ1, hall1⟩ := hf vis v t1 vis1 hE
        obtain ⟨Δ2, hv2, hΔ2, hall2⟩ := ih vis1 ts2 vis2 hR
        refine ⟨Δ2 ++ Δ1, ?_, ?_, ?_⟩
        · rw [← hout, hv2, hv1, List.append_assoc]
        · intro x hx
          rcases List.mem_append.1 hx with hx2 | hx1
          · have := hΔ2 x hx2
            rw [hv1] at this
            exact ⟨fun hxv => this.1 (List.mem_append.2 (Or.inr hxv)), this.2⟩
          · exact hΔ1 x hx1
        · intro vis' hvis'
          have hΔ1vis' : ∀ x ∈ Δ1, x ∉ vis' := fun x hx =>
            hvis' x (List.mem_append.2 (Or.inr hx))
          have h1 := hall1 vis' hΔ1vis'
          have hΔ2vis' : ∀ x ∈ Δ2, x ∉ Δ1 ++ vis' := by
            intro x hx
            intro hmem
            rcases List.mem_append.1 hmem with hx1 | hxv
            · have := (hΔ2 x hx).1
              rw [hv1] at this
              exact this (List.mem_append.2 (Or.inl hx1))
            · exact hvis' x (List.mem_append.2 (Or.inl hx)) hxv
          have h2 := hall2 (Δ1 ++ vis') hΔ2vis'
          simp only [decodeHList, h1, h2, ← hts, List.append_assoc]

theorem decodeHEntries_frame {f : Heap → List Nat → PyVal → Option (PTree × List Nat)}
    {h : Heap} (hf : DHFrame f h) :
    ∀ (es : List (PyVal × PyVal)) (vis : List Nat) (ts : List (PyScalar × PTree)) (out : List Nat),
      decodeHEntries f h vis es = some (ts, out) →
      ∃ Δ, out = Δ ++ vis ∧ (∀ x ∈ Δ, x ∉ vis ∧ x < h.length) ∧
        ∀ vis', (∀ x ∈ Δ, x ∉ vis') → decodeHEntries f h vis' es = some (ts, Δ ++ vis') := by
  intro es
  induction es with
  | nil =>
    intro vis ts out hEq
    simp only [decodeHEntries, Option.some.injEq, Prod.mk.injEq] at hEq
    exact ⟨[], by simp [hEq.2.symm], by simp, fun vis' _ => by simp [decodeHEntries, hEq.1.symm]⟩
  | cons p rest ih =>
    intro vis ts out hEq
    obtain ⟨pk, pv⟩ := p
    cases pk with
    | ref b => exact absurd hEq (by simp [decodeHEntries])
    | scalar sk =>
      simp only [decodeHEntries] at hEq
      cases hE : f h vis pv with
      | none => rw [hE] at hEq; exact absurd hEq (by simp)
      | some p1 =>
        obtain ⟨t1, vis1⟩ := p1
        rw [hE] at hEq
        dsimp only at hEq
        cases hR : decodeHEntries f h vis1 rest with
        | none => rw [hR] at hEq; exact absurd hEq (by simp)
        | some q =>
          obtain ⟨ts2, vis2⟩ := q
          rw [hR] at hEq
          dsimp only at hEq
          simp only [Option.some.injEq, Prod.mk.injEq] at hEq
          obtain ⟨hts, hout⟩ := hEq
          obtain ⟨Δ1, hv1, hΔ1, hall1⟩ := hf vis pv t1 vis1 hE
          obtain ⟨Δ2, hv2, hΔ2, hall2⟩ := ih vis1 ts2 vis2 hR
          refine ⟨Δ2 ++ Δ1, ?_, ?_, ?_⟩
          · rw [← hout, hv2, hv1, List.append_assoc]
          · intro x hx
            rcases List.mem_append.1 hx with hx2 | hx1
            · have := hΔ2 x hx2
              rw [hv1] at this
              exact ⟨fun hxv => this.1 (List.mem_append.2 (Or.inr hxv)), this.2⟩
            · exact hΔ1 x hx1
          · intro vis' hvis'
            have hΔ1vis' : ∀ x ∈ Δ1, x ∉ vis' := fun x hx =>
              hvis' x (List.mem_append.2 (Or.inr hx))
            have h1 := hall1 vis' hΔ1vis'
            have hΔ2vis' : ∀ x ∈ Δ2, x ∉ Δ1 ++ vis' := by
              intro x hx
              intro hmem
              rcases List.mem_append.1 hmem with hx1 | hxv
              · have := (hΔ2 x hx).1
                rw [hv1] at this
                exact this (List.mem_append.2 (Or.inl hx1))
              · exact hvis' x (List.mem_append.2 (Or.inl hx)) hxv
            have h2 := hall2 (Δ1 ++ vis') hΔ2vis'
            simp only [decodeHEntries, h1, h2, ← hts, List.append_assoc]

theorem decodeHookedA_frame : ∀ (fuel : Nat) (h : Heap), DHFrame (decodeHookedA fuel) h := by
  intro fuel
  induction fuel with
  | zero =>
    intro h vis v t out hEq
    exact absurd hEq (by simp [decodeHookedA])
  | succ fuel ih =>
    intro h vis v t out hEq
    cases v with
    | scalar s =>
      simp only [decodeHookedA, decodeHookedStep, Option.some.injEq, Prod.mk.injEq] at hEq
      exact ⟨[], by simp [hEq.2.symm], by simp,
        fun vis' _ => by simp [decodeHookedA, decodeHookedStep, hEq.1.symm]⟩
    | ref a =>
      simp only [decodeHookedA, decodeHookedStep] at hEq
      by_cases ha : a ∈ vis
      · rw [if_pos ha] at hEq
        exact absurd hEq (by simp)
      rw [if_neg ha] at hEq
      cases hg : heapGet h a with
      | none => rw [hg] at hEq; exact absurd hEq (by simp)
      | some o =>
        rw [hg] at hEq
        have haLt : a < h.length := heapGet_lt_length hg
        cases o with
        | dict es => exact absurd hEq (by simp)
        | magi fn fm es =>
          cases fn with
          | true => exact absurd hEq (by simp)
          | false =>
            cases fm with
            | true => exact absurd hEq (by simp)
            | false =>
              dsimp only at hEq
              cases hD : decodeHEntries (decodeHookedA fuel) h (a :: vis) es with
              | none => rw [hD] at hEq; exact absurd hEq (by simp)
              | some q =>
                obtain ⟨ts, vis1⟩ := q
                rw [hD] at hEq
                simp only [Option.some.injEq, Prod.mk.injEq] at hEq
                obtain ⟨ht, hout⟩ := hEq
                obtain ⟨Δe, hv1, hΔe, halle⟩ := decodeHEntries_frame (ih h) es (a :: vis) ts vis1 hD
                refine ⟨Δe ++ [a], ?_, ?_, ?_⟩
                · rw [← hout, hv1]; simp
                · intro x hx
                  rcases List.mem_append.1 hx with hxe | hxa
                  · have := hΔe x hxe
                    exact ⟨fun hv => this.1 (List.mem_cons_of_mem _ hv), this.2⟩
                  · rw [List.mem_singleton.1 hxa]
                    exact ⟨ha, haLt⟩
                · intro vis' hvis'
                  have haN : a ∉ vis' := hvis' a (List.mem_append.2 (Or.inr (List.mem_singleton.2 rfl)))
                  have hΔeN : ∀ x ∈ Δe, x ∉ a :: vis' := by
                    intro x hx
                    have hxa : x ≠ a := fun hc =>
                      (hΔe x hx).1 (hc ▸ List.mem_cons_self a vis)
                    have hxv : x ∉ vis' := hvis' x (List.mem_append.2 (Or.inl hx))
                    simp [hxa, hxv]
                  have := halle (a :: vis') hΔeN
                  simp only [decodeHookedA, decodeHookedStep, if_neg haN, hg, this, ← ht]
                  simp
        | list xs =>
          dsimp only at hEq
          cases hD : decodeHList (decodeHookedA fuel) h (a :: vis) xs with
          | none => rw [hD] at hEq; exact absurd hEq (by simp)
          | some q =>
            obtain ⟨ts, vis1⟩ := q
            rw [hD] at hEq
            simp only [Option.some.injEq, Prod.mk.injEq] at hEq
            obtain ⟨ht, hout⟩ := hEq
            obtain ⟨Δe, hv1, hΔe, halle⟩ := decodeHList_frame (ih h) xs (a :: vis) ts vis1 hD
            refine ⟨Δe ++ [a], ?_, ?_, ?_⟩
            · rw [← hout, hv1]; simp
            · intro x hx
              rcases List.mem_append.1 hx with hxe | hxa
              · have := hΔe x hxe
                exact ⟨fun hv => this.1 (List.mem_cons_of_mem _ hv), this.2⟩
              · rw [List.mem_singleton.1 hxa]
                exact ⟨ha, haLt⟩
            · intro vis' hvis'
              have haN : a ∉ vis' := hvis' a (List.mem_append.2 (Or.inr (List.mem_singleton.2 rfl)))
              have hΔeN : ∀ x ∈ Δe, x ∉ a :: vis' := by
                intro x hx
                have hxa : x ≠ a := fun hc =>
                  (hΔe x hx).1 (hc ▸ List.mem_cons_self a vis)
                have hxv : x ∉ vis' := hvis' x (List.mem_append.2 (Or.inl hx))
                simp [hxa, hxv]
              have := halle (a :: vis') hΔeN
              simp only [decodeHookedA, decodeHookedStep, if_neg haN, hg, this, ← ht]
              simp
        | tuple xs =>
          dsimp only at hEq
          cases hD : decodeHList (decodeHookedA fuel) h (a :: vis) xs with
          | none => rw [hD] at hEq; exact absurd hEq (by simp)
          | some q =>
            obtain ⟨ts, vis1⟩ := q
            rw [hD] at hEq
            simp only [Option.some.injEq, Prod.mk.injEq] at hEq
            obtain ⟨ht, hout⟩ := hEq
            obtain ⟨Δe, hv1, hΔe, halle⟩ := decodeHList_frame (ih h) xs (a :: vis) ts vis1 hD
            refine ⟨Δe ++ [a], ?_, ?_, ?_⟩
            · rw [← hout, hv1]; simp
            · intro x hx
              rcases List.mem_append.1 hx with hxe | hxa
              · have := hΔe x hxe
                exact ⟨fun hv => this.1 (List.mem_cons_of_mem _ hv), this.2⟩
              · rw [List.mem_singleton.1 hxa]
                exact ⟨ha, haLt⟩
            · intro vis' hvis'
              have haN : a ∉ vis' := hvis' a (List.mem_append.2 (Or.inr (List.mem_singleton.2 rfl)))
              have hΔeN : ∀ x ∈ Δe, x ∉ a :: vis' := by
                intro x hx
                have hxa : x ≠ a := fun hc =>
                  (hΔe x hx).1 (hc ▸ List.mem_cons_self a vis)
                have hxv : x ∉ vis' := hvis' x (List.mem_append.2 (Or.inl hx))
                simp [hxa, hxv]
              have := halle (a :: vis') hΔeN
              simp only [decodeHookedA, decodeHookedStep, if_neg haN, hg, this, ← ht]
              simp

theorem decodePlainA_frame : ∀ (fuel : Nat) (h : Heap), DHFrame (decodePlainA fuel) h := by
  intro fuel
  induction fuel with
  | zero =>
    intro h vis v t out hEq
    exact absurd hEq (by simp [decodePlainA])
  | succ fuel ih =>
    intro h vis v t out hEq
    cases v with
    | scalar s =>
      simp only [decodePlainA, decodePlainStep, Option.some.injEq, Prod.mk.injEq] at hEq
      exact ⟨[], by simp [hEq.2.symm], by simp,
        fun vis' _ => by simp [decodePlainA, decodePlainStep, hEq.1.symm]⟩
    | ref a =>
      simp only [decodePlainA, decodePlainStep] at hEq
      by_cases ha : a ∈ vis
      · rw [if_pos ha] at hEq
        exact absurd hEq (by simp)
      rw [if_neg ha] at hEq
      cases hg : heapGet h a with
      | none => rw [hg] at hEq; exact absurd hEq (by simp)
      | some o =>
        rw [hg] at hEq
        have haLt : a < h.length := heapGet_lt_length hg
        cases o with
        | magi fn fm es => exact absurd hEq (by simp)
        | dict es =>
          dsimp only at hEq
          cases hD : decodeHEntries (decodePlainA fuel) h (a :: vis) es with
          | none => rw [hD] at hEq; exact absurd hEq (by simp)
          | some q =>
            obtain ⟨ts, vis1⟩ := q
            rw [hD] at hEq
            simp only [Option.some.injEq, Prod.mk.injEq] at hEq
            obtain ⟨ht, hout⟩ := hEq
            obtain ⟨Δe, hv1, hΔe, halle⟩ := decodeHEntries_frame (ih h) es (a :: vis) ts vis1 hD
            refine ⟨Δe ++ [a], ?_, ?_, ?_⟩
            · rw [← hout, hv1]; simp
            · intro x hx
              rcases List.mem_append.1 hx with hxe | hxa
              · have := hΔe x hxe
                exact ⟨fun hv => this.1 (List.mem_cons_of_mem _ hv), this.2⟩
              · rw [List.mem_singleton.1 hxa]
                exact ⟨ha, haLt⟩
            · intro vis' hvis'
              have haN : a ∉ vis' := hvis' a (List.mem_append.2 (Or.inr (List.mem_singleton.2 rfl)))
              have hΔeN : ∀ x ∈ Δe, x ∉ a :: vis' := by
                intro x hx
                have hxa : x ≠ a := fun hc =>
                  (hΔe x hx).1 (hc ▸ List.mem_cons_self a vis)
                have hxv : x ∉ vis' := hvis' x (List.mem_append.2 (Or.inl hx))
                simp [hxa, hxv]
              have := halle (a :: vis') hΔeN
              simp only [decodePlainA, decodePlainStep, if_neg haN, hg, this, ← ht]
              simp
        | list xs =>
          dsimp only at hEq
          cases hD : decodeHList (decodePlainA fuel) h (a :: vis) xs with
          | none => rw [hD] at hEq; exact absurd hEq (by simp)
          | some q =>
            obtain ⟨ts, vis1⟩ := q
            rw [hD] at hEq
            simp only [Option.some.injEq, Prod.mk.injEq] at hEq
            obtain ⟨ht, hout⟩ := hEq
            obtain ⟨Δe, hv1, hΔe, halle⟩ := decodeHList_frame (ih h) xs (a :: vis) ts vis1 hD
            refine ⟨Δe ++ [a], ?_, ?_, ?_⟩
            · rw [← hout, hv1]; simp
            · intro x hx
              rcases List.mem_append.1 hx with hxe | hxa
              · have := hΔe x hxe
                exact ⟨fun hv => this.1 (List.mem_cons_of_mem _ hv), this.2⟩
              · rw [List.mem_singleton.1 hxa]
                exact ⟨ha, haLt⟩
            · intro vis' hvis'
              have haN : a ∉ vis' := hvis' a (List.mem_append.2 (Or.inr (List.mem_singleton.2 rfl)))
              have hΔeN : ∀ x ∈ Δe, x ∉ a :: vis' := by
                intro x hx
                have hxa : x ≠ a := fun hc =>
                  (hΔe x hx).1 (hc ▸ List.mem_cons_self a vis)
                have hxv : x ∉ vis' := hvis' x (List.mem_append.2 (Or.inl hx))
                simp [hxa, hxv]
              have := halle (a :: vis') hΔeN
              simp only [decodePlainA, decodePlainStep, if_neg haN, hg, this, ← ht]
              simp
        | tuple xs =>
          dsimp only at hEq
          cases hD : decodeHList (decodePlainA fuel) h (a :: vis) xs with
          | none => rw [hD] at hEq; exact absurd hEq (by simp)
          | some q =>
            obtain ⟨ts, vis1⟩ := q
            rw [hD] at hEq
            simp only [Option.some.injEq, Prod.mk.injEq] at hEq
            obtain ⟨ht, hout⟩ := hEq
            obtain ⟨Δe, hv1, hΔe, halle⟩ := decodeHList_frame (ih h) xs (a :: vis) ts vis1 hD
            refine ⟨Δe ++ [a], ?_, ?_, ?_⟩
            · rw [← hout, hv1]; simp
            · intro x hx
              rcases List.mem_append.1 hx with hxe | hxa
              · have := hΔe x hxe
                exact ⟨fun hv => this.1 (List.mem_cons_of_mem _ hv), this.2⟩
              · rw [List.mem_singleton.1 hxa]
                exact ⟨ha, haLt⟩
            · intro vis' hvis'
              have haN : a ∉ vis' := hvis' a (List.mem_append.2 (Or.inr (List.mem_singleton.2 rfl)))
              have hΔeN : ∀ x ∈ Δe, x ∉ a :: vis' := by
                intro x hx
                have hxa : x ≠ a := fun hc =>
                  (hΔe x hx).1 (hc ▸ List.mem_cons_self a vis)
                have hxv : x ∉ vis' := hvis' x (List.mem_append.2 (Or.inl hx))
                simp [hxa, hxv]
              have := halle (a :: vis') hΔeN
              simp only [decodePlainA, decodePlainStep, if_neg haN, hg, this, ← ht]
              simp

/-! ## Agreement lemmas: a decode only reads the addresses it visits, so it
is stable under heap changes away from them -/

def DHAgree (f : Heap → List Nat → PyVal → Option (PTree × List Nat)) (h h2 : Heap) : Prop :=
  ∀ vis v t out, f h vis v = some (t, out) →
    (∀ x ∈ out, x ∉ vis → heapGet h2 x = heapGet h x) → f h2 vis v = some (t, out)

theorem decodeHList_agree {f : Heap → List Nat → PyVal → Option (PTree × List Nat)}
    {h h2 : Heap} (hfF : DHFrame f h) (hfA : DHAgree f h h2) :
    ∀ (xs : List PyVal) (vis : List Nat) (ts : List PTree) (out : List Nat),
      decodeHList f h vis xs = some (ts, out) →
      (∀ x ∈ out, x ∉ vis → heapGet h2 x = heapGet h x) →
      decodeHList f h2 vis xs = some (ts, out) := by
  intro xs
  induction xs with
  | nil =>
    intro vis ts out hEq _
    exact hEq
  | cons v rest ih =>
    intro vis ts out hEq hAgr
    simp only [decodeHList] at hEq
    cases hE : f h vis v with
    | none => rw [hE] at hEq; exact absurd hEq (by simp)
    | some p =>
      obtain ⟨t1, vis1⟩ := p
      rw [hE] at hEq
      dsimp only at hEq
      cases hR : decodeHList f h vis1 rest with
      | none => rw [hR] at hEq; exact absurd hEq (by simp)
      | some q =>
        obtain ⟨ts2, vis2⟩ := q
        rw [hR] at hEq
        dsimp only at hEq
        simp only [Option.some.injEq, Prod.mk.injEq] at hEq
        obtain ⟨hts, hout⟩ := hEq
        subst hout
        obtain ⟨Δ1, hv1, _, _⟩ := hfF vis v t1 vis1 hE
        obtain ⟨Δ2, hv2, _, _⟩ := decodeHList_frame hfF rest vis1 ts2 vis2 hR
        have hE2 : f h2 vis v = some (t1, vis1) := by
          refine hfA vis v t1 vis1 hE ?_
          intro x hx hxv
          refine hAgr x ?_ hxv
          rw [hv2]
          exact List.mem_append.2 (Or.inr hx)
        have hR2 : decodeHList f h2 vis1 rest = some (ts2, vis2) := by
          refine ih vis1 ts2 vis2 hR ?_
          intro x hx hxv
          refine hAgr x hx ?_
          intro hc
          exact hxv (hv1 ▸ List.mem_append.2 (Or.inr hc))
        simp only [decodeHList, hE2, hR2, ← hts]

theorem decodeHEntries_agree {f : Heap → List Nat → PyVal → Option (PTree × List Nat)}
    {h h2 : Heap} (hfF : DHFrame f h) (hfA : DHAgree f h h2) :
    ∀ (es : List (PyVal × PyVal)) (vis : List Nat) (ts : List (PyScalar × PTree)) (out : List Nat),
      decodeHEntries f h vis es = some (ts, out) →
      (∀ x ∈ out, x ∉ vis → heapGet h2 x = heapGet h x) →
      decodeHEntries f h2 vis es = some (ts, out) := by
  intro es
  induction es with
  | nil =>
    intro vis ts out hEq _
    exact hEq
  | cons p rest ih =>
    intro vis ts out hEq hAgr
    obtain ⟨pk, pv⟩ := p
    cases pk with
    | ref b => exact absurd hEq (by simp [decodeHEntries])
    | scalar sk =>
      simp only [decodeHEntries] at hEq
      cases hE : f h vis pv with
      | none => rw [hE] at hEq; exact absurd hEq (by simp)
      | some p1 =>
        obtain ⟨t1, vis1⟩ := p1
        rw [hE] at hEq
        dsimp only at hEq
        cases hR : decodeHEntries f h vis1 rest with
        | none => rw [hR] at hEq; exact absurd hEq (by simp)
        | some q =>
          obtain ⟨ts2, vis2⟩ := q
          rw [hR] at hEq
          dsimp only at hEq
          simp only [Option.some.injEq, Prod.mk.injEq] at hEq
          obtain ⟨hts, hout⟩ := hEq
          subst hout
          obtain ⟨Δ1, hv1, _, _⟩ := hfF vis pv t1 vis1 hE
          obtain ⟨Δ2, hv2, _, _⟩ := decodeHEntries_frame hfF rest vis1 ts2 vis2 hR
          have hE2 : f h2 vis pv = some (t1, vis1) := by
            refine hfA vis pv t1 vis1 hE ?_
            intro x hx hxv
            refine hAgr x ?_ hxv
            rw [hv2]
            exact List.mem_append.2 (Or.inr hx)
          have hR2 : decodeHEntries f h2 vis1 rest = some (ts2, vis2) := by
            refine ih vis1 ts2 vis2 hR ?_
            intro x hx hxv
            refine hAgr x hx ?_
            intro hc
            exact hxv (hv1 ▸ List.mem_append.2 (Or.inr hc))
          simp only [decodeHEntries, hE2, hR2, ← hts]

theorem decodeHookedA_agree : ∀ (fuel : Nat) (h h2 : Heap), DHAgree (decodeHookedA fuel) h h2 := by
  intro fuel
  induction fuel with
  | zero =>
    intro h h2 vis v t out hEq
    exact absurd hEq (by simp [decodeHookedA])
  | succ fuel ih =>
    intro h h2 vis v t out hEq hAgr
    cases v with
    | scalar s => exact hEq
    | ref a =>
      simp only [decodeHookedA, decodeHookedStep] at hEq ⊢
      by_cases ha : a ∈ vis
      · rw [if_pos ha] at hEq
        exact absurd hEq (by simp)
      rw [if_neg ha] at hEq
      rw [if_neg ha]
      cases hg : heapGet h a with
      | none => rw [hg] at hEq; exact absurd hEq (by simp)
      | some o =>
        rw [hg] at hEq
        cases o with
        | dict es => exact absurd hEq (by simp)
        | magi fn fm es =>
          cases fn with
          | true => exact absurd hEq (by simp)
          | false =>
            cases fm with
            | true => exact absurd hEq (by simp)
            | false =>
              dsimp only at hEq
              cases hD : decodeHEntries (decodeHookedA fuel) h (a :: vis) es with
              | none => rw [hD] at hEq; exact absurd hEq (by simp)
              | some q =>
                obtain ⟨ts, vis1⟩ := q
                rw [hD] at hEq
                simp only [Option.some.injEq, Prod.mk.injEq] at hEq
                obtain ⟨ht, hout⟩ := hEq
                subst hout
                obtain ⟨Δe, hv1, _, _⟩ :=
                  decodeHEntries_frame (decodeHookedA_frame fuel h) es (a :: vis) ts vis1 hD
                have hga : heapGet h2 a = heapGet h a := by
                  refine hAgr a ?_ ha
                  rw [hv1]
                  exact List.mem_append.2 (Or.inr (List.mem_cons_self a vis))
                rw [hga, hg]; dsimp only
                have hD2 : decodeHEntries (decodeHookedA fuel) h2 (a :: vis) es =
                    some (ts, vis1) := by
                  refine decodeHEntries_agree (decodeHookedA_frame fuel h) (ih h h2)
                    es (a :: vis) ts vis1 hD ?_
                  intro x hx hxv
                  exact hAgr x hx fun hc => hxv (List.mem_cons_of_mem _ hc)
                rw [hD2, ← ht]
        | list xs =>
          dsimp only at hEq
          cases hD : decodeHList (decodeHookedA fuel) h (a :: vis) xs with
          | none => rw [hD] at hEq; exact absurd hEq (by simp)
          | some q =>
            obtain ⟨ts, vis1⟩ := q
            rw [hD] at hEq
            simp only [Option.some.injEq, Prod.mk.injEq] at hEq
            obtain ⟨ht, hout⟩ := hEq
            subst hout
            obtain ⟨Δe, hv1, _, _⟩ :=
              decodeHList_frame (decodeHookedA_frame fuel h) xs (a :: vis) ts vis1 hD
            have hga : heapGet h2 a = heapGet h a := by
              refine hAgr a ?_ ha
              rw [hv1]
              exact List.mem_append.2 (Or.inr (List.mem_cons_self a vis))
            rw [hga, hg]; dsimp only
            have hD2 : decodeHList (decodeHookedA fuel) h2 (a :: vis) xs = some (ts, vis1) := by
              refine decodeHList_agree (decodeHookedA_frame fuel h) (ih h h2)
                xs (a :: vis) ts vis1 hD ?_
              intro x hx hxv
              exact hAgr x hx fun hc => hxv (List.mem_cons_of_mem _ hc)
            rw [hD2, ← ht]
        | tuple xs =>
          dsimp only at hEq
          cases hD : decodeHList (decodeHookedA fuel) h (a :: vis) xs with
          | none => rw [hD] at hEq; exact absurd hEq (by simp)
          | some q =>
            obtain ⟨ts, vis1⟩ := q
            rw [hD] at hEq
            simp only [Option.some.injEq, Prod.mk.injEq] at hEq
            obtain ⟨ht, hout⟩ := hEq
            subst hout
            obtain ⟨Δe, hv1, _, _⟩ :=
              decodeHList_frame (decodeHookedA_frame fuel h) xs (a :: vis) ts vis1 hD
            have hga : heapGet h2 a = heapGet h a := by
              refine hAgr a ?_ ha
              rw [hv1]
              exact List.mem_append.2 (Or.inr (List.mem_cons_self a vis))
            rw [hga, hg]; dsimp only
            have hD2 : decodeHList (decodeHookedA fuel) h2 (a :: vis) xs = some (ts, vis1) := by
              refine decodeHList_agree (decodeHookedA_frame fuel h) (ih h h2)
                xs (a :: vis) ts vis1 hD ?_
              intro x hx hxv
              exact hAgr x hx fun hc => hxv (List.mem_cons_of_mem _ hc)
            rw [hD2, ← ht]

theorem decodePlainA_agree : ∀ (fuel : Nat) (h h2 : Heap), DHAgree (decodePlainA fuel) h h2 := by
  intro fuel
  induction fuel with
  | zero =>
    intro h h2 vis v t out hEq
    exact absurd hEq (by simp [decodePlainA])
  | succ fuel ih =>
    intro h h2 vis v t out hEq hAgr
    cases v with
    | scalar s => exact hEq
    | ref a =>
      simp only [decodePlainA, decodePlainStep] at hEq ⊢
      by_cases ha : a ∈ vis
      · rw [if_pos ha] at hEq
        exact absurd hEq (by simp)
      rw [if_neg ha] at hEq
      rw [if_neg ha]
      cases hg : heapGet h a with
      | none => rw [hg] at hEq; exact absurd hEq (by simp)
      | some o =>
        rw [hg] at hEq
        cases o with
        | magi fn fm es => exact absurd hEq (by simp)
        | dict es =>
          dsimp only at hEq
          cases hD : decodeHEntries (decodePlainA fuel) h (a :: vis) es with
          | none => rw [hD] at hEq; exact absurd hEq (by simp)
          | some q =>
            obtain ⟨ts, vis1⟩ := q
            rw [hD] at hEq
            simp only [Option.some.injEq, Prod.mk.injEq] at hEq
            obtain ⟨ht, hout⟩ := hEq
            subst hout
            obtain ⟨Δe, hv1, _, _⟩ :=
              decodeHEntries_frame (decodePlainA_frame fuel h) es (a :: vis) ts vis1 hD
            have hga : heapGet h2 a = heapGet h a := by
              refine hAgr a ?_ ha
              rw [hv1]
              exact List.mem_append.2 (Or.inr (List.mem_cons_self a vis))
            rw [hga, hg]; dsimp only
            have hD2 : decodeHEntries (decodePlainA fuel) h2 (a :: vis) es = some (ts, vis1) := by
              refine decodeHEntries_agree (decodePlainA_frame fuel h) (ih h h2)
                es (a :: vis) ts vis1 hD ?_
              intro x hx hxv
              exact hAgr x hx fun hc => hxv (List.mem_cons_of_mem _ hc)
            rw [hD2, ← ht]
        | list xs =>
          dsimp only at hEq
          cases hD : decodeHList (decodePlainA fuel) h (a :: vis) xs with
          | none => rw [hD] at hEq; exact absurd hEq (by simp)
          | some q =>
            obtain ⟨ts, vis1⟩ := q
            rw [hD] at hEq
            simp only [Option.some.injEq, Prod.mk.injEq] at hEq
            obtain ⟨ht, hout⟩ := hEq
            subst hout
            obtain ⟨Δe, hv1, _, _⟩ :=
              decodeHList_frame (decodePlainA_frame fuel h) xs (a :: vis) ts vis1 hD
            have hga : heapGet h2 a = heapGet h a := by
              refine hAgr a ?_ ha
              rw [hv1]
              exact List.mem_append.2 (Or.inr (List.mem_cons_self a vis))
            rw [hga, hg]; dsimp only
            have hD2 : decodeHList (decodePlainA fuel) h2 (a :: vis) xs = some (ts, vis1) := by
              refine decodeHList_agree (decodePlainA_frame fuel h) (ih h h2)
                xs (a :: vis) ts vis1 hD ?_
              intro x hx hxv
              exact hAgr x hx fun hc => hxv (List.mem_cons_of_mem _ hc)
            rw [hD2, ← ht]
        | tuple xs =>
          dsimp only at hEq
          cases hD : decodeHList (decodePlainA fuel) h (a :: vis) xs with
          | none => rw [hD] at hEq; exact absurd hEq (by simp)
          | some q =>
            obtain ⟨ts, vis1⟩ := q
            rw [hD] at hEq
            simp only [Option.some.injEq, Prod.mk.injEq] at hEq
            obtain ⟨ht, hout⟩ := hEq
            subst hout
            obtain ⟨Δe, hv1, _, _⟩ :=
              decodeHList_frame (decodePlainA_frame fuel h) xs (a :: vis) ts vis1 hD
            have hga : heapGet h2 a = heapGet h a := by
              refine hAgr a ?_ ha
              rw [hv1]
              exact List.mem_append.2 (Or.inr (List.mem_cons_self a vis))
            rw [hga, hg]; dsimp only
            have hD2 : decodeHList (decodePlainA fuel) h2 (a :: vis) xs = some (ts, vis1) := by
              refine decodeHList_agree (decodePlainA_frame fuel h) (ih h h2)
                xs (a :: vis) ts vis1 hD ?_
              intro x hx hxv
              exact hAgr x hx fun hc => hxv (List.mem_cons_of_mem _ hc)
            rw [hD2, ← ht]

/-! ## Simulation of hook on encoded trees

`HookEnc fuel` packages the key property of `magidict_hook_with_memo` on
the encoding of a well-formed plain tree: with fuel exceeding the tree
depth and a memo that avoids the tree's region, hooking succeeds, writes
only inside the tree's region and freshly allocated space, extends the memo
only with region addresses, and produces a value whose `decodeHookedA`
reading is exactly the original tree (so the result is a fully converted,
unprotected, unshared MagiDict tree). -/

def HookEnc (fuel : Nat) : Prop :=
  ∀ (t : PTree) (h0 henc : Heap) (v : PyVal) (h : Heap) (memo : Memo),
    encodeT t h0 = (henc, v) →
    PTree.depth t < fuel →
    PTree.wf t = true →
    henc.length ≤ h.length →
    (∀ x, h0.length ≤ x → x < henc.length → heapGet h x = heapGet henc x) →
    (∀ k w, memoFind memo k = some w → ¬(h0.length ≤ k ∧ k < henc.length)) →
    ∃ h' memo' v' Δ,
      hookWithMemo fuel h memo v = some (h', memo', v') ∧
      h.length ≤ h'.length ∧
      (∀ x, x < h.length → ¬(h0.length ≤ x ∧ x < henc.length) → heapGet h' x = heapGet h x) ∧
      (∀ k w, memoFind memo k = some w → memoFind memo' k = some w) ∧
      (∀ k w, memoFind memo' k = some w →
        memoFind memo k = some w ∨ (h0.length ≤ k ∧ k < henc.length)) ∧
      (∀ x ∈ Δ, (h0.length ≤ x ∧ x < henc.length) ∨ (h.length ≤ x ∧ x < h'.length)) ∧
      (∀ vis, (∀ x ∈ Δ, x ∉ vis) → decodeHookedA fuel h' vis v' = some (t, Δ ++ vis)) ∧
      (∀ ses, t = PTree.pmap ses → ∃ r, v = PyVal.ref r ∧ memoFind memo' r = some v')

/-- The entry loop of the dict branch (and of `magidict_init`), on encoded
entries: conversion succeeds and appends the hooked pairs to the MagiDict
under construction at `dst`. -/
theorem hookEntries_encoded (fuel : Nat) (IH : HookEnc fuel) :
    ∀ (ses : List (PyScalar × PTree)) (h0 henc : Heap) (es' : List (PyVal × PyVal))
      (dst : Nat) (h : Heap) (memo : Memo) (fn fm : Bool) (acc : List (PyVal × PyVal)),
      encodeEntriesT ses h0 = (henc, es') →
      PTree.depthEntries ses < fuel →
      PTree.wfEntries ses = true →
      keysNodup (ses.map Prod.fst) = true →
      henc.length ≤ h.length →
      (∀ x, h0.length ≤ x → x < henc.length → heapGet h x = heapGet henc x) →
      (∀ k w, memoFind memo k = some w → ¬(h0.length ≤ k ∧ k < henc.length)) →
      ¬(h0.length ≤ dst ∧ dst < henc.length) →
      heapGet h dst = some (PyObj.magi fn fm acc) →
      (∀ p ∈ ses, ∀ q ∈ acc, q.1 ≠ PyVal.scalar p.1) →
      ∃ h' memo' Δ ts,
        hookEntries (hookWithMemo fuel) dst es' h memo = some (h', memo') ∧
        h.length ≤ h'.length ∧
        (∀ x, x < h.length → x ≠ dst → ¬(h0.length ≤ x ∧ x < henc.length) →
          heapGet h' x = heapGet h x) ∧
        (∀ k w, memoFind memo k = some w → memoFind memo' k = some w) ∧
        (∀ k w, memoFind memo' k = some w →
          memoFind memo k = some w ∨ (h0.length ≤ k ∧ k < henc.length)) ∧
        heapGet h' dst = some (PyObj.magi fn fm (acc ++ ts)) ∧
        (∀ x ∈ Δ, (h0.length ≤ x ∧ x < henc.length) ∨ (h.length ≤ x ∧ x < h'.length)) ∧
        (∀ vis, (∀ x ∈ Δ, x ∉ vis) →
          decodeHEntries (decodeHookedA fuel) h' vis ts = some (ses, Δ ++ vis)) := by
  intro ses
  induction ses with
  | nil =>
    intro h0 henc es' dst h memo fn fm acc hEnc hDepth hWf hNodup hLen hAgr hMemo hDst hDget hKeys
    have hEnc' : (h0, ([] : List (PyVal × PyVal))) = (henc, es') := by rw [← hEnc]; rfl
    have hh0 : h0 = henc := congrArg Prod.fst hEnc'
    have hes : ([] : List (PyVal × PyVal)) = es' := congrArg Prod.snd hEnc'
    subst hh0
    rw [← hes]
    refine ⟨h, memo, [], [], rfl, Nat.le_refl _, fun x _ _ _ => rfl,
      fun k w hw => hw, fun k w hw => Or.inl hw, by simpa using hDget,
      by simp, ?_⟩
    intro vis _
    simp [decodeHEntries]
  | cons p rest ihRest =>
    intro h0 henc es' dst h memo fn fm acc hEnc hDepth hWf hNodup hLen hAgr hMemo hDst hDget hKeys
    obtain ⟨k, t1⟩ := p
    rcases hp : encodeT t1 h0 with ⟨h1enc, v1⟩
    rcases hq : encodeEntriesT rest h1enc with ⟨henc2, restEs⟩
    have hEnc' : (henc2, (PyVal.scalar k, v1) :: restEs) = (henc, es') := by
      rw [← hEnc]
      show (henc2, (PyVal.scalar k, v1) :: restEs) =
        ((encodeEntriesT rest (encodeT t1 h0).1).1,
          (PyVal.scalar k, (encodeT t1 h0).2) :: (encodeEntriesT rest (encodeT t1 h0).1).2)
      rw [hp]
      dsimp only
      rw [hq]
    have hh2 : henc2 = henc := congrArg Prod.fst hEnc'
    have hes : (PyVal.scalar k, v1) :: restEs = es' := congrArg Prod.snd hEnc'
    subst hh2
    rw [← hes]
    -- basic length facts
    have hL01 : h0.length ≤ h1enc.length := by
      have := encodeT_length_le t1 h0
      rw [hp] at this
      exact this
    have hL12 : h1enc.length ≤ henc2.length := by
      have := encodeEntriesT_length_le rest h1enc
      rw [hq] at this
      exact this
    have hdstLt : dst < h.length := heapGet_lt_length hDget
    -- henc2 extends h1enc
    have hSubAgr : ∀ x, x < h1enc.length → heapGet henc2 x = heapGet h1enc x := by
      intro x hx
      obtain ⟨ext, hext⟩ := encodeEntriesT_shape rest h1enc
      rw [hq] at hext
      dsimp only at hext
      rw [hext, heapGet_append_left _ hx]
    -- depth / wf / nodup facts
    have hDepth1 : PTree.depth t1 < fuel := by
      have : PTree.depth t1 ≤ PTree.depthEntries ((k, t1) :: rest) := by
        simp [PTree.depthEntries]
      omega
    have hDepthR : PTree.depthEntries rest < fuel := by
      have : PTree.depthEntries rest ≤ PTree.depthEntries ((k, t1) :: rest) := by
        simp [PTree.depthEntries]
      omega
    have hWf' : PTree.wf t1 = true ∧ PTree.wfEntries rest = true := by
      have := hWf
      rw [show PTree.wfEntries ((k, t1) :: rest) =
        (PTree.wf t1 && PTree.wfEntries rest) from rfl, Bool.and_eq_true] at this
      exact this
    have hNodupPair := keysNodup_cons (by simpa using hNodup)
    have hkNotMem : ∀ p2 ∈ rest, p2.1 ≠ k := by
      intro p2 hp2 hc
      exact hNodupPair.1 (List.mem_map.2 ⟨p2, hp2, hc⟩)
    -- Step 1: hook the first value via the per-tree property
    obtain ⟨hA, memoA, v1', Δ1, hk1, hLenA, hFrameA, hExtA, hNewA, hΔ1, hDecA, _⟩ :=
      IH t1 h0 h1enc v1 h memo hp hDepth1 hWf'.1
        (le_trans hL12 hLen)
        (fun x hx1 hx2 => by
          rw [hAgr x hx1 (by omega), hSubAgr x hx2])
        (fun kk w hw => by
          have := hMemo kk w hw
          intro hc
          exact this ⟨hc.1, by omega⟩)
    -- dst is untouched by the first hook
    have hDgetA : heapGet hA dst = some (PyObj.magi fn fm acc) := by
      rw [hFrameA dst hdstLt (fun hc => hDst ⟨hc.1, by omega⟩)]
      exact hDget
    -- Step 2: the PyDict_SetItem of the hooked pair
    have hAccK : ∀ q ∈ acc, q.1 ≠ PyVal.scalar k :=
      fun q hq' => hKeys (k, t1) (List.mem_cons_self _ _) q hq'
    have hDictSet : heapDictSet hA dst (PyVal.scalar k) v1' =
        some (heapSet hA dst (PyObj.magi fn fm (acc ++ [(PyVal.scalar k, v1')]))) := by
      simp [heapDictSet, hDgetA, dictSet_append hAccK v1']
    have hdstLtA : dst < hA.length := lt_of_lt_of_le hdstLt hLenA
    have hLenB : (heapSet hA dst (PyObj.magi fn fm (acc ++ [(PyVal.scalar k, v1')]))).length
        = hA.length := length_heapSet _ _ _
    have hDgetB : heapGet (heapSet hA dst (PyObj.magi fn fm (acc ++ [(PyVal.scalar k, v1')]))) dst
        = some (PyObj.magi fn fm (acc ++ [(PyVal.scalar k, v1')])) :=
      heapGet_heapSet_eq hdstLtA _
    have hGetB_ne : ∀ x, x ≠ dst →
        heapGet (heapSet hA dst (PyObj.magi fn fm (acc ++ [(PyVal.scalar k, v1')]))) x
          = heapGet hA x :=
      fun x hx => heapGet_heapSet_ne hA (fun hc => hx hc.symm) _
    -- Step 3: recurse over the remaining entries
    obtain ⟨h', memo', Δ2, ts2, hkR, hLenR, hFrameR, hExtR, hNewR, hDgetR, hΔ2, hDecR⟩ :=
      ihRest h1enc henc2 restEs dst
        (heapSet hA dst (PyObj.magi fn fm (acc ++ [(PyVal.scalar k, v1')]))) memoA fn fm
        (acc ++ [(PyVal.scalar k, v1')])
        hq hDepthR hWf'.2 hNodupPair.2
        (by rw [hLenB]; omega)
        (fun x hx1 hx2 => by
          have hxNe : x ≠ dst := fun hc => hDst ⟨by omega, by omega⟩
          rw [hGetB_ne x hxNe]
          have hxLt : x < h.length := by omega
          rw [hFrameA x hxLt (fun hc => by omega)]
          exact hAgr x (by omega) hx2)
        (fun kk w hw => by
          rcases hNewA kk w hw with hm | hreg
          · have := hMemo kk w hm
            intro hc
            exact this ⟨by omega, hc.2⟩
          · intro hc
            omega)
        (fun hc => hDst ⟨by omega, hc.2⟩)
        hDgetB
        (by
          intro p2 hp2 q hq'
          rcases List.mem_append.1 hq' with hqa | hqn
          · exact hKeys p2 (List.mem_cons_of_mem _ hp2) q hqa
          · rw [List.mem_singleton.1 hqn]
            intro hc
            injection hc with hkk
            exact hkNotMem p2 hp2 hkk.symm)
    -- Assemble
    refine ⟨h', memo', Δ2 ++ Δ1, (PyVal.scalar k, v1') :: ts2, ?_, by omega, ?_, ?_, ?_, ?_, ?_, ?_⟩
    · simp only [hookEntries, hk1]
      rw [hDictSet]
      exact hkR
    · -- frame
      intro x hx hxd hxreg
      rw [hFrameR x (by omega) hxd (fun hc => hxreg ⟨by omega, hc.2⟩)]
      rw [hGetB_ne x hxd]
      exact hFrameA x hx (fun hc => hxreg ⟨hc.1, by omega⟩)
    · exact fun kk w hw => hExtR kk w (hExtA kk w hw)
    · intro kk w hw
      rcases hNewR kk w hw with hmA | hreg
      · rcases hNewA kk w hmA with hm | hreg1
        · exact Or.inl hm
        · exact Or.inr ⟨hreg1.1, by omega⟩
      · exact Or.inr ⟨by omega, hreg.2⟩
    · simpa [List.append_assoc] using hDgetR
    · intro x hx
      rcases List.mem_append.1 hx with hx2 | hx1
      · rcases hΔ2 x hx2 with hr | hf
        · exact Or.inl ⟨by omega, hr.2⟩
        · exact Or.inr ⟨by omega, hf.2⟩
      · rcases hΔ1 x hx1 with hr | hf
        · exact Or.inl ⟨hr.1, by omega⟩
        · exact Or.inr ⟨hf.1, by omega⟩
    · -- decode
      intro vis hvis
      -- child decode transported to the final heap
      have hDecA' : ∀ vis2, (∀ x ∈ Δ1, x ∉ vis2) →
          decodeHookedA fuel h' vis2 v1' = some (t1, Δ1 ++ vis2) := by
        intro vis2 hv2
        refine decodeHookedA_agree fuel hA h' vis2 v1' t1 (Δ1 ++ vis2) (hDecA vis2 hv2) ?_
        intro x hxout hxnv
        have hxΔ1 : x ∈ Δ1 := by
          rcases List.mem_append.1 hxout with h1 | h2
          · exact h1
          · exact absurd h2 hxnv
        have hxd : x ≠ dst := by
          rcases hΔ1 x hxΔ1 with hr | hf
          · intro hc
            exact hDst ⟨by omega, by omega⟩
          · intro hc
            omega
        have hxLtB : x <
            (heapSet hA dst (PyObj.magi fn fm (acc ++ [(PyVal.scalar k, v1')]))).length := by
          rcases hΔ1 x hxΔ1 with hr | hf <;> omega
        have hxNotR : ¬(h1enc.length ≤ x ∧ x < henc2.length) := by
          rcases hΔ1 x hxΔ1 with hr | hf <;> omega
        rw [hFrameR x hxLtB hxd hxNotR, hGetB_ne x hxd]
      have hDisj : ∀ x ∈ Δ2, x ∉ Δ1 := by
        intro x hx2 hx1
        rcases hΔ2 x hx2 with hr2 | hf2 <;> rcases hΔ1 x hx1 with hr1 | hf1 <;> omega
      have hChild : decodeHookedA fuel h' vis v1' = some (t1, Δ1 ++ vis) :=
        hDecA' vis (fun x hx => hvis x (List.mem_append.2 (Or.inr hx)))
      have hRest : decodeHEntries (decodeHookedA fuel) h' (Δ1 ++ vis) ts2
          = some (rest, Δ2 ++ (Δ1 ++ vis)) := by
        refine hDecR (Δ1 ++ vis) ?_
        intro x hx hc
        rcases List.mem_append.1 hc with hcd | hcv
        · exact hDisj x hx hcd
        · exact hvis x (List.mem_append.2 (Or.inl hx)) hcv
      simp only [decodeHEntries, hChild]
      rw [hRest]
      simp [List.append_assoc]

/-- The element loop of the list branch of hook, on encoded elements: the
elements of the list at `r` are replaced in place by their hooked
versions. -/
theorem hookListElems_encoded (fuel : Nat) (IH : HookEnc fuel) :
    ∀ (ts : List PTree) (h0 henc : Heap) (vs : List PyVal) (r : Nat)
      (h : Heap) (memo : Memo) (pre : List PyVal),
      encodeListT ts h0 = (henc, vs) →
      PTree.depthList ts < fuel →
      PTree.wfList ts = true →
      henc.length ≤ h.length →
      (∀ x, h0.length ≤ x → x < henc.length → heapGet h x = heapGet henc x) →
      (∀ k w, memoFind memo k = some w → ¬(h0.length ≤ k ∧ k < henc.length)) →
      ¬(h0.length ≤ r ∧ r < henc.length) →
      heapGet h r = some (PyObj.list (pre ++ vs)) →
      ∃ h' memo' Δ ws,
        hookListElems (hookWithMemo fuel) r vs pre.length h memo = some (h', memo') ∧
        h.length ≤ h'.length ∧
        (∀ x, x < h.length → x ≠ r → ¬(h0.length ≤ x ∧ x < henc.length) →
          heapGet h' x = heapGet h x) ∧
        (∀ k w, memoFind memo k = some w → memoFind memo' k = some w) ∧
        (∀ k w, memoFind memo' k = some w →
          memoFind memo k = some w ∨ (h0.length ≤ k ∧ k < henc.length)) ∧
        heapGet h' r = some (PyObj.list (pre ++ ws)) ∧
        (∀ x ∈ Δ, (h0.length ≤ x ∧ x < henc.length) ∨ (h.length ≤ x ∧ x < h'.length)) ∧
        (∀ vis, (∀ x ∈ Δ, x ∉ vis) →
          decodeHList (decodeHookedA fuel) h' vis ws = some (ts, Δ ++ vis)) := by
  intro ts
  induction ts with
  | nil =>
    intro h0 henc vs r h memo pre hEnc hDepth hWf hLen hAgr hMemo hR hRget
    have hEnc' : (h0, ([] : List PyVal)) = (henc, vs) := by rw [← hEnc]; rfl
    have hh0 : h0 = henc := congrArg Prod.fst hEnc'
    have hvs : ([] : List PyVal) = vs := congrArg Prod.snd hEnc'
    subst hh0
    rw [← hvs]
    rw [← hvs] at hRget
    refine ⟨h, memo, [], [], rfl, Nat.le_refl _, fun x _ _ _ => rfl,
      fun k w hw => hw, fun k w hw => Or.inl hw, by simpa using hRget,
      by simp, ?_⟩
    intro vis _
    simp [decodeHList]
  | cons t1 tsRest ihRest =>
    intro h0 henc vs r h memo pre hEnc hDepth hWf hLen hAgr hMemo hR hRget
    rcases hp : encodeT t1 h0 with ⟨h1enc, v1⟩
    rcases hq : encodeListT tsRest h1enc with ⟨henc2, vsRest⟩
    have hEnc' : (henc2, v1 :: vsRest) = (henc, vs) := by
      rw [← hEnc]
      show (henc2, v1 :: vsRest) =
        ((encodeListT tsRest (encodeT t1 h0).1).1,
          (encodeT t1 h0).2 :: (encodeListT tsRest (encodeT t1 h0).1).2)
      rw [hp]
      dsimp only
      rw [hq]
    have hh2 : henc2 = henc := congrArg Prod.fst hEnc'
    have hvs : v1 :: vsRest = vs := congrArg Prod.snd hEnc'
    subst hh2
    rw [← hvs]
    rw [← hvs] at hRget
    have hL01 : h0.length ≤ h1enc.length := by
      have := encodeT_length_le t1 h0
      rw [hp] at this
      exact this
    have hL12 : h1enc.length ≤ henc2.length := by
      have := encodeListT_length_le tsRest h1enc
      rw [hq] at this
      exact this
    have hrLt : r < h.length := heapGet_lt_length hRget
    have hSubAgr : ∀ x, x < h1enc.length → heapGet henc2 x = heapGet h1enc x := by
      intro x hx
      obtain ⟨ext, hext⟩ := encodeListT_shape tsRest h1enc
      rw [hq] at hext
      dsimp only at hext
      rw [hext, heapGet_append_left _ hx]
    have hDepth1 : PTree.depth t1 < fuel := by
      have : PTree.depth t1 ≤ PTree.depthList (t1 :: tsRest) := by
        simp [PTree.depthList]
      omega
    have hDepthR : PTree.depthList tsRest < fuel := by
      have : PTree.depthList tsRest ≤ PTree.depthList (t1 :: tsRest) := by
        simp [PTree.depthList]
      omega
    have hWf' : PTree.wf t1 = true ∧ PTree.wfList tsRest = true := by
      have := hWf
      rw [show PTree.wfList (t1 :: tsRest) =
        (PTree.wf t1 && PTree.wfList tsRest) from rfl, Bool.and_eq_true] at this
      exact this
    -- Step 1: hook the first element
    obtain ⟨hA, memoA, v1', Δ1, hk1, hLenA, hFrameA, hExtA, hNewA, hΔ1, hDecA, _⟩ :=
      IH t1 h0 h1enc v1 h memo hp hDepth1 hWf'.1
        (le_trans hL12 hLen)
        (fun x hx1 hx2 => by
          rw [hAgr x hx1 (by omega), hSubAgr x hx2])
        (fun kk w hw => by
          have := hMemo kk w hw
          intro hc
          exact this ⟨hc.1, by omega⟩)
    -- r is untouched by the first hook
    have hRgetA : heapGet hA r = some (PyObj.list (pre ++ v1 :: vsRest)) := by
      rw [hFrameA r hrLt (fun hc => hR ⟨hc.1, by omega⟩)]
      exact hRget
    -- Step 2: the PyList_SetItem of the hooked element
    have hListSet : heapListSet hA r pre.length v1' =
        some (heapSet hA r (PyObj.list (pre ++ v1' :: vsRest))) := by
      simp [heapListSet, hRgetA, set_at_length]
    have hrLtA : r < hA.length := lt_of_lt_of_le hrLt hLenA
    have hLenB : (heapSet hA r (PyObj.list (pre ++ v1' :: vsRest))).length = hA.length :=
      length_heapSet _ _ _
    have hRgetB : heapGet (heapSet hA r (PyObj.list (pre ++ v1' :: vsRest))) r
        = some (PyObj.list ((pre ++ [v1']) ++ vsRest)) := by
      rw [heapGet_heapSet_eq hrLtA]
      simp
    have hGetB_ne : ∀ x, x ≠ r →
        heapGet (heapSet hA r (PyObj.list (pre ++ v1' :: vsRest))) x = heapGet hA x :=
      fun x hx => heapGet_heapSet_ne hA (fun hc => hx hc.symm) _
    -- Step 3: recurse over the remaining elements
    obtain ⟨h', memo', Δ2, ws2, hkR, hLenR, hFrameR, hExtR, hNewR, hRgetR, hΔ2, hDecR⟩ :=
      ihRest h1enc henc2 vsRest r
        (heapSet hA r (PyObj.list (pre ++ v1' :: vsRest))) memoA (pre ++ [v1'])
        hq hDepthR hWf'.2
        (by rw [hLenB]; omega)
        (fun x hx1 hx2 => by
          have hxNe : x ≠ r := fun hc => hR ⟨by omega, by omega⟩
          rw [hGetB_ne x hxNe]
          have hxLt : x < h.length := by omega
          rw [hFrameA x hxLt (fun hc => by omega)]
          exact hAgr x (by omega) hx2)
        (fun kk w hw => by
          rcases hNewA kk w hw with hm | hreg
          · have := hMemo kk w hm
            intro hc
            exact this ⟨by omega, hc.2⟩
          · intro hc
            omega)
        (fun hc => hR ⟨by omega, hc.2⟩)
        hRgetB
    -- Assemble
    refine ⟨h', memo', Δ2 ++ Δ1, v1' :: ws2, ?_, by omega, ?_, ?_, ?_, ?_, ?_, ?_⟩
    · simp only [hookListElems, hk1]
      rw [hListSet]
      have hIdx : (pre ++ [v1']).length = pre.length + 1 := by simp
      rw [← hIdx]
      exact hkR
    · intro x hx hxd hxreg
      rw [hFrameR x (by omega) hxd (fun hc => hxreg ⟨by omega, hc.2⟩)]
      rw [hGetB_ne x hxd]
      exact hFrameA x hx (fun hc => hxreg ⟨hc.1, by omega⟩)
    · exact fun kk w hw => hExtR kk w (hExtA kk w hw)
    · intro kk w hw
      rcases hNewR kk w hw with hmA | hreg
      · rcases hNewA kk w hmA with hm | hreg1
        · exact Or.inl hm
        · exact Or.inr ⟨hreg1.1, by omega⟩
      · exact Or.inr ⟨by omega, hreg.2⟩
    · simpa [List.append_assoc] using hRgetR
    · intro x hx
      rcases List.mem_append.1 hx with hx2 | hx1
      · rcases hΔ2 x hx2 with hr2 | hf
        · exact Or.inl ⟨by omega, hr2.2⟩
        · exact Or.inr ⟨by omega, hf.2⟩
      · rcases hΔ1 x hx1 with hr1 | hf
        · exact Or.inl ⟨hr1.1, by omega⟩
        · exact Or.inr ⟨hf.1, by omega⟩
    · intro vis hvis
      have hDecA' : ∀ vis2, (∀ x ∈ Δ1, x ∉ vis2) →
          decodeHookedA fuel h' vis2 v1' = some (t1, Δ1 ++ vis2) := by
        intro vis2 hv2
        refine decodeHookedA_agree fuel hA h' vis2 v1' t1 (Δ1 ++ vis2) (hDecA vis2 hv2) ?_
        intro x hxout hxnv
        have hxΔ1 : x ∈ Δ1 := by
          rcases List.mem_append.1 hxout with h1 | h2
          · exact h1
          · exact absurd h2 hxnv
        have hxd : x ≠ r := by
          rcases hΔ1 x hxΔ1 with hr1 | hf
          · intro hc
            exact hR ⟨by omega, by omega⟩
          · intro hc
            omega
        have hxLtB : x < (heapSet hA r (PyObj.list (pre ++ v1' :: vsRest))).length := by
          rcases hΔ1 x hxΔ1 with hr1 | hf <;> omega
        have hxNotR : ¬(h1enc.length ≤ x ∧ x < henc2.length) := by
          rcases hΔ1 x hxΔ1 with hr1 | hf <;> omega
        rw [hFrameR x hxLtB hxd hxNotR, hGetB_ne x hxd]
      have hDisj : ∀ x ∈ Δ2, x ∉ Δ1 := by
        intro x hx2 hx1
        rcases hΔ2 x hx2 with hr2 | hf2 <;> rcases hΔ1 x hx1 with hr1 | hf1 <;> omega
      have hChild : decodeHookedA fuel h' vis v1' = some (t1, Δ1 ++ vis) :=
        hDecA' vis (fun x hx => hvis x (List.mem_append.2 (Or.inr hx)))
      have hRest : decodeHList (decodeHookedA fuel) h' (Δ1 ++ vis) ws2
          = some (tsRest, Δ2 ++ (Δ1 ++ vis)) := by
        refine hDecR (Δ1 ++ vis) ?_
        intro x hx hc
        rcases List.mem_append.1 hc with hcd | hcv
        · exact hDisj x hx hcd
        · exact hvis x (List.mem_append.2 (Or.inl hx)) hcv
      simp only [decodeHList, hChild]
      rw [hRest]
      simp [List.append_assoc]

/-- The element loop of the tuple branch of hook, on encoded elements: the
slots of the freshly allocated tuple at `dst` (holding `ph` placeholders)
are filled with the hooked versions of the source elements. -/
theorem hookTupleElems_encoded (fuel : Nat) (IH : HookEnc fuel) :
    ∀ (ts : List PTree) (h0 henc : Heap) (vs : List PyVal) (dst : Nat)
      (h : Heap) (memo : Memo) (pre ph : List PyVal),
      encodeListT ts h0 = (henc, vs) →
      PTree.depthList ts < fuel →
      PTree.wfList ts = true →
      henc.length ≤ h.length →
      (∀ x, h0.length ≤ x → x < henc.length → heapGet h x = heapGet henc x) →
      (∀ k w, memoFind memo k = some w → ¬(h0.length ≤ k ∧ k < henc.length)) →
      ¬(h0.length ≤ dst ∧ dst < henc.length) →
      heapGet h dst = some (PyObj.tuple (pre ++ ph)) →
      ph.length = vs.length →
      ∃ h' memo' Δ ws,
        hookTupleElems (hookWithMemo fuel) dst vs pre.length h memo = some (h', memo') ∧
        h.length ≤ h'.length ∧
        (∀ x, x < h.length → x ≠ dst → ¬(h0.length ≤ x ∧ x < henc.length) →
          heapGet h' x = heapGet h x) ∧
        (∀ k w, memoFind memo k = some w → memoFind memo' k = some w) ∧
        (∀ k w, memoFind memo' k = some w →
          memoFind memo k = some w ∨ (h0.length ≤ k ∧ k < henc.length)) ∧
        heapGet h' dst = some (PyObj.tuple (pre ++ ws)) ∧
        (∀ x ∈ Δ, (h0.length ≤ x ∧ x < henc.length) ∨ (h.length ≤ x ∧ x < h'.length)) ∧
        (∀ vis, (∀ x ∈ Δ, x ∉ vis) →
          decodeHList (decodeHookedA fuel) h' vis ws = some (ts, Δ ++ vis)) := by
  intro ts
  induction ts with
  | nil =>
    intro h0 henc vs dst h memo pre ph hEnc hDepth hWf hLen hAgr hMemo hDst hDget hPh
    have hEnc' : (h0, ([] : List PyVal)) = (henc, vs) := by rw [← hEnc]; rfl
    have hh0 : h0 = henc := congrArg Prod.fst hEnc'
    have hvs : ([] : List PyVal) = vs := congrArg Prod.snd hEnc'
    subst hh0
    rw [← hvs]
    have hph : ph = [] := by
      rw [← hvs] at hPh
      exact List.length_eq_zero.1 hPh
    subst hph
    refine ⟨h, memo, [], [], rfl, Nat.le_refl _, fun x _ _ _ => rfl,
      fun k w hw => hw, fun k w hw => Or.inl hw, by simpa using hDget,
      by simp, ?_⟩
    intro vis _
    simp [decodeHList]
  | cons t1 tsRest ihRest =>
    intro h0 henc vs dst h memo pre ph hEnc hDepth hWf hLen hAgr hMemo hDst hDget hPh
    rcases hp : encodeT t1 h0 with ⟨h1enc, v1⟩
    rcases hq : encodeListT tsRest h1enc with ⟨henc2, vsRest⟩
    have hEnc' : (henc2, v1 :: vsRest) = (henc, vs) := by
      rw [← hEnc]
      show (henc2, v1 :: vsRest) =
        ((encodeListT tsRest (encodeT t1 h0).1).1,
          (encodeT t1 h0).2 :: (encodeListT tsRest (encodeT t1 h0).1).2)
      rw [hp]
      dsimp only
      rw [hq]
    have hh2 : henc2 = henc := congrArg Prod.fst hEnc'
    have hvs : v1 :: vsRest = vs := congrArg Prod.snd hEnc'
    subst hh2
    rw [← hvs]
    rw [← hvs] at hPh
    obtain ⟨ph0, phRest, hphEq⟩ : ∃ ph0 phRest, ph = ph0 :: phRest := by
      cases ph with
      | nil => exact absurd hPh (by simp)
      | cons a b => exact ⟨a, b, rfl⟩
    subst hphEq
    have hPhR : phRest.length = vsRest.length := by simpa using hPh
    rw [show pre ++ ph0 :: phRest = pre ++ ph0 :: phRest from rfl] at hDget
    have hL01 : h0.length ≤ h1enc.length := by
      have := encodeT_length_le t1 h0
      rw [hp] at this
      exact this
    have hL12 : h1enc.length ≤ henc2.length := by
      have := encodeListT_length_le tsRest h1enc
      rw [hq] at this
      exact this
    have hdstLt : dst < h.length := heapGet_lt_length hDget
    have hSubAgr : ∀ x, x < h1enc.length → heapGet henc2 x = heapGet h1enc x := by
      intro x hx
      obtain ⟨ext, hext⟩ := encodeListT_shape tsRest h1enc
      rw [hq] at hext
      dsimp only at hext
      rw [hext, heapGet_append_left _ hx]
    have hDepth1 : PTree.depth t1 < fuel := by
      have : PTree.depth t1 ≤ PTree.depthList (t1 :: tsRest) := by
        simp [PTree.depthList]
      omega
    have hDepthR : PTree.depthList tsRest < fuel := by
      have : PTree.depthList tsRest ≤ PTree.depthList (t1 :: tsRest) := by
        simp [PTree.depthList]
      omega
    have hWf' : PTree.wf t1 = true ∧ PTree.wfList tsRest = true := by
      have := hWf
      rw [show PTree.wfList (t1 :: tsRest) =
        (PTree.wf t1 && PTree.wfList tsRest) from rfl, Bool.and_eq_true] at this
      exact this
    obtain ⟨hA, memoA, v1', Δ1, hk1, hLenA, hFrameA, hExtA, hNewA, hΔ1, hDecA, _⟩ :=
      IH t1 h0 h1enc v1 h memo hp hDepth1 hWf'.1
        (le_trans hL12 hLen)
        (fun x hx1 hx2 => by
          rw [hAgr x hx1 (by omega), hSubAgr x hx2])
        (fun kk w hw => by
          have := hMemo kk w hw
          intro hc
          exact this ⟨hc.1, by omega⟩)
    have hDgetA : heapGet hA dst = some (PyObj.tuple (pre ++ ph0 :: phRest)) := by
      rw [hFrameA dst hdstLt (fun hc => hDst ⟨hc.1, by omega⟩)]
      exact hDget
    have hTupleSet : heapTupleSet hA dst pre.length v1' =
        some (heapSet hA dst (PyObj.tuple (pre ++ v1' :: phRest))) := by
      simp [heapTupleSet, hDgetA, set_at_length]
    have hdstLtA : dst < hA.length := lt_of_lt_of_le hdstLt hLenA
    have hLenB : (heapSet hA dst (PyObj.tuple (pre ++ v1' :: phRest))).length = hA.length :=
      length_heapSet _ _ _
    have hDgetB : heapGet (heapSet hA dst (PyObj.tuple (pre ++ v1' :: phRest))) dst
        = some (PyObj.tuple ((pre ++ [v1']) ++ phRest)) := by
      rw [heapGet_heapSet_eq hdstLtA]
      simp
    have hGetB_ne : ∀ x, x ≠ dst →
        heapGet (heapSet hA dst (PyObj.tuple (pre ++ v1' :: phRest))) x = heapGet hA x :=
      fun x hx => heapGet_heapSet_ne hA (fun hc => hx hc.symm) _
    obtain ⟨h', memo', Δ2, ws2, hkR, hLenR, hFrameR, hExtR, hNewR, hDgetR, hΔ2, hDecR⟩ :=
      ihRest h1enc henc2 vsRest dst
        (heapSet hA dst (PyObj.tuple (pre ++ v1' :: phRest))) memoA (pre ++ [v1']) phRest
        hq hDepthR hWf'.2
        (by rw [hLenB]; omega)
        (fun x hx1 hx2 => by
          have hxNe : x ≠ dst := fun hc => hDst ⟨by omega, by omega⟩
          rw [hGetB_ne x hxNe]
          have hxLt : x < h.length := by omega
          rw [hFrameA x hxLt (fun hc => by omega)]
          exact hAgr x (by omega) hx2)
        (fun kk w hw => by
          rcases hNewA kk w hw with hm | hreg
          · have := hMemo kk w hm
            intro hc
            exact this ⟨by omega, hc.2⟩
          · intro hc
            omega)
        (fun hc => hDst ⟨by omega, hc.2⟩)
        hDgetB
        hPhR
    refine ⟨h', memo', Δ2 ++ Δ1, v1' :: ws2, ?_, by omega, ?_, ?_, ?_, ?_, ?_, ?_⟩
    · simp only [hookTupleElems, hk1]
      rw [hTupleSet]
      have hIdx : (pre ++ [v1']).length = pre.length + 1 := by simp
      rw [← hIdx]
      exact hkR
    · intro x hx hxd hxreg
      rw [hFrameR x (by omega) hxd (fun hc => hxreg ⟨by omega, hc.2⟩)]
      rw [hGetB_ne x hxd]
      exact hFrameA x hx (fun hc => hxreg ⟨hc.1, by omega⟩)
    · exact fun kk w hw => hExtR kk w (hExtA kk w hw)
    · intro kk w hw
      rcases hNewR kk w hw with hmA | hreg
      · rcases hNewA kk w hmA with hm | hreg1
        · exact Or.inl hm
        · exact Or.inr ⟨hreg1.1, by omega⟩
      · exact Or.inr ⟨by omega, hreg.2⟩
    · simpa [List.append_assoc] using hDgetR
    · intro x hx
      rcases List.mem_append.1 hx with hx2 | hx1
      · rcases hΔ2 x hx2 with hr2 | hf
        · exact Or.inl ⟨by omega, hr2.2⟩
        · exact Or.inr ⟨by omega, hf.2⟩
      · rcases hΔ1 x hx1 with hr1 | hf
        · exact Or.inl ⟨hr1.1, by omega⟩
        · exact Or.inr ⟨hf.1, by omega⟩
    · intro vis hvis
      have hDecA' : ∀ vis2, (∀ x ∈ Δ1, x ∉ vis2) →
          decodeHookedA fuel h' vis2 v1' = some (t1, Δ1 ++ vis2) := by
        intro vis2 hv2
        refine decodeHookedA_agree fuel hA h' vis2 v1' t1 (Δ1 ++ vis2) (hDecA vis2 hv2) ?_
        intro x hxout hxnv
        have hxΔ1 : x ∈ Δ1 := by
          rcases List.mem_append.1 hxout with h1 | h2
          · exact h1
          · exact absurd h2 hxnv
        have hxd : x ≠ dst := by
          rcases hΔ1 x hxΔ1 with hr1 | hf
          · intro hc
            exact hDst ⟨by omega, by omega⟩
          · intro hc
            omega
        have hxLtB : x < (heapSet hA dst (PyObj.tuple (pre ++ v1' :: phRest))).length := by
          rcases hΔ1 x hxΔ1 with hr1 | hf <;> omega
        have hxNotR : ¬(h1enc.length ≤ x ∧ x < henc2.length) := by
          rcases hΔ1 x hxΔ1 with hr1 | hf <;> omega
        rw [hFrameR x hxLtB hxd hxNotR, hGetB_ne x hxd]
      have hDisj : ∀ x ∈ Δ2, x ∉ Δ1 := by
        intro x hx2 hx1
        rcases hΔ2 x hx2 with hr2 | hf2 <;> rcases hΔ1 x hx1 with hr1 | hf1 <;> omega
      have hChild : decodeHookedA fuel h' vis v1' = some (t1, Δ1 ++ vis) :=
        hDecA' vis (fun x hx => hvis x (List.mem_append.2 (Or.inr hx)))
      have hRest : decodeHList (decodeHookedA fuel) h' (Δ1 ++ vis) ws2
          = some (tsRest, Δ2 ++ (Δ1 ++ vis)) := by
        refine hDecR (Δ1 ++ vis) ?_
        intro x hx hc
        rcases List.mem_append.1 hc with hcd | hcv
        · exact hDisj x hx hcd
        · exact hvis x (List.mem_append.2 (Or.inl hx)) hcv
      simp only [decodeHList, hChild]
      rw [hRest]
      simp [List.append_assoc]

/-- `magidict_hook_with_memo` correctly converts every encoded well-formed
plain tree: see `HookEnc`. -/
theorem hookEnc_all : ∀ fuel, HookEnc fuel := by
  intro fuel
  induction fuel with
  | zero =>
    intro t h0 henc v h memo hEnc hDepth
    exact absurd hDepth (by omega)
  | succ fuel ih =>
    intro t h0 henc v h memo hEnc hDepth hWf hLen hAgr hMemo
    cases t with
    | scalar s =>
      have hEnc' : (h0, PyVal.scalar s) = (henc, v) := by rw [← hEnc]; rfl
      have hh : h0 = henc := congrArg Prod.fst hEnc'
      have hv : PyVal.scalar s = v := congrArg Prod.snd hEnc'
      subst hh
      rw [← hv]
      refine ⟨h, memo, PyVal.scalar s, [], rfl, Nat.le_refl _, fun x _ _ => rfl,
        fun k w hw => hw, fun k w hw => Or.inl hw, by simp, ?_, ?_⟩
      · intro vis _
        rfl
      · intro ses hses
        exact absurd hses (by simp)
    | pmap ses =>
      rcases hq : encodeEntriesT ses h0 with ⟨hE1, es'⟩
      have hEnc' : (hE1 ++ [PyObj.dict es'], PyVal.ref hE1.length) = (henc, v) := by
        rw [← hEnc]
        show (hE1 ++ [PyObj.dict es'], PyVal.ref hE1.length) =
          ((encodeEntriesT ses h0).1 ++ [PyObj.dict (encodeEntriesT ses h0).2],
            PyVal.ref (encodeEntriesT ses h0).1.length)
        rw [hq]
      have hh : hE1 ++ [PyObj.dict es'] = henc := congrArg Prod.fst hEnc'
      have hv : PyVal.ref hE1.length = v := congrArg Prod.snd hEnc'
      subst hh
      rw [← hv]
      have hlen : (hE1 ++ [PyObj.dict es']).length = hE1.length + 1 := by simp
      have hr0 : h0.length ≤ hE1.length := by
        have := encodeEntriesT_length_le ses h0
        rw [hq] at this
        exact this
      have hlen2 : (h ++ [PyObj.magi false false []]).length = h.length + 1 := by simp
      have hgr : heapGet h hE1.length = some (PyObj.dict es') := by
        rw [hAgr hE1.length hr0 (by omega)]
        exact heapGet_append_self hE1 (PyObj.dict es')
      have hmr : memoFind memo hE1.length = Option.none := by
        cases hmm : memoFind memo hE1.length with
        | none => rfl
        | some w => exact absurd ⟨hr0, by omega⟩ (hMemo _ w hmm)
      have hwf' : keysNodup (ses.map Prod.fst) = true ∧ PTree.wfEntries ses = true := by
        have := hWf
        rw [show PTree.wf (PTree.pmap ses) =
          (keysNodup (ses.map Prod.fst) && PTree.wfEntries ses) from rfl,
          Bool.and_eq_true] at this
        exact this
      have hDepthE : PTree.depthEntries ses < fuel := by
        have : PTree.depth (PTree.pmap ses) = 1 + PTree.depthEntries ses := rfl
        omega
      obtain ⟨h', memo', Δe, ts, hkE, hLenE, hFrameE, hExtE, hNewE, hDgetE, hΔE, hDecE⟩ :=
        hookEntries_encoded fuel ih ses h0 hE1 es' h.length
          (h ++ [PyObj.magi false false []])
          ((hE1.length, PyVal.ref h.length) :: memo) false false []
          hq hDepthE hwf'.2 hwf'.1
          (by omega)
          (fun x hx1 hx2 => by
            rw [heapGet_append_left _ (show x < h.length by omega),
              hAgr x hx1 (by omega), heapGet_append_left _ hx2])
          (fun kk w hw => by
            rw [memoFind_cons] at hw
            by_cases hkk : hE1.length = kk
            · subst hkk
              intro hc
              omega
            · rw [if_neg hkk] at hw
              have := hMemo kk w hw
              intro hc
              exact this ⟨hc.1, by omega⟩)
          (by intro hc; omega)
          (heapGet_append_self h (PyObj.magi false false []))
          (fun p _ q hq' => absurd hq' (List.not_mem_nil q))
      have hEqn : hookWithMemo (fuel + 1) h memo (PyVal.ref hE1.length)
          = some (h', memo', PyVal.ref h.length) := by
        show hookStep (hookWithMemo fuel) h memo (PyVal.ref hE1.length)
          = some (h', memo', PyVal.ref h.length)
        simp only [hookStep, hmr, hgr]
        rw [hkE]
      refine ⟨h', memo', PyVal.ref h.length, Δe ++ [h.length], hEqn, by omega, ?_, ?_, ?_, ?_, ?_, ?_⟩
      · intro x hx hxreg
        rw [hFrameE x (by omega) (by omega) (fun hc => hxreg ⟨hc.1, by omega⟩),
          heapGet_append_left _ hx]
      · intro kk w hw
        refine hExtE kk w ?_
        rw [memoFind_cons]
        by_cases hkk : hE1.length = kk
        · exfalso
          subst hkk
          exact hMemo _ w hw ⟨hr0, by omega⟩
        · rw [if_neg hkk]
          exact hw
      · intro kk w hw
        rcases hNewE kk w hw with hm1 | hreg
        · rw [memoFind_cons] at hm1
          by_cases hkk : hE1.length = kk
          · subst hkk
            exact Or.inr ⟨hr0, by omega⟩
          · rw [if_neg hkk] at hm1
            exact Or.inl hm1
        · exact Or.inr ⟨hreg.1, by omega⟩
      · intro x hx
        rcases List.mem_append.1 hx with hxe | hxa
        · rcases hΔE x hxe with hreg | hfr
          · exact Or.inl ⟨hreg.1, by omega⟩
          · exact Or.inr ⟨by omega, hfr.2⟩
        · rw [List.mem_singleton.1 hxa]
          exact Or.inr ⟨Nat.le_refl _, by omega⟩
      · intro vis hvis
        have hnv : h.length ∉ vis :=
          hvis h.length (List.mem_append.2 (Or.inr (List.mem_singleton.2 rfl)))
        have hDgetE' : heapGet h' h.length = some (PyObj.magi false false ts) := by
          simpa using hDgetE
        have hEnt : decodeHEntries (decodeHookedA fuel) h' (h.length :: vis) ts
            = some (ses, Δe ++ (h.length :: vis)) := by
          refine hDecE (h.length :: vis) ?_
          intro x hxe hc
          rcases List.mem_cons.1 hc with hch | hcv
          · rcases hΔE x hxe with hreg | hfr <;> omega
          · exact hvis x (List.mem_append.2 (Or.inl hxe)) hcv
        show decodeHookedA (fuel + 1) h' vis (PyVal.ref h.length)
          = some (PTree.pmap ses, (Δe ++ [h.length]) ++ vis)
        simp only [decodeHookedA, decodeHookedStep, if_neg hnv, hDgetE', hEnt]
        simp
      · intro ses2 _
        exact ⟨hE1.length, rfl, hExtE _ _ (by rw [memoFind_cons, if_pos rfl])⟩
    | plist ts =>
      rcases hq : encodeListT ts h0 with ⟨hL1, vs⟩
      have hEnc' : (hL1 ++ [PyObj.list vs], PyVal.ref hL1.length) = (henc, v) := by
        rw [← hEnc]
        show (hL1 ++ [PyObj.list vs], PyVal.ref hL1.length) =
          ((encodeListT ts h0).1 ++ [PyObj.list (encodeListT ts h0).2],
            PyVal.ref (encodeListT ts h0).1.length)
        rw [hq]
      have hh : hL1 ++ [PyObj.list vs] = henc := congrArg Prod.fst hEnc'
      have hv : PyVal.ref hL1.length = v := congrArg Prod.snd hEnc'
      subst hh
      rw [← hv]
      have hlen : (hL1 ++ [PyObj.list vs]).length = hL1.length + 1 := by simp
      have hr0 : h0.length ≤ hL1.length := by
        have := encodeListT_length_le ts h0
        rw [hq] at this
        exact this
      have hgr : heapGet h hL1.length = some (PyObj.list vs) := by
        rw [hAgr hL1.length hr0 (by omega)]
        exact heapGet_append_self hL1 (PyObj.list vs)
      have hmr : memoFind memo hL1.length = Option.none := by
        cases hmm : memoFind memo hL1.length with
        | none => rfl
        | some w => exact absurd ⟨hr0, by omega⟩ (hMemo _ w hmm)
      have hwf' : PTree.wfList ts = true := hWf
      have hDepthE : PTree.depthList ts < fuel := by
        have : PTree.depth (PTree.plist ts) = 1 + PTree.depthList ts := rfl
        omega
      obtain ⟨h', memo', Δe, ws, hkE, hLenE, hFrameE, hExtE, hNewE, hDgetE, hΔE, hDecE⟩ :=
        hookListElems_encoded fuel ih ts h0 hL1 vs hL1.length h
          ((hL1.length, PyVal.ref hL1.length) :: memo) []
          hq hDepthE hwf'
          (by omega)
          (fun x hx1 hx2 => by
            rw [hAgr x hx1 (by omega), heapGet_append_left _ hx2])
          (fun kk w hw => by
            rw [memoFind_cons] at hw
            by_cases hkk : hL1.length = kk
            · subst hkk
              intro hc
              omega
            · rw [if_neg hkk] at hw
              have := hMemo kk w hw
              intro hc
              exact this ⟨hc.1, by omega⟩)
          (by intro hc; omega)
          (by simpa using hgr)
      have hkE0 : hookListElems (hookWithMemo fuel) hL1.length vs 0 h
          ((hL1.length, PyVal.ref hL1.length) :: memo) = some (h', memo') := hkE
      have hEqn : hookWithMemo (fuel + 1) h memo (PyVal.ref hL1.length)
          = some (h', memo', PyVal.ref hL1.length) := by
        show hookStep (hookWithMemo fuel) h memo (PyVal.ref hL1.length)
          = some (h', memo', PyVal.ref hL1.length)
        simp only [hookStep, hmr, hgr]
        rw [hkE0]
      refine ⟨h', memo', PyVal.ref hL1.length, Δe ++ [hL1.length], hEqn, by omega,
        ?_, ?_, ?_, ?_, ?_, ?_⟩
      · intro x hx hxreg
        have hxr : x ≠ hL1.length := fun hc => hxreg ⟨by omega, by omega⟩
        rw [hFrameE x hx hxr (fun hc => hxreg ⟨hc.1, by omega⟩)]
      · intro kk w hw
        refine hExtE kk w ?_
        rw [memoFind_cons]
        by_cases hkk : hL1.length = kk
        · exfalso
          subst hkk
          exact hMemo _ w hw ⟨hr0, by omega⟩
        · rw [if_neg hkk]
          exact hw
      · intro kk w hw
        rcases hNewE kk w hw with hm1 | hreg
        · rw [memoFind_cons] at hm1
          by_cases hkk : hL1.length = kk
          · subst hkk
            exact Or.inr ⟨hr0, by omega⟩
          · rw [if_neg hkk] at hm1
            exact Or.inl hm1
        · exact Or.inr ⟨hreg.1, by omega⟩
      · intro x hx
        rcases List.mem_append.1 hx with hxe | hxa
        · rcases hΔE x hxe with hreg | hfr
          · exact Or.inl ⟨hreg.1, by omega⟩
          · exact Or.inr ⟨hfr.1, hfr.2⟩
        · rw [List.mem_singleton.1 hxa]
          exact Or.inl ⟨hr0, by omega⟩
      · intro vis hvis
        have hnv : hL1.length ∉ vis :=
          hvis hL1.length (List.mem_append.2 (Or.inr (List.mem_singleton.2 rfl)))
        have hDgetE' : heapGet h' hL1.length = some (PyObj.list ws) := by
          simpa using hDgetE
        have hEnt : decodeHList (decodeHookedA fuel) h' (hL1.length :: vis) ws
            = some (ts, Δe ++ (hL1.length :: vis)) := by
          refine hDecE (hL1.length :: vis) ?_
          intro x hxe hc
          rcases List.mem_cons.1 hc with hch | hcv
          · rcases hΔE x hxe with hreg | hfr <;> omega
          · exact hvis x (List.mem_append.2 (Or.inl hxe)) hcv
        show decodeHookedA (fuel + 1) h' vis (PyVal.ref hL1.length)
          = some (PTree.plist ts, (Δe ++ [hL1.length]) ++ vis)
        simp only [decodeHookedA, decodeHookedStep, if_neg hnv, hDgetE', hEnt]
        simp
      · intro ses2 hses
        exact absurd hses (by simp)
    | ptuple ts =>
      rcases hq : encodeListT ts h0 with ⟨hL1, vs⟩
      have hEnc' : (hL1 ++ [PyObj.tuple vs], PyVal.ref hL1.length) = (henc, v) := by
        rw [← hEnc]
        show (hL1 ++ [PyObj.tuple vs], PyVal.ref hL1.length) =
          ((encodeListT ts h0).1 ++ [PyObj.tuple (encodeListT ts h0).2],
            PyVal.ref (encodeListT ts h0).1.length)
        rw [hq]
      have hh : hL1 ++ [PyObj.tuple vs] = henc := congrArg Prod.fst hEnc'
      have hv : PyVal.ref hL1.length = v := congrArg Prod.snd hEnc'
      subst hh
      rw [← hv]
      have hlen : (hL1 ++ [PyObj.tuple vs]).length = hL1.length + 1 := by simp
      have hr0 : h0.length ≤ hL1.length := by
        have := encodeListT_length_le ts h0
        rw [hq] at this
        exact this
      have hlen2 : (h ++ [PyObj.tuple (vs.map fun _ => PyVal.scalar .none)]).length
          = h.length + 1 := by simp
      have hgr : heapGet h hL1.length = some (PyObj.tuple vs) := by
        rw [hAgr hL1.length hr0 (by omega)]
        exact heapGet_append_self hL1 (PyObj.tuple vs)
      have hmr : memoFind memo hL1.length = Option.none := by
        cases hmm : memoFind memo hL1.length with
        | none => rfl
        | some w => exact absurd ⟨hr0, by omega⟩ (hMemo _ w hmm)
      have hwf' : PTree.wfList ts = true := hWf
      have hDepthE : PTree.depthList ts < fuel := by
        have : PTree.depth (PTree.ptuple ts) = 1 + PTree.depthList ts := rfl
        omega
      obtain ⟨h', memo', Δe, ws, hkE, hLenE, hFrameE, hExtE, hNewE, hDgetE, hΔE, hDecE⟩ :=
        hookTupleElems_encoded fuel ih ts h0 hL1 vs h.length
          (h ++ [PyObj.tuple (vs.map fun _ => PyVal.scalar .none)]) memo
          [] (vs.map fun _ => PyVal.scalar .none)
          hq hDepthE hwf'
          (by omega)
          (fun x hx1 hx2 => by
            rw [heapGet_append_left _ (show x < h.length by omega),
              hAgr x hx1 (by omega), heapGet_append_left _ hx2])
          (fun kk w hw => by
            have := hMemo kk w hw
            intro hc
            exact this ⟨hc.1, by omega⟩)
          (by intro hc; omega)
          (by simpa using heapGet_append_self h (PyObj.tuple (vs.map fun _ => PyVal.scalar .none)))
          (by simp)
      have hkE0 : hookTupleElems (hookWithMemo fuel) h.length vs 0
          (h ++ [PyObj.tuple (vs.map fun _ => PyVal.scalar .none)]) memo
          = some (h', memo') := hkE
      have hEqn : hookWithMemo (fuel + 1) h memo (PyVal.ref hL1.length)
          = some (h', memo', PyVal.ref h.length) := by
        show hookStep (hookWithMemo fuel) h memo (PyVal.ref hL1.length)
          = some (h', memo', PyVal.ref h.length)
        simp only [hookStep, hmr, hgr]
        rw [hkE0]
      refine ⟨h', memo', PyVal.ref h.length, Δe ++ [h.length], hEqn, by omega,
        ?_, ?_, ?_, ?_, ?_, ?_⟩
      · intro x hx hxreg
        rw [hFrameE x (by omega) (by omega) (fun hc => hxreg ⟨hc.1, by omega⟩),
          heapGet_append_left _ hx]
      · exact fun kk w hw => hExtE kk w hw
      · intro kk w hw
        rcases hNewE kk w hw with hm1 | hreg
        · exact Or.inl hm1
        · exact Or.inr ⟨hreg.1, by omega⟩
      · intro x hx
        rcases List.mem_append.1 hx with hxe | hxa
        · rcases hΔE x hxe with hreg | hfr
          · exact Or.inl ⟨hreg.1, by omega⟩
          · exact Or.inr ⟨by omega, hfr.2⟩
        · rw [List.mem_singleton.1 hxa]
          exact Or.inr ⟨Nat.le_refl _, by omega⟩
      · intro vis hvis
        have hnv : h.length ∉ vis :=
          hvis h.length (List.mem_append.2 (Or.inr (List.mem_singleton.2 rfl)))
        have hDgetE' : heapGet h' h.length = some (PyObj.tuple ws) := by
          simpa using hDgetE
        have hEnt : decodeHList (decodeHookedA fuel) h' (h.length :: vis) ws
            = some (ts, Δe ++ (h.length :: vis)) := by
          refine hDecE (h.length :: vis) ?_
          intro x hxe hc
          rcases List.mem_cons.1 hc with hch | hcv
          · rcases hΔE x hxe with hreg | hfr <;> omega
          · exact hvis x (List.mem_append.2 (Or.inl hxe)) hcv
        show decodeHookedA (fuel + 1) h' vis (PyVal.ref h.length)
          = some (PTree.ptuple ts, (Δe ++ [h.length]) ++ vis)
        simp only [decodeHookedA, decodeHookedStep, if_neg hnv, hDgetE', hEnt]
        simp
      · intro ses2 hses
        exact absurd hses (by simp)

/-! ## Simulation of disenchant on hooked trees

`DisSpec fuel` packages the key property of
`magidict_disenchant_recursive`: on a value that reads back (via
`decodeHookedA`) as a well-formed tree `t`, disenchanting succeeds, leaves
every existing address untouched (it only allocates), extends the memo only
with visited source addresses, and produces a value that reads back as the
same tree through `decodePlainA` (plain dicts, no MagiDicts). -/

def DisSpec (fuel : Nat) : Prop :=
  ∀ (t : PTree) (v : PyVal) (Δ : List Nat) (h : Heap) (memo : Memo),
    PTree.wf t = true →
    (∀ vis, (∀ x ∈ Δ, x ∉ vis) → decodeHookedA fuel h vis v = some (t, Δ ++ vis)) →
    (∀ k w, memoFind memo k = some w → k ∉ Δ) →
    ∃ h' memo' w B,
      disenchantRec fuel h memo v = some (h', memo', w) ∧
      h.length ≤ h'.length ∧
      (∀ x, x < h.length → heapGet h' x = heapGet h x) ∧
      (∀ k c, memoFind memo k = some c → memoFind memo' k = some c) ∧
      (∀ k c, memoFind memo' k = some c → memoFind memo k = some c ∨ k ∈ Δ) ∧
      (∀ x ∈ B, h.length ≤ x ∧ x < h'.length) ∧
      (∀ vis, (∀ x ∈ B, x ∉ vis) → decodePlainA fuel h' vis w = some (t, B ++ vis))

/-- The entry loop of the dict branch of disenchant: keys (scalars here)
and values are disenchanted and written into the fresh plain dict at
`dst`. -/
theorem disenchantEntries_spec (fuel : Nat) (IH : DisSpec fuel) :
    ∀ (ses : List (PyScalar × PTree)) (es : List (PyVal × PyVal)) (Δ : List Nat)
      (dst : Nat) (h : Heap) (memo : Memo) (acc : List (PyVal × PyVal)),
      PTree.wfEntries ses = true →
      keysNodup (ses.map Prod.fst) = true →
      (∀ vis, (∀ x ∈ Δ, x ∉ vis) →
        decodeHEntries (decodeHookedA fuel) h vis es = some (ses, Δ ++ vis)) →
      (∀ k w, memoFind memo k = some w → k ∉ Δ) →
      heapGet h dst = some (PyObj.dict acc) →
      dst ∉ Δ →
      (∀ p ∈ ses, ∀ q ∈ acc, q.1 ≠ PyVal.scalar p.1) →
      ∃ h' memo' B ts,
        disenchantEntries (disenchantRec fuel) dst es h memo = some (h', memo') ∧
        h.length ≤ h'.length ∧
        (∀ x, x < h.length → x ≠ dst → heapGet h' x = heapGet h x) ∧
        (∀ k c, memoFind memo k = some c → memoFind memo' k = some c) ∧
        (∀ k c, memoFind memo' k = some c → memoFind memo k = some c ∨ k ∈ Δ) ∧
        heapGet h' dst = some (PyObj.dict (acc ++ ts)) ∧
        (∀ x ∈ B, h.length ≤ x ∧ x < h'.length) ∧
        (∀ vis, (∀ x ∈ B, x ∉ vis) →
          decodeHEntries (decodePlainA fuel) h' vis ts = some (ses, B ++ vis)) := by
  intro ses
  induction ses with
  | nil =>
    intro es Δ dst h memo acc hWf hNodup hDec hMemo hDget hDst hKeys
    have hD0 := hDec [] (by simp)
    rw [List.append_nil] at hD0
    cases es with
    | cons p esRest =>
      exfalso
      obtain ⟨pk, pv⟩ := p
      cases pk with
      | ref b => exact absurd hD0 (by simp [decodeHEntries])
      | scalar sk =>
        simp only [decodeHEntries] at hD0
        cases hE : decodeHookedA fuel h [] pv with
        | none => rw [hE] at hD0; exact absurd hD0 (by simp)
        | some p1 =>
          obtain ⟨t1, vis1⟩ := p1
          rw [hE] at hD0
          dsimp only at hD0
          cases hR : decodeHEntries (decodeHookedA fuel) h vis1 esRest with
          | none => rw [hR] at hD0; exact absurd hD0 (by simp)
          | some q =>
            obtain ⟨ts2, vis2⟩ := q
            rw [hR] at hD0
            dsimp only at hD0
            simp at hD0
    | nil =>
      have hΔ : Δ = [] := by
        simp only [decodeHEntries, Option.some.injEq, Prod.mk.injEq] at hD0
        exact hD0.2.symm
      subst hΔ
      refine ⟨h, memo, [], [], rfl, Nat.le_refl _, fun x _ _ => rfl,
        fun k c hc => hc, fun k c hc => Or.inl hc, by simpa using hDget,
        by simp, ?_⟩
      intro vis _
      simp [decodeHEntries]
  | cons sp sesRest ihRest =>
    intro es Δ dst h memo acc hWf hNodup hDec hMemo hDget hDst hKeys
    obtain ⟨sk, t1⟩ := sp
    -- fuel must be positive for the decode hypothesis to hold on a cons
    cases fuel with
    | zero =>
      exfalso
      have hD0 := hDec [] (by simp)
      cases es with
      | nil => simp [decodeHEntries] at hD0
      | cons p esRest =>
        obtain ⟨pk, pv⟩ := p
        cases pk with
        | ref b => exact absurd hD0 (by simp [decodeHEntries])
        | scalar sk => simp [decodeHEntries, decodeHookedA] at hD0
    | succ f =>
      have hD0 := hDec [] (by simp)
      rw [List.append_nil] at hD0
      -- invert the decode of the entry list
      cases es with
      | nil =>
        exfalso
        simp [decodeHEntries] at hD0
      | cons p esRest =>
        obtain ⟨pk, pv⟩ := p
        cases pk with
        | ref b => exact absurd hD0 (by simp [decodeHEntries])
        | scalar sk =>
          simp only [decodeHEntries] at hD0
          cases hE : decodeHookedA (f + 1) h [] pv with
          | none => rw [hE] at hD0; exact absurd hD0 (by simp)
          | some p1 =>
            obtain ⟨t1', vis1⟩ := p1
            rw [hE] at hD0
            dsimp only at hD0
            cases hR : decodeHEntries (decodeHookedA (f + 1)) h vis1 esRest with
            | none => rw [hR] at hD0; exact absurd hD0 (by simp)
            | some q =>
              obtain ⟨ts2', vis2⟩ := q
              rw [hR] at hD0
              dsimp only at hD0
              have hD0s := hD0.symm
              simp only [Option.some.injEq, Prod.mk.injEq, List.cons.injEq] at hD0s
              obtain ⟨⟨⟨hkk1, hkk2⟩, hts2⟩, hΔout⟩ := hD0s
              subst hkk1
              subst hkk2
              subst hts2
              subst hΔout
              -- structure of the two visit sets
              obtain ⟨Δ1, hv1eq, hΔ1mem, hall1⟩ :=
                decodeHookedA_frame (f + 1) h [] pv t1 vis1 hE
              rw [List.append_nil] at hv1eq
              have hv1eq' := hv1eq.symm
              subst hv1eq'
              obtain ⟨Δ2, hv2eq, hΔ2mem, hall2⟩ :=
                decodeHEntries_frame (decodeHookedA_frame (f + 1) h) esRest Δ1
                  sesRest Δ hR
              subst hv2eq
              -- wf facts
              have hWf' : PTree.wf t1 = true ∧ PTree.wfEntries sesRest = true := by
                have := hWf
                rw [show PTree.wfEntries ((sk, t1) :: sesRest) =
                  (PTree.wf t1 && PTree.wfEntries sesRest) from rfl,
                  Bool.and_eq_true] at this
                exact this
              have hNodupPair := keysNodup_cons (by simpa using hNodup)
              have hkNotMem : ∀ p2 ∈ sesRest, p2.1 ≠ sk := by
                intro p2 hp2 hc
                exact hNodupPair.1 (List.mem_map.2 ⟨p2, hp2, hc⟩)
              have hdstLt : dst < h.length := heapGet_lt_length hDget
              -- child disenchant
              obtain ⟨hA, memoA, w1, B1, hd1, hLenA, hPresA, hExtA, hNewA, hB1, hDecP1⟩ :=
                IH t1 pv Δ1 h memo hWf'.1 (hall1) (fun k w hw => by
                  intro hc
                  exact hMemo k w hw (List.mem_append.2 (Or.inr hc)))
              -- the key is a scalar: its disenchant is the identity
              have hdk : disenchantRec (f + 1) h memo (PyVal.scalar sk)
                  = some (h, memo, PyVal.scalar sk) := rfl
              -- dst untouched by the child
              have hDgetA : heapGet hA dst = some (PyObj.dict acc) := by
                rw [hPresA dst hdstLt]
                exact hDget
              have hAccK : ∀ q ∈ acc, q.1 ≠ PyVal.scalar sk :=
                fun q hq' => hKeys (sk, t1) (List.mem_cons_self _ _) q hq'
              have hDictSet : heapDictSet hA dst (PyVal.scalar sk) w1 =
                  some (heapSet hA dst (PyObj.dict (acc ++ [(PyVal.scalar sk, w1)]))) := by
                simp [heapDictSet, hDgetA, dictSet_append hAccK w1]
              have hdstLtA : dst < hA.length := lt_of_lt_of_le hdstLt hLenA
              have hLenB : (heapSet hA dst
                  (PyObj.dict (acc ++ [(PyVal.scalar sk, w1)]))).length = hA.length :=
                length_heapSet _ _ _
              have hDgetB : heapGet (heapSet hA dst
                    (PyObj.dict (acc ++ [(PyVal.scalar sk, w1)]))) dst
                  = some (PyObj.dict (acc ++ [(PyVal.scalar sk, w1)])) :=
                heapGet_heapSet_eq hdstLtA _
              have hGetB_ne : ∀ x, x ≠ dst →
                  heapGet (heapSet hA dst
                    (PyObj.dict (acc ++ [(PyVal.scalar sk, w1)]))) x = heapGet hA x :=
                fun x hx => heapGet_heapSet_ne hA (fun hc => hx hc.symm) _
              -- the rest of the entries still decode in the updated heap
              have hΔ2lt : ∀ x ∈ Δ2, x < h.length := fun x hx => (hΔ2mem x hx).2
              have hΔ2ndst : ∀ x ∈ Δ2, x ≠ dst := by
                intro x hx hc
                exact hDst (hc ▸ List.mem_append.2 (Or.inl hx))
              have hRestDec : ∀ vis, (∀ x ∈ Δ2, x ∉ vis) →
                  decodeHEntries (decodeHookedA (f + 1))
                    (heapSet hA dst (PyObj.dict (acc ++ [(PyVal.scalar sk, w1)]))) vis esRest
                    = some (sesRest, Δ2 ++ vis) := by
                intro vis hvis
                refine decodeHEntries_agree (decodeHookedA_frame (f + 1) h)
                  (decodeHookedA_agree (f + 1) h _) esRest vis sesRest (Δ2 ++ vis)
                  (hall2 vis hvis) ?_
                intro x hxout hxnv
                have hxΔ2 : x ∈ Δ2 := by
                  rcases List.mem_append.1 hxout with h1 | h2
                  · exact h1
                  · exact absurd h2 hxnv
                rw [hGetB_ne x (hΔ2ndst x hxΔ2), hPresA x (hΔ2lt x hxΔ2)]
              -- recurse
              obtain ⟨h', memo', B2, ts2, hdR, hLenR, hPresR, hExtR, hNewR, hDgetR, hB2, hDecP2⟩ :=
                ihRest esRest Δ2 dst
                  (heapSet hA dst (PyObj.dict (acc ++ [(PyVal.scalar sk, w1)]))) memoA
                  (acc ++ [(PyVal.scalar sk, w1)])
                  hWf'.2 hNodupPair.2 hRestDec
                  (fun k w hw => by
                    intro hc
                    rcases hNewA k w hw with hm | hΔ1m
                    · exact hMemo k w hm (List.mem_append.2 (Or.inl hc))
                    · exact (hΔ2mem k hc).1 hΔ1m)
                  hDgetB
                  (fun hc => hDst (List.mem_append.2 (Or.inl hc)))
                  (by
                    intro p2 hp2 q hq'
                    rcases List.mem_append.1 hq' with hqa | hqn
                    · exact hKeys p2 (List.mem_cons_of_mem _ hp2) q hqa
                    · rw [List.mem_singleton.1 hqn]
                      intro hc
                      injection hc with hkk
                      exact hkNotMem p2 hp2 hkk.symm)
              -- Assemble
              refine ⟨h', memo', B2 ++ B1, (PyVal.scalar sk, w1) :: ts2,
                ?_, by omega, ?_, ?_, ?_, ?_, ?_, ?_⟩
              · simp only [disenchantEntries, hdk]
                rw [hd1]
                dsimp only
                rw [hDictSet]
                dsimp only
                exact hdR
              · intro x hx hxd
                rw [hPresR x (by omega) hxd, hGetB_ne x hxd, hPresA x hx]
              · exact fun k c hk => hExtR k c (hExtA k c hk)
              · intro k c hk
                rcases hNewR k c hk with hmA | hΔ2m
                · rcases hNewA k c hmA with hm | hΔ1m
                  · exact Or.inl hm
                  · exact Or.inr (List.mem_append.2 (Or.inr hΔ1m))
                · exact Or.inr (List.mem_append.2 (Or.inl hΔ2m))
              · simpa [List.append_assoc] using hDgetR
              · intro x hx
                rcases List.mem_append.1 hx with hx2 | hx1
                · have := hB2 x hx2
                  omega
                · have := hB1 x hx1
                  omega
              · intro vis hvis
                have hDecP1' : ∀ vis2, (∀ x ∈ B1, x ∉ vis2) →
                    decodePlainA (f + 1) h' vis2 w1 = some (t1, B1 ++ vis2) := by
                  intro vis2 hv2
                  refine decodePlainA_agree (f + 1) hA h' vis2 w1 t1 (B1 ++ vis2)
                    (hDecP1 vis2 hv2) ?_
                  intro x hxout hxnv
                  have hxB1 : x ∈ B1 := by
                    rcases List.mem_append.1 hxout with h1 | h2
                    · exact h1
                    · exact absurd h2 hxnv
                  have hxd : x ≠ dst := by
                    have := hB1 x hxB1
                    omega
                  have hxLtB : x < (heapSet hA dst
                      (PyObj.dict (acc ++ [(PyVal.scalar sk, w1)]))).length := by
                    have := hB1 x hxB1
                    omega
                  rw [hPresR x hxLtB hxd, hGetB_ne x hxd]
                have hChild : decodePlainA (f + 1) h' vis w1 = some (t1, B1 ++ vis) :=
                  hDecP1' vis (fun x hx => hvis x (List.mem_append.2 (Or.inr hx)))
                have hRest2 : decodeHEntries (decodePlainA (f + 1)) h' (B1 ++ vis) ts2
                    = some (sesRest, B2 ++ (B1 ++ vis)) := by
                  refine hDecP2 (B1 ++ vis) ?_
                  intro x hx hc
                  rcases List.mem_append.1 hc with hcb | hcv
                  · have h1 := hB1 x hcb
                    have h2 := hB2 x hx
                    omega
                  · exact hvis x (List.mem_append.2 (Or.inl hx)) hcv
                simp only [decodeHEntries, hChild]
                rw [hRest2]
                simp [List.append_assoc]

/-- The element loop of the list branch of disenchant: the slots of the
fresh list at `dst` are filled with the disenchanted elements. -/
theorem disenchantListElems_spec (fuel : Nat) (IH : DisSpec fuel) :
    ∀ (ts : List PTree) (xs : List PyVal) (Δ : List Nat)
      (dst : Nat) (h : Heap) (memo : Memo) (pre ph : List PyVal),
      PTree.wfList ts = true →
      (∀ vis, (∀ x ∈ Δ, x ∉ vis) →
        decodeHList (decodeHookedA fuel) h vis xs = some (ts, Δ ++ vis)) →
      (∀ k w, memoFind memo k = some w → k ∉ Δ) →
      heapGet h dst = some (PyObj.list (pre ++ ph)) →
      ph.length = xs.length →
      dst ∉ Δ →
      ∃ h' memo' B ws,
        disenchantListElems (disenchantRec fuel) dst xs pre.length h memo = some (h', memo') ∧
        h.length ≤ h'.length ∧
        (∀ x, x < h.length → x ≠ dst → heapGet h' x = heapGet h x) ∧
        (∀ k c, memoFind memo k = some c → memoFind memo' k = some c) ∧
        (∀ k c, memoFind memo' k = some c → memoFind memo k = some c ∨ k ∈ Δ) ∧
        heapGet h' dst = some (PyObj.list (pre ++ ws)) ∧
        (∀ x ∈ B, h.length ≤ x ∧ x < h'.length) ∧
        (∀ vis, (∀ x ∈ B, x ∉ vis) →
          decodeHList (decodePlainA fuel) h' vis ws = some (ts, B ++ vis)) := by
  intro ts
  induction ts with
  | nil =>
    intro xs Δ dst h memo pre ph hWf hDec hMemo hDget hPh hDst
    have hD0 := hDec [] (by simp)
    rw [List.append_nil] at hD0
    cases xs with
    | cons v xsRest =>
      exfalso
      simp only [decodeHList] at hD0
      cases hE : decodeHookedA fuel h [] v with
      | none => rw [hE] at hD0; exact absurd hD0 (by simp)
      | some p1 =>
        obtain ⟨t1, vis1⟩ := p1
        rw [hE] at hD0
        dsimp only at hD0
        cases hR : decodeHList (decodeHookedA fuel) h vis1 xsRest with
        | none => rw [hR] at hD0; exact absurd hD0 (by simp)
        | some q =>
          obtain ⟨ts2, vis2⟩ := q
          rw [hR] at hD0
          dsimp only at hD0
          simp at hD0
    | nil =>
      have hΔ : Δ = [] := by
        simp only [decodeHList, Option.some.injEq, Prod.mk.injEq] at hD0
        exact hD0.2.symm
      subst hΔ
      have hph : ph = [] := List.length_eq_zero.1 (by simpa using hPh)
      subst hph
      refine ⟨h, memo, [], [], rfl, Nat.le_refl _, fun x _ _ => rfl,
        fun k c hc => hc, fun k c hc => Or.inl hc, by simpa using hDget,
        by simp, ?_⟩
      intro vis _
      simp [decodeHList]
  | cons t1 tsRest ihRest =>
    intro xs Δ dst h memo pre ph hWf hDec hMemo hDget hPh hDst
    cases fuel with
    | zero =>
      exfalso
      have hD0 := hDec [] (by simp)
      cases xs with
      | nil => simp [decodeHList] at hD0
      | cons v xsRest => simp [decodeHList, decodeHookedA] at hD0
    | succ f =>
      have hD0 := hDec [] (by simp)
      rw [List.append_nil] at hD0
      cases xs with
      | nil =>
        exfalso
        simp [decodeHList] at hD0
      | cons v1 xsRest =>
        simp only [decodeHList] at hD0
        cases hE : decodeHookedA (f + 1) h [] v1 with
        | none => rw [hE] at hD0; exact absurd hD0 (by simp)
        | some p1 =>
          obtain ⟨t1', vis1⟩ := p1
          rw [hE] at hD0
          dsimp only at hD0
          cases hR : decodeHList (decodeHookedA (f + 1)) h vis1 xsRest with
          | none => rw [hR] at hD0; exact absurd hD0 (by simp)
          | some q =>
            obtain ⟨ts2', vis2⟩ := q
            rw [hR] at hD0
            dsimp only at hD0
            have hD0s := hD0.symm
            simp only [Option.some.injEq, Prod.mk.injEq, List.cons.injEq] at hD0s
            obtain ⟨⟨ht1, hts2⟩, hΔout⟩ := hD0s
            subst ht1
            subst hts2
            subst hΔout
            obtain ⟨Δ1, hv1eq, hΔ1mem, hall1⟩ :=
              decodeHookedA_frame (f + 1) h [] v1 t1 vis1 hE
            rw [List.append_nil] at hv1eq
            have hv1eq' := hv1eq.symm
            subst hv1eq'
            obtain ⟨Δ2, hv2eq, hΔ2mem, hall2⟩ :=
              decodeHList_frame (decodeHookedA_frame (f + 1) h) xsRest Δ1 tsRest Δ hR
            subst hv2eq
            have hWf' : PTree.wf t1 = true ∧ PTree.wfList tsRest = true := by
              have := hWf
              rw [show PTree.wfList (t1 :: tsRest) =
                (PTree.wf t1 && PTree.wfList tsRest) from rfl, Bool.and_eq_true] at this
              exact this
            have hdstLt : dst < h.length := heapGet_lt_length hDget
            obtain ⟨ph0, phRest, hphEq⟩ : ∃ ph0 phRest, ph = ph0 :: phRest := by
              cases ph with
              | nil => exact absurd hPh (by simp)
              | cons x y => exact ⟨x, y, rfl⟩
            subst hphEq
            have hPhR : phRest.length = xsRest.length := by simpa using hPh
            -- child disenchant
            obtain ⟨hA, memoA, w1, B1, hd1, hLenA, hPresA, hExtA, hNewA, hB1, hDecP1⟩ :=
              IH t1 v1 Δ1 h memo hWf'.1 hall1 (fun k w hw => by
                intro hc
                exact hMemo k w hw (List.mem_append.2 (Or.inr hc)))
            have hDgetA : heapGet hA dst = some (PyObj.list (pre ++ ph0 :: phRest)) := by
              rw [hPresA dst hdstLt]
              exact hDget
            have hListSet : heapListSet hA dst pre.length w1 =
                some (heapSet hA dst (PyObj.list (pre ++ w1 :: phRest))) := by
              simp [heapListSet, hDgetA, set_at_length]
            have hdstLtA : dst < hA.length := lt_of_lt_of_le hdstLt hLenA
            have hLenB : (heapSet hA dst (PyObj.list (pre ++ w1 :: phRest))).length
                = hA.length := length_heapSet _ _ _
            have hDgetB : heapGet (heapSet hA dst (PyObj.list (pre ++ w1 :: phRest))) dst
                = some (PyObj.list ((pre ++ [w1]) ++ phRest)) := by
              rw [heapGet_heapSet_eq hdstLtA]
              simp
            have hGetB_ne : ∀ x, x ≠ dst →
                heapGet (heapSet hA dst (PyObj.list (pre ++ w1 :: phRest))) x
                  = heapGet hA x :=
              fun x hx => heapGet_heapSet_ne hA (fun hc => hx hc.symm) _
            have hΔ2lt : ∀ x ∈ Δ2, x < h.length := fun x hx => (hΔ2mem x hx).2
            have hΔ2ndst : ∀ x ∈ Δ2, x ≠ dst := by
              intro x hx hc
              exact hDst (hc ▸ List.mem_append.2 (Or.inl hx))
            have hRestDec : ∀ vis, (∀ x ∈ Δ2, x ∉ vis) →
                decodeHList (decodeHookedA (f + 1))
                  (heapSet hA dst (PyObj.list (pre ++ w1 :: phRest))) vis xsRest
                  = some (tsRest, Δ2 ++ vis) := by
              intro vis hvis
              refine decodeHList_agree (decodeHookedA_frame (f + 1) h)
                (decodeHookedA_agree (f + 1) h _) xsRest vis tsRest (Δ2 ++ vis)
                (hall2 vis hvis) ?_
              intro x hxout hxnv
              have hxΔ2 : x ∈ Δ2 := by
                rcases List.mem_append.1 hxout with h1 | h2
                · exact h1
                · exact absurd h2 hxnv
              rw [hGetB_ne x (hΔ2ndst x hxΔ2), hPresA x (hΔ2lt x hxΔ2)]
            obtain ⟨h', memo', B2, ws2, hdR, hLenR, hPresR, hExtR, hNewR, hDgetR, hB2, hDecP2⟩ :=
              ihRest xsRest Δ2 dst
                (heapSet hA dst (PyObj.list (pre ++ w1 :: phRest))) memoA
                (pre ++ [w1]) phRest
                hWf'.2 hRestDec
                (fun k w hw => by
                  intro hc
                  rcases hNewA k w hw with hm | hΔ1m
                  · exact hMemo k w hm (List.mem_append.2 (Or.inl hc))
                  · exact (hΔ2mem k hc).1 hΔ1m)
                hDgetB
                hPhR
                (fun hc => hDst (List.mem_append.2 (Or.inl hc)))
            refine ⟨h', memo', B2 ++ B1, w1 :: ws2, ?_, by omega, ?_, ?_, ?_, ?_, ?_, ?_⟩
            · simp only [disenchantListElems]
              rw [hd1]
              dsimp only
              rw [hListSet]
              dsimp only
              have hIdx : (pre ++ [w1]).length = pre.length + 1 := by simp
              rw [← hIdx]
              exact hdR
            · intro x hx hxd
              rw [hPresR x (by omega) hxd, hGetB_ne x hxd, hPresA x hx]
            · exact fun k c hk => hExtR k c (hExtA k c hk)
            · intro k c hk
              rcases hNewR k c hk with hmA | hΔ2m
              · rcases hNewA k c hmA with hm | hΔ1m
                · exact Or.inl hm
                · exact Or.inr (List.mem_append.2 (Or.inr hΔ1m))
              · exact Or.inr (List.mem_append.2 (Or.inl hΔ2m))
            · simpa [List.append_assoc] using hDgetR
            · intro x hx
              rcases List.mem_append.1 hx with hx2 | hx1
              · have := hB2 x hx2
                omega
              · have := hB1 x hx1
                omega
            · intro vis hvis
              have hDecP1' : ∀ vis2, (∀ x ∈ B1, x ∉ vis2) →
                  decodePlainA (f + 1) h' vis2 w1 = some (t1, B1 ++ vis2) := by
                intro vis2 hv2
                refine decodePlainA_agree (f + 1) hA h' vis2 w1 t1 (B1 ++ vis2)
                  (hDecP1 vis2 hv2) ?_
                intro x hxout hxnv
                have hxB1 : x ∈ B1 := by
                  rcases List.mem_append.1 hxout with h1 | h2
                  · exact h1
                  · exact absurd h2 hxnv
                have hxd : x ≠ dst := by
                  have := hB1 x hxB1
                  omega
                have hxLtB : x < (heapSet hA dst
                    (PyObj.list (pre ++ w1 :: phRest))).length := by
                  have := hB1 x hxB1
                  omega
                rw [hPresR x hxLtB hxd, hGetB_ne x hxd]
              have hChild : decodePlainA (f + 1) h' vis w1 = some (t1, B1 ++ vis) :=
                hDecP1' vis (fun x hx => hvis x (List.mem_append.2 (Or.inr hx)))
              have hRest2 : decodeHList (decodePlainA (f + 1)) h' (B1 ++ vis) ws2
                  = some (tsRest, B2 ++ (B1 ++ vis)) := by
                refine hDecP2 (B1 ++ vis) ?_
                intro x hx hc
                rcases List.mem_append.1 hc with hcb | hcv
                · have hb1 := hB1 x hcb
                  have hb2 := hB2 x hx
                  omega
                · exact hvis x (List.mem_append.2 (Or.inl hx)) hcv
              simp only [decodeHList, hChild]
              rw [hRest2]
              simp [List.append_assoc]

/-- The element loop of the tuple branch of disenchant: the slots of the
fresh tuple at `dst` are filled with the disenchanted elements (no
memoization of the source tuple, as in the C). -/
theorem disenchantTupleElems_spec (fuel : Nat) (IH : DisSpec fuel) :
    ∀ (ts : List PTree) (xs : List PyVal) (Δ : List Nat)
      (dst : Nat) (h : Heap) (memo : Memo) (pre ph : List PyVal),
      PTree.wfList ts = true →
      (∀ vis, (∀ x ∈ Δ, x ∉ vis) →
        decodeHList (decodeHookedA fuel) h vis xs = some (ts, Δ ++ vis)) →
      (∀ k w, memoFind memo k = some w → k ∉ Δ) →
      heapGet h dst = some (PyObj.tuple (pre ++ ph)) →
      ph.length = xs.length →
      dst ∉ Δ →
      ∃ h' memo' B ws,
        disenchantTupleElems (disenchantRec fuel) dst xs pre.length h memo = some (h', memo') ∧
        h.length ≤ h'.length ∧
        (∀ x, x < h.length → x ≠ dst → heapGet h' x = heapGet h x) ∧
        (∀ k c, memoFind memo k = some c → memoFind memo' k = some c) ∧
        (∀ k c, memoFind memo' k = some c → memoFind memo k = some c ∨ k ∈ Δ) ∧
        heapGet h' dst = some (PyObj.tuple (pre ++ ws)) ∧
        (∀ x ∈ B, h.length ≤ x ∧ x < h'.length) ∧
        (∀ vis, (∀ x ∈ B, x ∉ vis) →
          decodeHList (decodePlainA fuel) h' vis ws = some (ts, B ++ vis)) := by
  intro ts
  induction ts with
  | nil =>
    intro xs Δ dst h memo pre ph hWf hDec hMemo hDget hPh hDst
    have hD0 := hDec [] (by simp)
    rw [List.append_nil] at hD0
    cases xs with
    | cons v xsRest =>
      exfalso
      simp only [decodeHList] at hD0
      cases hE : decodeHookedA fuel h [] v with
      | none => rw [hE] at hD0; exact absurd hD0 (by simp)
      | some p1 =>
        obtain ⟨t1, vis1⟩ := p1
        rw [hE] at hD0
        dsimp only at hD0
        cases hR : decodeHList (decodeHookedA fuel) h vis1 xsRest with
        | none => rw [hR] at hD0; exact absurd hD0 (by simp)
        | some q =>
          obtain ⟨ts2, vis2⟩ := q
          rw [hR] at hD0
          dsimp only at hD0
          simp at hD0
    | nil =>
      have hΔ : Δ = [] := by
        simp only [decodeHList, Option.some.injEq, Prod.mk.injEq] at hD0
        exact hD0.2.symm
      subst hΔ
      have hph : ph = [] := List.length_eq_zero.1 (by simpa using hPh)
      subst hph
      refine ⟨h, memo, [], [], rfl, Nat.le_refl _, fun x _ _ => rfl,
        fun k c hc => hc, fun k c hc => Or.inl hc, by simpa using hDget,
        by simp, ?_⟩
      intro vis _
      simp [decodeHList]
  | cons t1 tsRest ihRest =>
    intro xs Δ dst h memo pre ph hWf hDec hMemo hDget hPh hDst
    cases fuel with
    | zero =>
      exfalso
      have hD0 := hDec [] (by simp)
      cases xs with
      | nil => simp [decodeHList] at hD0
      | cons v xsRest => simp [decodeHList, decodeHookedA] at hD0
    | succ f =>
      have hD0 := hDec [] (by simp)
      rw [List.append_nil] at hD0
      cases xs with
      | nil =>
        exfalso
        simp [decodeHList] at hD0
      | cons v1 xsRest =>
        simp only [decodeHList] at hD0
        cases hE : decodeHookedA (f + 1) h [] v1 with
        | none => rw [hE] at hD0; exact absurd hD0 (by simp)
        | some p1 =>
          obtain ⟨t1', vis1⟩ := p1
          rw [hE] at hD0
          dsimp only at hD0
          cases hR : decodeHList (decodeHookedA (f + 1)) h vis1 xsRest with
          | none => rw [hR] at hD0; exact absurd hD0 (by simp)
          | some q =>
            obtain ⟨ts2', vis2⟩ := q
            rw [hR] at hD0
            dsimp only at hD0
            have hD0s := hD0.symm
            simp only [Option.some.injEq, Prod.mk.injEq, List.cons.injEq] at hD0s
            obtain ⟨⟨ht1, hts2⟩, hΔout⟩ := hD0s
            subst ht1
            subst hts2
            subst hΔout
            obtain ⟨Δ1, hv1eq, hΔ1mem, hall1⟩ :=
              decodeHookedA_frame (f + 1) h [] v1 t1 vis1 hE
            rw [List.append_nil] at hv1eq
            have hv1eq' := hv1eq.symm
            subst hv1eq'
            obtain ⟨Δ2, hv2eq, hΔ2mem, hall2⟩ :=
              decodeHList_frame (decodeHookedA_frame (f + 1) h) xsRest Δ1 tsRest Δ hR
            subst hv2eq
            have hWf' : PTree.wf t1 = true ∧ PTree.wfList tsRest = true := by
              have := hWf
              rw [show PTree.wfList (t1 :: tsRest) =
                (PTree.wf t1 && PTree.wfList tsRest) from rfl, Bool.and_eq_true] at this
              exact this
            have hdstLt : dst < h.length := heapGet_lt_length hDget
            obtain ⟨ph0, phRest, hphEq⟩ : ∃ ph0 phRest, ph = ph0 :: phRest := by
              cases ph with
              | nil => exact absurd hPh (by simp)
              | cons x y => exact ⟨x, y, rfl⟩
            subst hphEq
            have hPhR : phRest.length = xsRest.length := by simpa using hPh
            obtain ⟨hA, memoA, w1, B1, hd1, hLenA, hPresA, hExtA, hNewA, hB1, hDecP1⟩ :=
              IH t1 v1 Δ1 h memo hWf'.1 hall1 (fun k w hw => by
                intro hc
                exact hMemo k w hw (List.mem_append.2 (Or.inr hc)))
            have hDgetA : heapGet hA dst = some (PyObj.tuple (pre ++ ph0 :: phRest)) := by
              rw [hPresA dst hdstLt]
              exact hDget
            have hTupleSet : heapTupleSet hA dst pre.length w1 =
                some (heapSet hA dst (PyObj.tuple (pre ++ w1 :: phRest))) := by
              simp [heapTupleSet, hDgetA, set_at_length]
            have hdstLtA : dst < hA.length := lt_of_lt_of_le hdstLt hLenA
            have hLenB : (heapSet hA dst (PyObj.tuple (pre ++ w1 :: phRest))).length
                = hA.length := length_heapSet _ _ _
            have hDgetB : heapGet (heapSet hA dst (PyObj.tuple (pre ++ w1 :: phRest))) dst
                = some (PyObj.tuple ((pre ++ [w1]) ++ phRest)) := by
              rw [heapGet_heapSet_eq hdstLtA]
              simp
            have hGetB_ne : ∀ x, x ≠ dst →
                heapGet (heapSet hA dst (PyObj.tuple (pre ++ w1 :: phRest))) x
                  = heapGet hA x :=
              fun x hx => heapGet_heapSet_ne hA (fun hc => hx hc.symm) _
            have hΔ2lt : ∀ x ∈ Δ2, x < h.length := fun x hx => (hΔ2mem x hx).2
            have hΔ2ndst : ∀ x ∈ Δ2, x ≠ dst := by
              intro x hx hc
              exact hDst (hc ▸ List.mem_append.2 (Or.inl hx))
            have hRestDec : ∀ vis, (∀ x ∈ Δ2, x ∉ vis) →
                decodeHList (decodeHookedA (f + 1))
                  (heapSet hA dst (PyObj.tuple (pre ++ w1 :: phRest))) vis xsRest
                  = some (tsRest, Δ2 ++ vis) := by
              intro vis hvis
              refine decodeHList_agree (decodeHookedA_frame (f + 1) h)
                (decodeHookedA_agree (f + 1) h _) xsRest vis tsRest (Δ2 ++ vis)
                (hall2 vis hvis) ?_
              intro x hxout hxnv
              have hxΔ2 : x ∈ Δ2 := by
                rcases List.mem_append.1 hxout with h1 | h2
                · exact h1
                · exact absurd h2 hxnv
              rw [hGetB_ne x (hΔ2ndst x hxΔ2), hPresA x (hΔ2lt x hxΔ2)]
            obtain ⟨h', memo', B2, ws2, hdR, hLenR, hPresR, hExtR, hNewR, hDgetR, hB2, hDecP2⟩ :=
              ihRest xsRest Δ2 dst
                (heapSet hA dst (PyObj.tuple (pre ++ w1 :: phRest))) memoA
                (pre ++ [w1]) phRest
                hWf'.2 hRestDec
                (fun k w hw => by
                  intro hc
                  rcases hNewA k w hw with hm | hΔ1m
                  · exact hMemo k w hm (List.mem_append.2 (Or.inl hc))
                  · exact (hΔ2mem k hc).1 hΔ1m)
                hDgetB
                hPhR
                (fun hc => hDst (List.mem_append.2 (Or.inl hc)))
            refine ⟨h', memo', B2 ++ B1, w1 :: ws2, ?_, by omega, ?_, ?_, ?_, ?_, ?_, ?_⟩
            · simp only [disenchantTupleElems]
              rw [hd1]
              dsimp only
              rw [hTupleSet]
              dsimp only
              have hIdx : (pre ++ [w1]).length = pre.length + 1 := by simp
              rw [← hIdx]
              exact hdR
            · intro x hx hxd
              rw [hPresR x (by omega) hxd, hGetB_ne x hxd, hPresA x hx]
            · exact fun k c hk => hExtR k c (hExtA k c hk)
            · intro k c hk
              rcases hNewR k c hk with hmA | hΔ2m
              · rcases hNewA k c hmA with hm | hΔ1m
                · exact Or.inl hm
                · exact Or.inr (List.mem_append.2 (Or.inr hΔ1m))
              · exact Or.inr (List.mem_append.2 (Or.inl hΔ2m))
            · simpa [List.append_assoc] using hDgetR
            · intro x hx
              rcases List.mem_append.1 hx with hx2 | hx1
              · have := hB2 x hx2
                omega
              · have := hB1 x hx1
                omega
            · intro vis hvis
              have hDecP1' : ∀ vis2, (∀ x ∈ B1, x ∉ vis2) →
                  decodePlainA (f + 1) h' vis2 w1 = some (t1, B1 ++ vis2) := by
                intro vis2 hv2
                refine decodePlainA_agree (f + 1) hA h' vis2 w1 t1 (B1 ++ vis2)
                  (hDecP1 vis2 hv2) ?_
                intro x hxout hxnv
                have hxB1 : x ∈ B1 := by
                  rcases List.mem_append.1 hxout with h1 | h2
                  · exact h1
                  · exact absurd h2 hxnv
                have hxd : x ≠ dst := by
                  have := hB1 x hxB1
                  omega
                have hxLtB : x < (heapSet hA dst
                    (PyObj.tuple (pre ++ w1 :: phRest))).length := by
                  have := hB1 x hxB1
                  omega
                rw [hPresR x hxLtB hxd, hGetB_ne x hxd]
              have hChild : decodePlainA (f + 1) h' vis w1 = some (t1, B1 ++ vis) :=
                hDecP1' vis (fun x hx => hvis x (List.mem_append.2 (Or.inr hx)))
              have hRest2 : decodeHList (decodePlainA (f + 1)) h' (B1 ++ vis) ws2
                  = some (tsRest, B2 ++ (B1 ++ vis)) := by
                refine hDecP2 (B1 ++ vis) ?_
                intro x hx hc
                rcases List.mem_append.1 hc with hcb | hcv
                · have hb1 := hB1 x hcb
                  have hb2 := hB2 x hx
                  omega
                · exact hvis x (List.mem_append.2 (Or.inl hx)) hcv
              simp only [decodeHList, hChild]
              rw [hRest2]
              simp [List.append_assoc]

/-- The disenchant recursion `magidict_disenchant_recursive` correctly converts
every hooked image of a well-formed tree back to the plain tree: see `DisSpec`. -/
theorem disSpec_all : ∀ fuel, DisSpec fuel := by
  intro fuel
  induction fuel with
  | zero =>
    intro t v Δ h memo hWf hDec hMemo
    exfalso
    have := hDec [] (by simp)
    simp [decodeHookedA] at this
  | succ f ih =>
    intro t v Δ h memo hWf hDec hMemo
    have hD0 := hDec [] (by simp)
    rw [List.append_nil] at hD0
    cases v with
    | scalar s =>
      have hinj : some (PTree.scalar s, ([] : List Nat)) = some (t, Δ) := hD0
      have hinj2 := Option.some.inj hinj
      have ht := congrArg Prod.fst hinj2
      have hΔeq := congrArg Prod.snd hinj2
      dsimp only at ht hΔeq
      subst ht
      subst hΔeq
      exact ⟨h, memo, PyVal.scalar s, [], rfl, Nat.le_refl _, fun x _ => rfl,
        fun k c hc => hc, fun k c hc => Or.inl hc, by simp, fun vis _ => rfl⟩
    | ref a =>
      have hstep : decodeHookedStep (decodeHookedA f) h [] (PyVal.ref a) = some (t, Δ) := hD0
      simp only [decodeHookedStep] at hstep
      rw [if_neg (List.not_mem_nil a)] at hstep
      cases hg : heapGet h a with
      | none => rw [hg] at hstep; exact absurd hstep (by simp)
      | some o =>
        rw [hg] at hstep
        have haLt : a < h.length := heapGet_lt_length hg
        cases o with
        | dict es => exact absurd hstep (by simp)
        | magi fn fm es =>
          cases fn with
          | true => exact absurd hstep (by simp)
          | false =>
            cases fm with
            | true => exact absurd hstep (by simp)
            | false =>
              dsimp only at hstep
              cases hEnt : decodeHEntries (decodeHookedA f) h [a] es with
              | none => rw [hEnt] at hstep; exact absurd hstep (by simp)
              | some q =>
                obtain ⟨ts, out⟩ := q
                rw [hEnt] at hstep
                simp only [Option.some.injEq, Prod.mk.injEq] at hstep
                obtain ⟨ht, hout⟩ := hstep
                subst ht
                subst hout
                obtain ⟨Δe, houteq, hΔe, halle⟩ :=
                  decodeHEntries_frame (decodeHookedA_frame f h) es [a] ts out hEnt
                subst houteq
                have haΔ : a ∈ Δe ++ [a] :=
                  List.mem_append.2 (Or.inr (List.mem_singleton.2 rfl))
                have hnotaΔe : a ∉ Δe := by
                  intro hc
                  exact (hΔe a hc).1 (List.mem_singleton.2 rfl)
                have hma : memoFind memo a = Option.none := by
                  cases hmm : memoFind memo a with
                  | none => rfl
                  | some w => exact absurd haΔ (hMemo a w hmm)
                have hwf' : keysNodup (ts.map Prod.fst) = true ∧
                    PTree.wfEntries ts = true := by
                  have := hWf
                  rw [show PTree.wf (PTree.pmap ts) =
                    (keysNodup (ts.map Prod.fst) && PTree.wfEntries ts) from rfl,
                    Bool.and_eq_true] at this
                  exact this
                have hlen2 : (h ++ [PyObj.dict []]).length = h.length + 1 := by simp
                have hEntH1 : ∀ vis, (∀ x ∈ Δe, x ∉ vis) →
                    decodeHEntries (decodeHookedA f) (h ++ [PyObj.dict []]) vis es
                      = some (ts, Δe ++ vis) := by
                  intro vis hv
                  refine decodeHEntries_agree (decodeHookedA_frame f h)
                    (decodeHookedA_agree f h _) es vis ts (Δe ++ vis) (halle vis hv) ?_
                  intro x hxout hxnv
                  have hxe : x ∈ Δe := by
                    rcases List.mem_append.1 hxout with h1 | h2
                    · exact h1
                    · exact absurd h2 hxnv
                  exact heapGet_append_left _ (hΔe x hxe).2
                obtain ⟨h', memo', B, ts', hdE, hLenE, hPresE, hExtE, hNewE, hDgetE, hBB, hDecPE⟩ :=
                  disenchantEntries_spec f ih ts es Δe h.length (h ++ [PyObj.dict []])
                    ((a, PyVal.ref h.length) :: memo) []
                    hwf'.2 hwf'.1 hEntH1
                    (fun k w hw => by
                      rw [memoFind_cons] at hw
                      by_cases hkk : a = k
                      · subst hkk
                        exact hnotaΔe
                      · rw [if_neg hkk] at hw
                        intro hc
                        exact hMemo k w hw (List.mem_append.2 (Or.inl hc)))
                    (heapGet_append_self h (PyObj.dict []))
                    (fun hc => by
                      have := (hΔe h.length hc).2
                      omega)
                    (fun p _ q hq => absurd hq (List.not_mem_nil q))
                have hEqn : disenchantRec (f + 1) h memo (PyVal.ref a)
                    = some (h', memo', PyVal.ref h.length) := by
                  show disenchantStep (disenchantRec f) h memo (PyVal.ref a)
                    = some (h', memo', PyVal.ref h.length)
                  simp only [disenchantStep, hma, hg]
                  rw [hdE]
                refine ⟨h', memo', PyVal.ref h.length, B ++ [h.length], hEqn,
                  by omega, ?_, ?_, ?_, ?_, ?_⟩
                · intro x hx
                  rw [hPresE x (by omega) (by omega), heapGet_append_left _ hx]
                · intro k c hk
                  refine hExtE k c ?_
                  rw [memoFind_cons]
                  by_cases hkk : a = k
                  · exfalso
                    subst hkk
                    rw [hma] at hk
                    exact Option.noConfusion hk
                  · rw [if_neg hkk]
                    exact hk
                · intro k c hk
                  rcases hNewE k c hk with hm1 | hΔem
                  · rw [memoFind_cons] at hm1
                    by_cases hkk : a = k
                    · subst hkk
                      exact Or.inr haΔ
                    · rw [if_neg hkk] at hm1
                      exact Or.inl hm1
                  · exact Or.inr (List.mem_append.2 (Or.inl hΔem))
                · intro x hx
                  rcases List.mem_append.1 hx with hxb | hxa
                  · have := hBB x hxb
                    omega
                  · rw [List.mem_singleton.1 hxa]
                    omega
                · intro vis hvis
                  have hnv : h.length ∉ vis :=
                    hvis h.length (List.mem_append.2 (Or.inr (List.mem_singleton.2 rfl)))
                  have hDgetE' : heapGet h' h.length = some (PyObj.dict ts') := by
                    simpa using hDgetE
                  have hEntP : decodeHEntries (decodePlainA f) h' (h.length :: vis) ts'
                      = some (ts, B ++ (h.length :: vis)) := by
                    refine hDecPE (h.length :: vis) ?_
                    intro x hxe hc
                    rcases List.mem_cons.1 hc with hch | hcv
                    · have := hBB x hxe
                      omega
                    · exact hvis x (List.mem_append.2 (Or.inl hxe)) hcv
                  show decodePlainA (f + 1) h' vis (PyVal.ref h.length)
                    = some (PTree.pmap ts, (B ++ [h.length]) ++ vis)
                  simp only [decodePlainA, decodePlainStep, if_neg hnv, hDgetE', hEntP]
                  simp
        | list xs =>
          dsimp only at hstep
          cases hEnt : decodeHList (decodeHookedA f) h [a] xs with
          | none => rw [hEnt] at hstep; exact absurd hstep (by simp)
          | some q =>
            obtain ⟨ts, out⟩ := q
            rw [hEnt] at hstep
            simp only [Option.some.injEq, Prod.mk.injEq] at hstep
            obtain ⟨ht, hout⟩ := hstep
            subst ht
            subst hout
            obtain ⟨Δe, houteq, hΔe, halle⟩ :=
              decodeHList_frame (decodeHookedA_frame f h) xs [a] ts out hEnt
            subst houteq
            have haΔ : a ∈ Δe ++ [a] :=
              List.mem_append.2 (Or.inr (List.mem_singleton.2 rfl))
            have hnotaΔe : a ∉ Δe := by
              intro hc
              exact (hΔe a hc).1 (List.mem_singleton.2 rfl)
            have hma : memoFind memo a = Option.none := by
              cases hmm : memoFind memo a with
              | none => rfl
              | some w => exact absurd haΔ (hMemo a w hmm)
            have hwf' : PTree.wfList ts = true := hWf
            have hlen2 : (h ++ [PyObj.list (xs.map fun _ => PyVal.scalar .none)]).length
                = h.length + 1 := by simp
            have hEntH1 : ∀ vis, (∀ x ∈ Δe, x ∉ vis) →
                decodeHList (decodeHookedA f)
                  (h ++ [PyObj.list (xs.map fun _ => PyVal.scalar .none)]) vis xs
                  = some (ts, Δe ++ vis) := by
              intro vis hv
              refine decodeHList_agree (decodeHookedA_frame f h)
                (decodeHookedA_agree f h _) xs vis ts (Δe ++ vis) (halle vis hv) ?_
              intro x hxout hxnv
              have hxe : x ∈ Δe := by
                rcases List.mem_append.1 hxout with h1 | h2
                · exact h1
                · exact absurd h2 hxnv
              exact heapGet_append_left _ (hΔe x hxe).2
            obtain ⟨h', memo', B, ws', hdE, hLenE, hPresE, hExtE, hNewE, hDgetE, hBB, hDecPE⟩ :=
              disenchantListElems_spec f ih ts xs Δe h.length
                (h ++ [PyObj.list (xs.map fun _ => PyVal.scalar .none)])
                ((a, PyVal.ref h.length) :: memo) []
                (xs.map fun _ => PyVal.scalar .none)
                hwf' hEntH1
                (fun k w hw => by
                  rw [memoFind_cons] at hw
                  by_cases hkk : a = k
                  · subst hkk
                    exact hnotaΔe
                  · rw [if_neg hkk] at hw
                    intro hc
                    exact hMemo k w hw (List.mem_append.2 (Or.inl hc)))
                (heapGet_append_self h (PyObj.list (xs.map fun _ => PyVal.scalar .none)))
                (by simp)
                (fun hc => by
                  have := (hΔe h.length hc).2
                  omega)
            have hdE0 : disenchantListElems (disenchantRec f) h.length xs 0
                (h ++ [PyObj.list (xs.map fun _ => PyVal.scalar .none)])
                ((a, PyVal.ref h.length) :: memo) = some (h', memo') := hdE
            have hEqn : disenchantRec (f + 1) h memo (PyVal.ref a)
                = some (h', memo', PyVal.ref h.length) := by
              show disenchantStep (disenchantRec f) h memo (PyVal.ref a)
                = some (h', memo', PyVal.ref h.length)
              simp only [disenchantStep, hma, hg]
              rw [hdE0]
            refine ⟨h', memo', PyVal.ref h.length, B ++ [h.length], hEqn,
              by omega, ?_, ?_, ?_, ?_, ?_⟩
            · intro x hx
              rw [hPresE x (by omega) (by omega), heapGet_append_left _ hx]
            · intro k c hk
              refine hExtE k c ?_
              rw [memoFind_cons]
              by_cases hkk : a = k
              · exfalso
                subst hkk
                rw [hma] at hk
                exact Option.noConfusion hk
              · rw [if_neg hkk]
                exact hk
            · intro k c hk
              rcases hNewE k c hk with hm1 | hΔem
              · rw [memoFind_cons] at hm1
                by_cases hkk : a = k
                · subst hkk
                  exact Or.inr haΔ
                · rw [if_neg hkk] at hm1
                  exact Or.inl hm1
              · exact Or.inr (List.mem_append.2 (Or.inl hΔem))
            · intro x hx
              rcases List.mem_append.1 hx with hxb | hxa
              · have := hBB x hxb
                omega
              · rw [List.mem_singleton.1 hxa]
                omega
            · intro vis hvis
              have hnv : h.length ∉ vis :=
                hvis h.length (List.mem_append.2 (Or.inr (List.mem_singleton.2 rfl)))
              have hDgetE' : heapGet h' h.length = some (PyObj.list ws') := by
                simpa using hDgetE
              have hEntP : decodeHList (decodePlainA f) h' (h.length :: vis) ws'
                  = some (ts, B ++ (h.length :: vis)) := by
                refine hDecPE (h.length :: vis) ?_
                intro x hxe hc
                rcases List.mem_cons.1 hc with hch | hcv
                · have := hBB x hxe
                  omega
                · exact hvis x (List.mem_append.2 (Or.inl hxe)) hcv
              show decodePlainA (f + 1) h' vis (PyVal.ref h.length)
                = some (PTree.plist ts, (B ++ [h.length]) ++ vis)
              simp only [decodePlainA, decodePlainStep, if_neg hnv, hDgetE', hEntP]
              simp
        | tuple xs =>
          dsimp only at hstep
          cases hEnt : decodeHList (decodeHookedA f) h [a] xs with
          | none => rw [hEnt] at hstep; exact absurd hstep (by simp)
          | some q =>
            obtain ⟨ts, out⟩ := q
            rw [hEnt] at hstep
            simp only [Option.some.injEq, Prod.mk.injEq] at hstep
            obtain ⟨ht, hout⟩ := hstep
            subst ht
            subst hout
            obtain ⟨Δe, houteq, hΔe, halle⟩ :=
              decodeHList_frame (decodeHookedA_frame f h) xs [a] ts out hEnt
            subst houteq
            have haΔ : a ∈ Δe ++ [a] :=
              List.mem_append.2 (Or.inr (List.mem_singleton.2 rfl))
            have hnotaΔe : a ∉ Δe := by
              intro hc
              exact (hΔe a hc).1 (List.mem_singleton.2 rfl)
            have hma : memoFind memo a = Option.none := by
              cases hmm : memoFind memo a with
              | none => rfl
              | some w => exact absurd haΔ (hMemo a w hmm)
            have hwf' : PTree.wfList ts = true := hWf
            have hlen2 : (h ++ [PyObj.tuple (xs.map fun _ => PyVal.scalar .none)]).length
                = h.length + 1 := by simp
            have hEntH1 : ∀ vis, (∀ x ∈ Δe, x ∉ vis) →
                decodeHList (decodeHookedA f)
                  (h ++ [PyObj.tuple (xs.map fun _ => PyVal.scalar .none)]) vis xs
                  = some (ts, Δe ++ vis) := by
              intro vis hv
              refine decodeHList_agree (decodeHookedA_frame f h)
                (decodeHookedA_agree f h _) xs vis ts (Δe ++ vis) (halle vis hv) ?_
              intro x hxout hxnv
              have hxe : x ∈ Δe := by
                rcases List.mem_append.1 hxout with h1 | h2
                · exact h1
                · exact absurd h2 hxnv
              exact heapGet_append_left _ (hΔe x hxe).2
            obtain ⟨h', memo', B, ws', hdE, hLenE, hPresE, hExtE, hNewE, hDgetE, hBB, hDecPE⟩ :=
              disenchantTupleElems_spec f ih ts xs Δe h.length
                (h ++ [PyObj.tuple (xs.map fun _ => PyVal.scalar .none)])
                memo
                []
                (xs.map fun _ => PyVal.scalar .none)
                hwf' hEntH1
                (fun k w hw => by
                  intro hc
                  exact hMemo k w hw (List.mem_append.2 (Or.inl hc)))
                (heapGet_append_self h (PyObj.tuple (xs.map fun _ => PyVal.scalar .none)))
                (by simp)
                (fun hc => by
                  have := (hΔe h.length hc).2
                  omega)
            have hdE0 : disenchantTupleElems (disenchantRec f) h.length xs 0
                (h ++ [PyObj.tuple (xs.map fun _ => PyVal.scalar .none)])
                memo = some (h', memo') := hdE
            have hEqn : disenchantRec (f + 1) h memo (PyVal.ref a)
                = some (h', memo', PyVal.ref h.length) := by
              show disenchantStep (disenchantRec f) h memo (PyVal.ref a)
                = some (h', memo', PyVal.ref h.length)
              simp only [disenchantStep, hma, hg]
              rw [hdE0]
            refine ⟨h', memo', PyVal.ref h.length, B ++ [h.length], hEqn,
              by omega, ?_, ?_, ?_, ?_, ?_⟩
            · intro x hx
              rw [hPresE x (by omega) (by omega), heapGet_append_left _ hx]
            · exact fun k c hk => hExtE k c hk
            · intro k c hk
              rcases hNewE k c hk with hm1 | hΔem
              · exact Or.inl hm1
              · exact Or.inr (List.mem_append.2 (Or.inl hΔem))
            · intro x hx
              rcases List.mem_append.1 hx with hxb | hxa
              · have := hBB x hxb
                omega
              · rw [List.mem_singleton.1 hxa]
                omega
            · intro vis hvis
              have hnv : h.length ∉ vis :=
                hvis h.length (List.mem_append.2 (Or.inr (List.mem_singleton.2 rfl)))
              have hDgetE' : heapGet h' h.length = some (PyObj.tuple ws') := by
                simpa using hDgetE
              have hEntP : decodeHList (decodePlainA f) h' (h.length :: vis) ws'
                  = some (ts, B ++ (h.length :: vis)) := by
                refine hDecPE (h.length :: vis) ?_
                intro x hxe hc
                rcases List.mem_cons.1 hc with hch | hcv
                · have := hBB x hxe
                  omega
                · exact hvis x (List.mem_append.2 (Or.inl hxe)) hcv
              show decodePlainA (f + 1) h' vis (PyVal.ref h.length)
                = some (PTree.ptuple ts, (B ++ [h.length]) ++ vis)
              simp only [decodePlainA, decodePlainStep, if_neg hnv, hDgetE', hEntP]
              simp

/-- Looking a key up in an entry list whose values were rewritten by `g`
yields the `g`-image of the original lookup. -/
theorem dictGet_map_val (g : PyVal → PyVal) :
    ∀ (es : List (PyVal × PyVal)) (key : PyVal),
      dictGet (es.map fun p => (p.1, g p.2)) key = (dictGet es key).map g := by
  intro es
  induction es with
  | nil => intro key; rfl
  | cons p rest ih =>
    intro p2
    obtain ⟨k, v⟩ := p
    by_cases hk : k = p2
    · simp [dictGet, hk]
    · simp [dictGet, hk, ih]

/-- The entry loop of `magidict_init` on a self-referential input: when every
value is a scalar or the back-reference to the input dict itself (already
memoized to the container under construction), each value hooks to itself —
except the back-reference, which hooks to the memoized container — and the
pairs are appended to the container at `s`. -/
theorem selfref_hookEntries (f : Nat) :
    ∀ (es : List (PyVal × PyVal)) (h1 : Heap) (memo : Memo)
      (acc : List (PyVal × PyVal)) (s d : Nat),
      heapGet h1 s = some (PyObj.magi false false acc) →
      memoFind memo d = some (PyVal.ref s) →
      (∀ p ∈ es, (∃ sc, p.2 = PyVal.scalar sc) ∨ p.2 = PyVal.ref d) →
      (∀ p ∈ es, ∀ q ∈ acc, q.1 ≠ p.1) →
      List.Pairwise (fun p q => p.1 ≠ q.1) es →
      ∃ h2,
        hookEntries (hookWithMemo (f + 1)) s es h1 memo = some (h2, memo) ∧
        h2.length = h1.length ∧
        heapGet h2 s = some (PyObj.magi false false
          (acc ++ es.map fun p =>
            (p.1, if p.2 = PyVal.ref d then PyVal.ref s else p.2))) := by
  intro es
  induction es with
  | nil =>
    intro h1 memo acc s d hget hmemo _ _ _
    exact ⟨h1, rfl, rfl, by simpa using hget⟩
  | cons p rest ih =>
    intro h1 memo acc s d hget hmemo hvals hdisj hpw
    obtain ⟨k, v⟩ := p
    have hsLt : s < h1.length := heapGet_lt_length hget
    have hv1 : hookWithMemo (f + 1) h1 memo v
        = some (h1, memo, if v = PyVal.ref d then PyVal.ref s else v) := by
      rcases hvals (k, v) (List.mem_cons_self _ _) with ⟨sc, hsc⟩ | href
      · have hsc' : v = PyVal.scalar sc := hsc
        rw [hsc']
        rw [if_neg (by simp)]
        rfl
      · have href' : v = PyVal.ref d := href
        rw [href', if_pos rfl]
        show hookStep (hookWithMemo f) h1 memo (PyVal.ref d)
          = some (h1, memo, PyVal.ref s)
        simp only [hookStep, hmemo]
    have hdset : heapDictSet h1 s k (if v = PyVal.ref d then PyVal.ref s else v)
        = some (heapSet h1 s (PyObj.magi false false
            (acc ++ [(k, if v = PyVal.ref d then PyVal.ref s else v)]))) := by
      simp only [heapDictSet, hget]
      rw [dictSet_append (fun q hq => hdisj (k, v) (List.mem_cons_self _ _) q hq)]
    have hget2 : heapGet (heapSet h1 s (PyObj.magi false false
          (acc ++ [(k, if v = PyVal.ref d then PyVal.ref s else v)]))) s
        = some (PyObj.magi false false
            (acc ++ [(k, if v = PyVal.ref d then PyVal.ref s else v)])) :=
      heapGet_heapSet_eq hsLt _
    obtain ⟨h2, hrec, hlen2, hget3⟩ := ih
      (heapSet h1 s (PyObj.magi false false
        (acc ++ [(k, if v = PyVal.ref d then PyVal.ref s else v)])))
      memo (acc ++ [(k, if v = PyVal.ref d then PyVal.ref s else v)]) s d
      hget2 hmemo
      (fun p hp => hvals p (List.mem_cons_of_mem _ hp))
      (fun p hp q hq => by
        rcases List.mem_append.1 hq with hqa | hqk
        · exact hdisj p (List.mem_cons_of_mem _ hp) q hqa
        · rw [List.mem_singleton.1 hqk]
          exact (List.pairwise_cons.1 hpw).1 p hp)
      (List.pairwise_cons.1 hpw).2
    refine ⟨h2, ?_, by rw [hlen2, length_heapSet], ?_⟩
    · show (match hookWithMemo (f + 1) h1 memo v with
        | some (h1', m1, v1) =>
          match heapDictSet h1' s k v1 with
          | some h2' => hookEntries (hookWithMemo (f + 1)) s rest h2' m1
          | Option.none => Option.none
        | Option.none => Option.none) = some (h2, memo)
      rw [hv1]
      dsimp only
      rw [hdset]
      dsimp only
      exact hrec
    · rw [hget3]
      simp [List.append_assoc]

/-! ## Hooking an already-hooked value

`HookIdem fuel` says: on any value that reads back (via `decodeHookedA`) as
a tree `t` — i.e. any output of a previous hook — `magidict_hook_with_memo`
succeeds again, writes only inside the value's own region (list elements are
re-hooked in place) and fresh cells (tuples are rebuilt), extends the memo
only with region addresses, and returns a value that again reads back as the
very same tree `t`.  MagiDict nodes are returned identically with no
recursion; this is the engine behind idempotence of `hook`. -/
def HookIdem (fuel : Nat) : Prop :=
  ∀ (t : PTree) (v : PyVal) (Δ : List Nat) (h : Heap) (memo : Memo),
    (∀ vis, (∀ x ∈ Δ, x ∉ vis) → decodeHookedA fuel h vis v = some (t, Δ ++ vis)) →
    (∀ k w, memoFind memo k = some w → k ∉ Δ) →
    ∃ h' memo' v' B,
      hookWithMemo fuel h memo v = some (h', memo', v') ∧
      h.length ≤ h'.length ∧
      (∀ x, x < h.length → x ∉ Δ → heapGet h' x = heapGet h x) ∧
      (∀ k w, memoFind memo k = some w → memoFind memo' k = some w) ∧
      (∀ k w, memoFind memo' k = some w → memoFind memo k = some w ∨ k ∈ Δ) ∧
      (∀ x ∈ B, x ∈ Δ ∨ (h.length ≤ x ∧ x < h'.length)) ∧
      (∀ vis, (∀ x ∈ B, x ∉ vis) → decodeHookedA fuel h' vis v' = some (t, B ++ vis))

/-- The in-place element loop of the list branch of hook, on an
already-hooked list: every element re-hooks to a content-equal value, which
is written back into slot `i` of the list at `a`. -/
theorem hookIdemListElems (fuel : Nat) (IH : HookIdem fuel) :
    ∀ (ts : List PTree) (xs : List PyVal) (Δ : List Nat)
      (a : Nat) (h : Heap) (memo : Memo) (pre : List PyVal),
      (∀ vis, (∀ x ∈ Δ, x ∉ vis) →
        decodeHList (decodeHookedA fuel) h vis xs = some (ts, Δ ++ vis)) →
      (∀ k w, memoFind memo k = some w → k ∉ Δ) →
      heapGet h a = some (PyObj.list (pre ++ xs)) →
      a ∉ Δ →
      ∃ h' memo' B ws,
        hookListElems (hookWithMemo fuel) a xs pre.length h memo = some (h', memo') ∧
        h.length ≤ h'.length ∧
        (∀ x, x < h.length → x ∉ Δ → x ≠ a → heapGet h' x = heapGet h x) ∧
        (∀ k c, memoFind memo k = some c → memoFind memo' k = some c) ∧
        (∀ k c, memoFind memo' k = some c → memoFind memo k = some c ∨ k ∈ Δ) ∧
        heapGet h' a = some (PyObj.list (pre ++ ws)) ∧
        (∀ x ∈ B, x ∈ Δ ∨ (h.length ≤ x ∧ x < h'.length)) ∧
        (∀ vis, (∀ x ∈ B, x ∉ vis) →
          decodeHList (decodeHookedA fuel) h' vis ws = some (ts, B ++ vis)) := by
  intro ts
  induction ts with
  | nil =>
    intro xs Δ a h memo pre hDec hMemo hDget hDst
    have hD0 := hDec [] (by simp)
    rw [List.append_nil] at hD0
    cases xs with
    | cons v xsRest =>
      exfalso
      simp only [decodeHList] at hD0
      cases hE : decodeHookedA fuel h [] v with
      | none => rw [hE] at hD0; exact absurd hD0 (by simp)
      | some p1 =>
        obtain ⟨t1, vis1⟩ := p1
        rw [hE] at hD0
        dsimp only at hD0
        cases hR : decodeHList (decodeHookedA fuel) h vis1 xsRest with
        | none => rw [hR] at hD0; exact absurd hD0 (by simp)
        | some q =>
          obtain ⟨ts2, vis2⟩ := q
          rw [hR] at hD0
          dsimp only at hD0
          simp at hD0
    | nil =>
      have hΔ : Δ = [] := by
        simp only [decodeHList, Option.some.injEq, Prod.mk.injEq] at hD0
        exact hD0.2.symm
      subst hΔ
      refine ⟨h, memo, [], [], rfl, Nat.le_refl _, fun x _ _ _ => rfl,
        fun k c hc => hc, fun k c hc => Or.inl hc, by simpa using hDget,
        by simp, ?_⟩
      intro vis _
      simp [decodeHList]
  | cons t1 tsRest ihRest =>
    intro xs Δ a h memo pre hDec hMemo hDget hDst
    cases fuel with
    | zero =>
      exfalso
      have hD0 := hDec [] (by simp)
      cases xs with
      | nil => simp [decodeHList] at hD0
      | cons v xsRest => simp [decodeHList, decodeHookedA] at hD0
    | succ f =>
      have hD0 := hDec [] (by simp)
      rw [List.append_nil] at hD0
      cases xs with
      | nil =>
        exfalso
        simp [decodeHList] at hD0
      | cons v1 xsRest =>
        simp only [decodeHList] at hD0
        cases hE : decodeHookedA (f + 1) h [] v1 with
        | none => rw [hE] at hD0; exact absurd hD0 (by simp)
        | some p1 =>
          obtain ⟨t1', vis1⟩ := p1
          rw [hE] at hD0
          dsimp only at hD0
          cases hR : decodeHList (decodeHookedA (f + 1)) h vis1 xsRest with
          | none => rw [hR] at hD0; exact absurd hD0 (by simp)
          | some q =>
            obtain ⟨ts2', vis2⟩ := q
            rw [hR] at hD0
            dsimp only at hD0
            have hD0s := hD0.symm
            simp only [Option.some.injEq, Prod.mk.injEq, List.cons.injEq] at hD0s
            obtain ⟨⟨ht1, hts2⟩, hΔout⟩ := hD0s
            subst ht1
            subst hts2
            subst hΔout
            obtain ⟨Δ1, hv1eq, hΔ1mem, hall1⟩ :=
              decodeHookedA_frame (f + 1) h [] v1 t1 vis1 hE
            rw [List.append_nil] at hv1eq
            have hv1eq' := hv1eq.symm
            subst hv1eq'
            obtain ⟨Δ2, hv2eq, hΔ2mem, hall2⟩ :=
              decodeHList_frame (decodeHookedA_frame (f + 1) h) xsRest Δ1 tsRest Δ hR
            subst hv2eq
            have haLt : a < h.length := heapGet_lt_length hDget
            have haΔ1 : a ∉ Δ1 := fun hc => hDst (List.mem_append.2 (Or.inr hc))
            have haΔ2 : a ∉ Δ2 := fun hc => hDst (List.mem_append.2 (Or.inl hc))
            obtain ⟨hA, memoA, w1, B1, hd1, hLenA, hPresA, hExtA, hNewA, hB1, hDec1⟩ :=
              IH t1 v1 Δ1 h memo hall1 (fun k w hw hc =>
                hMemo k w hw (List.mem_append.2 (Or.inr hc)))
            have hDgetA : heapGet hA a = some (PyObj.list (pre ++ v1 :: xsRest)) := by
              rw [hPresA a haLt haΔ1]
              exact hDget
            have hListSet : heapListSet hA a pre.length w1 =
                some (heapSet hA a (PyObj.list (pre ++ w1 :: xsRest))) := by
              simp [heapListSet, hDgetA, set_at_length]
            have haLtA : a < hA.length := lt_of_lt_of_le haLt hLenA
            have hLenB : (heapSet hA a (PyObj.list (pre ++ w1 :: xsRest))).length
                = hA.length := length_heapSet _ _ _
            have hDgetB : heapGet (heapSet hA a (PyObj.list (pre ++ w1 :: xsRest))) a
                = some (PyObj.list ((pre ++ [w1]) ++ xsRest)) := by
              rw [heapGet_heapSet_eq haLtA]
              simp
            have hGetB_ne : ∀ x, x ≠ a →
                heapGet (heapSet hA a (PyObj.list (pre ++ w1 :: xsRest))) x
                  = heapGet hA x :=
              fun x hx => heapGet_heapSet_ne hA (fun hc => hx hc.symm) _
            have hΔ2lt : ∀ x ∈ Δ2, x < h.length := fun x hx => (hΔ2mem x hx).2
            have hΔ2na : ∀ x ∈ Δ2, x ≠ a := by
              intro x hx hc
              exact haΔ2 (hc ▸ hx)
            have hRestDec : ∀ vis, (∀ x ∈ Δ2, x ∉ vis) →
                decodeHList (decodeHookedA (f + 1))
                  (heapSet hA a (PyObj.list (pre ++ w1 :: xsRest))) vis xsRest
                  = some (tsRest, Δ2 ++ vis) := by
              intro vis hvis
              refine decodeHList_agree (decodeHookedA_frame (f + 1) h)
                (decodeHookedA_agree (f + 1) h _) xsRest vis tsRest (Δ2 ++ vis)
                (hall2 vis hvis) ?_
              intro x hxout hxnv
              have hxΔ2 : x ∈ Δ2 := by
                rcases List.mem_append.1 hxout with h1 | h2
                · exact h1
                · exact absurd h2 hxnv
              rw [hGetB_ne x (hΔ2na x hxΔ2), hPresA x (hΔ2lt x hxΔ2) (hΔ2mem x hxΔ2).1]
            obtain ⟨h', memo', B2, ws2, hdR, hLenR, hPresR, hExtR, hNewR, hDgetR, hB2, hDec2⟩ :=
              ihRest xsRest Δ2 a
                (heapSet hA a (PyObj.list (pre ++ w1 :: xsRest))) memoA
                (pre ++ [w1])
                hRestDec
                (fun k w hw hc => by
                  rcases hNewA k w hw with hm | hΔ1m
                  · exact hMemo k w hm (List.mem_append.2 (Or.inl hc))
                  · exact (hΔ2mem k hc).1 hΔ1m)
                hDgetB
                haΔ2
            refine ⟨h', memo', B2 ++ B1, w1 :: ws2, ?_, by omega, ?_, ?_, ?_, ?_, ?_, ?_⟩
            · simp only [hookListElems]
              rw [hd1]
              dsimp only
              rw [hListSet]
              dsimp only
              have hIdx : (pre ++ [w1]).length = pre.length + 1 := by simp
              rw [← hIdx]
              exact hdR
            · intro x hx hxΔ hxa
              rw [hPresR x (by omega) (fun hc => hxΔ (List.mem_append.2 (Or.inl hc))) hxa,
                hGetB_ne x hxa,
                hPresA x hx (fun hc => hxΔ (List.mem_append.2 (Or.inr hc)))]
            · exact fun k c hk => hExtR k c (hExtA k c hk)
            · intro k c hk
              rcases hNewR k c hk with hmA | hΔ2m
              · rcases hNewA k c hmA with hm | hΔ1m
                · exact Or.inl hm
                · exact Or.inr (List.mem_append.2 (Or.inr hΔ1m))
              · exact Or.inr (List.mem_append.2 (Or.inl hΔ2m))
            · simpa [List.append_assoc] using hDgetR
            · intro x hx
              rcases List.mem_append.1 hx with hx2 | hx1
              · rcases hB2 x hx2 with hxΔ2 | hxF
                · exact Or.inl (List.mem_append.2 (Or.inl hxΔ2))
                · right
                  omega
              · rcases hB1 x hx1 with hxΔ1 | hxF
                · exact Or.inl (List.mem_append.2 (Or.inr hxΔ1))
                · right
                  omega
            · intro vis hvis
              have hDec1' : ∀ vis2, (∀ x ∈ B1, x ∉ vis2) →
                  decodeHookedA (f + 1) h' vis2 w1 = some (t1, B1 ++ vis2) := by
                intro vis2 hv2
                refine decodeHookedA_agree (f + 1) hA h' vis2 w1 t1 (B1 ++ vis2)
                  (hDec1 vis2 hv2) ?_
                intro x hxout hxnv
                have hxB1 : x ∈ B1 := by
                  rcases List.mem_append.1 hxout with h1 | h2
                  · exact h1
                  · exact absurd h2 hxnv
                have hxa : x ≠ a := by
                  rcases hB1 x hxB1 with hxΔ1 | hxF
                  · intro hc
                    exact haΔ1 (hc ▸ hxΔ1)
                  · omega
                have hxΔ2 : x ∉ Δ2 := by
                  intro hc
                  rcases hB1 x hxB1 with hxΔ1 | hxF
                  · exact (hΔ2mem x hc).1 hxΔ1
                  · have := (hΔ2mem x hc).2
                    omega
                have hxLtB : x < (heapSet hA a
                    (PyObj.list (pre ++ w1 :: xsRest))).length := by
                  rcases hB1 x hxB1 with hxΔ1 | hxF
                  · have := (hΔ1mem x hxΔ1).2
                    omega
                  · omega
                rw [hPresR x hxLtB hxΔ2 hxa, hGetB_ne x hxa]
              have hChild : decodeHookedA (f + 1) h' vis w1 = some (t1, B1 ++ vis) :=
                hDec1' vis (fun x hx => hvis x (List.mem_append.2 (Or.inr hx)))
              have hRest2 : decodeHList (decodeHookedA (f + 1)) h' (B1 ++ vis) ws2
                  = some (tsRest, B2 ++ (B1 ++ vis)) := by
                refine hDec2 (B1 ++ vis) ?_
                intro x hx hc
                rcases List.mem_append.1 hc with hcb | hcv
                · rcases hB2 x hx with hxΔ2 | hxF2
                  · rcases hB1 x hcb with hxΔ1 | hxF1
                    · exact (hΔ2mem x hxΔ2).1 hxΔ1
                    · have := (hΔ2mem x hxΔ2).2
                      omega
                  · rcases hB1 x hcb with hxΔ1 | hxF1
                    · have := (hΔ1mem x hxΔ1).2
                      omega
                    · omega
                · exact hvis x (List.mem_append.2 (Or.inl hx)) hcv
              simp only [decodeHList, hChild]
              rw [hRest2]
              simp [List.append_assoc]

/-- The element loop of the tuple branch of hook on an already-hooked tuple:
the slots of the freshly allocated tuple at `dst` are filled with the
re-hooked elements; the memo threads through, the source tuple is not
memoized. -/
theorem hookIdemTupleElems (fuel : Nat) (IH : HookIdem fuel) :
    ∀ (ts : List PTree) (xs : List PyVal) (Δ : List Nat)
      (dst : Nat) (h : Heap) (memo : Memo) (pre ph : List PyVal),
      (∀ vis, (∀ x ∈ Δ, x ∉ vis) →
        decodeHList (decodeHookedA fuel) h vis xs = some (ts, Δ ++ vis)) →
      (∀ k w, memoFind memo k = some w → k ∉ Δ) →
      heapGet h dst = some (PyObj.tuple (pre ++ ph)) →
      ph.length = xs.length →
      dst ∉ Δ →
      ∃ h' memo' B ws,
        hookTupleElems (hookWithMemo fuel) dst xs pre.length h memo = some (h', memo') ∧
        h.length ≤ h'.length ∧
        (∀ x, x < h.length → x ∉ Δ → x ≠ dst → heapGet h' x = heapGet h x) ∧
        (∀ k c, memoFind memo k = some c → memoFind memo' k = some c) ∧
        (∀ k c, memoFind memo' k = some c → memoFind memo k = some c ∨ k ∈ Δ) ∧
        heapGet h' dst = some (PyObj.tuple (pre ++ ws)) ∧
        (∀ x ∈ B, x ∈ Δ ∨ (h.length ≤ x ∧ x < h'.length)) ∧
        (∀ vis, (∀ x ∈ B, x ∉ vis) →
          decodeHList (decodeHookedA fuel) h' vis ws = some (ts, B ++ vis)) := by
  intro ts
  induction ts with
  | nil =>
    intro xs Δ dst h memo pre ph hDec hMemo hDget hPh hDst
    have hD0 := hDec [] (by simp)
    rw [List.append_nil] at hD0
    cases xs with
    | cons v xsRest =>
      exfalso
      simp only [decodeHList] at hD0
      cases hE : decodeHookedA fuel h [] v with
      | none => rw [hE] at hD0; exact absurd hD0 (by simp)
      | some p1 =>
        obtain ⟨t1, vis1⟩ := p1
        rw [hE] at hD0
        dsimp only at hD0
        cases hR : decodeHList (decodeHookedA fuel) h vis1 xsRest with
        | none => rw [hR] at hD0; exact absurd hD0 (by simp)
        | some q =>
          obtain ⟨ts2, vis2⟩ := q
          rw [hR] at hD0
          dsimp only at hD0
          simp at hD0
    | nil =>
      have hΔ : Δ = [] := by
        simp only [decodeHList, Option.some.injEq, Prod.mk.injEq] at hD0
        exact hD0.2.symm
      subst hΔ
      have hph : ph = [] := List.length_eq_zero.1 (by simpa using hPh)
      subst hph
      refine ⟨h, memo, [], [], rfl, Nat.le_refl _, fun x _ _ _ => rfl,
        fun k c hc => hc, fun k c hc => Or.inl hc, by simpa using hDget,
        by simp, ?_⟩
      intro vis _
      simp [decodeHList]
  | cons t1 tsRest ihRest =>
    intro xs Δ dst h memo pre ph hDec hMemo hDget hPh hDst
    cases fuel with
    | zero =>
      exfalso
      have hD0 := hDec [] (by simp)
      cases xs with
      | nil => simp [decodeHList] at hD0
      | cons v xsRest => simp [decodeHList, decodeHookedA] at hD0
    | succ f =>
      have hD0 := hDec [] (by simp)
      rw [List.append_nil] at hD0
      cases xs with
      | nil =>
        exfalso
        simp [decodeHList] at hD0
      | cons v1 xsRest =>
        simp only [decodeHList] at hD0
        cases hE : decodeHookedA (f + 1) h [] v1 with
        | none => rw [hE] at hD0; exact absurd hD0 (by simp)
        | some p1 =>
          obtain ⟨t1', vis1⟩ := p1
          rw [hE] at hD0
          dsimp only at hD0
          cases hR : decodeHList (decodeHookedA (f + 1)) h vis1 xsRest with
          | none => rw [hR] at hD0; exact absurd hD0 (by simp)
          | some q =>
            obtain ⟨ts2', vis2⟩ := q
            rw [hR] at hD0
            dsimp only at hD0
            have hD0s := hD0.symm
            simp only [Option.some.injEq, Prod.mk.injEq, List.cons.injEq] at hD0s
            obtain ⟨⟨ht1, hts2⟩, hΔout⟩ := hD0s
            subst ht1
            subst hts2
            subst hΔout
            obtain ⟨Δ1, hv1eq, hΔ1mem, hall1⟩ :=
              decodeHookedA_frame (f + 1) h [] v1 t1 vis1 hE
            rw [List.append_nil] at hv1eq
            have hv1eq' := hv1eq.symm
            subst hv1eq'
            obtain ⟨Δ2, hv2eq, hΔ2mem, hall2⟩ :=
              decodeHList_frame (decodeHookedA_frame (f + 1) h) xsRest Δ1 tsRest Δ hR
            subst hv2eq
            have hdstLt : dst < h.length := heapGet_lt_length hDget
            have hdΔ1 : dst ∉ Δ1 := fun hc => hDst (List.mem_append.2 (Or.inr hc))
            have hdΔ2 : dst ∉ Δ2 := fun hc => hDst (List.mem_append.2 (Or.inl hc))
            obtain ⟨ph0, phRest, hphEq⟩ : ∃ ph0 phRest, ph = ph0 :: phRest := by
              cases ph with
              | nil => exact absurd hPh (by simp)
              | cons x y => exact ⟨x, y, rfl⟩
            subst hphEq
            have hPhR : phRest.length = xsRest.length := by simpa using hPh
            obtain ⟨hA, memoA, w1, B1, hd1, hLenA, hPresA, hExtA, hNewA, hB1, hDec1⟩ :=
              IH t1 v1 Δ1 h memo hall1 (fun k w hw hc =>
                hMemo k w hw (List.mem_append.2 (Or.inr hc)))
            have hDgetA : heapGet hA dst = some (PyObj.tuple (pre ++ ph0 :: phRest)) := by
              rw [hPresA dst hdstLt hdΔ1]
              exact hDget
            have hTupSet : heapTupleSet hA dst pre.length w1 =
                some (heapSet hA dst (PyObj.tuple (pre ++ w1 :: phRest))) := by
              simp [heapTupleSet, hDgetA, set_at_length]
            have hdstLtA : dst < hA.length := lt_of_lt_of_le hdstLt hLenA
            have hLenB : (heapSet hA dst (PyObj.tuple (pre ++ w1 :: phRest))).length
                = hA.length := length_heapSet _ _ _
            have hDgetB : heapGet (heapSet hA dst (PyObj.tuple (pre ++ w1 :: phRest))) dst
                = some (PyObj.tuple ((pre ++ [w1]) ++ phRest)) := by
              rw [heapGet_heapSet_eq hdstLtA]
              simp
            have hGetB_ne : ∀ x, x ≠ dst →
                heapGet (heapSet hA dst (PyObj.tuple (pre ++ w1 :: phRest))) x
                  = heapGet hA x :=
              fun x hx => heapGet_heapSet_ne hA (fun hc => hx hc.symm) _
            have hΔ2lt : ∀ x ∈ Δ2, x < h.length := fun x hx => (hΔ2mem x hx).2
            have hΔ2nd : ∀ x ∈ Δ2, x ≠ dst := by
              intro x hx hc
              exact hdΔ2 (hc ▸ hx)
            have hRestDec : ∀ vis, (∀ x ∈ Δ2, x ∉ vis) →
                decodeHList (decodeHookedA (f + 1))
                  (heapSet hA dst (PyObj.tuple (pre ++ w1 :: phRest))) vis xsRest
                  = some (tsRest, Δ2 ++ vis) := by
              intro vis hvis
              refine decodeHList_agree (decodeHookedA_frame (f + 1) h)
                (decodeHookedA_agree (f + 1) h _) xsRest vis tsRest (Δ2 ++ vis)
                (hall2 vis hvis) ?_
              intro x hxout hxnv
              have hxΔ2 : x ∈ Δ2 := by
                rcases List.mem_append.1 hxout with h1 | h2
                · exact h1
                · exact absurd h2 hxnv
              rw [hGetB_ne x (hΔ2nd x hxΔ2), hPresA x (hΔ2lt x hxΔ2) (hΔ2mem x hxΔ2).1]
            obtain ⟨h', memo', B2, ws2, hdR, hLenR, hPresR, hExtR, hNewR, hDgetR, hB2, hDec2⟩ :=
              ihRest xsRest Δ2 dst
                (heapSet hA dst (PyObj.tuple (pre ++ w1 :: phRest))) memoA
                (pre ++ [w1]) phRest
                hRestDec
                (fun k w hw hc => by
                  rcases hNewA k w hw with hm | hΔ1m
                  · exact hMemo k w hm (List.mem_append.2 (Or.inl hc))
                  · exact (hΔ2mem k hc).1 hΔ1m)
                hDgetB
                hPhR
                hdΔ2
            refine ⟨h', memo', B2 ++ B1, w1 :: ws2, ?_, by omega, ?_, ?_, ?_, ?_, ?_, ?_⟩
            · simp only [hookTupleElems]
              rw [hd1]
              dsimp only
              rw [hTupSet]
              dsimp only
              have hIdx : (pre ++ [w1]).length = pre.length + 1 := by simp
              rw [← hIdx]
              exact hdR
            · intro x hx hxΔ hxd
              rw [hPresR x (by omega) (fun hc => hxΔ (List.mem_append.2 (Or.inl hc))) hxd,
                hGetB_ne x hxd,
                hPresA x hx (fun hc => hxΔ (List.mem_append.2 (Or.inr hc)))]
            · exact fun k c hk => hExtR k c (hExtA k c hk)
            · intro k c hk
              rcases hNewR k c hk with hmA | hΔ2m
              · rcases hNewA k c hmA with hm | hΔ1m
                · exact Or.inl hm
                · exact Or.inr (List.mem_append.2 (Or.inr hΔ1m))
              · exact Or.inr (List.mem_append.2 (Or.inl hΔ2m))
            · simpa [List.append_assoc] using hDgetR
            · intro x hx
              rcases List.mem_append.1 hx with hx2 | hx1
              · rcases hB2 x hx2 with hxΔ2 | hxF
                · exact Or.inl (List.mem_append.2 (Or.inl hxΔ2))
                · right
                  omega
              · rcases hB1 x hx1 with hxΔ1 | hxF
                · exact Or.inl (List.mem_append.2 (Or.inr hxΔ1))
                · right
                  omega
            · intro vis hvis
              have hDec1' : ∀ vis2, (∀ x ∈ B1, x ∉ vis2) →
                  decodeHookedA (f + 1) h' vis2 w1 = some (t1, B1 ++ vis2) := by
                intro vis2 hv2
                refine decodeHookedA_agree (f + 1) hA h' vis2 w1 t1 (B1 ++ vis2)
                  (hDec1 vis2 hv2) ?_
                intro x hxout hxnv
                have hxB1 : x ∈ B1 := by
                  rcases List.mem_append.1 hxout with h1 | h2
                  · exact h1
                  · exact absurd h2 hxnv
                have hxd : x ≠ dst := by
                  rcases hB1 x hxB1 with hxΔ1 | hxF
                  · intro hc
                    exact hdΔ1 (hc ▸ hxΔ1)
                  · omega
                have hxΔ2 : x ∉ Δ2 := by
                  intro hc
                  rcases hB1 x hxB1 with hxΔ1 | hxF
                  · exact (hΔ2mem x hc).1 hxΔ1
                  · have := (hΔ2mem x hc).2
                    omega
                have hxLtB : x < (heapSet hA dst
                    (PyObj.tuple (pre ++ w1 :: phRest))).length := by
                  rcases hB1 x hxB1 with hxΔ1 | hxF
                  · have := (hΔ1mem x hxΔ1).2
                    omega
                  · omega
                rw [hPresR x hxLtB hxΔ2 hxd, hGetB_ne x hxd]
              have hChild : decodeHookedA (f + 1) h' vis w1 = some (t1, B1 ++ vis) :=
                hDec1' vis (fun x hx => hvis x (List.mem_append.2 (Or.inr hx)))
              have hRest2 : decodeHList (decodeHookedA (f + 1)) h' (B1 ++ vis) ws2
                  = some (tsRest, B2 ++ (B1 ++ vis)) := by
                refine hDec2 (B1 ++ vis) ?_
                intro x hx hc
                rcases List.mem_append.1 hc with hcb | hcv
                · rcases hB2 x hx with hxΔ2 | hxF2
                  · rcases hB1 x hcb with hxΔ1 | hxF1
                    · exact (hΔ2mem x hxΔ2).1 hxΔ1
                    · have := (hΔ2mem x hxΔ2).2
                      omega
                  · rcases hB1 x hcb with hxΔ1 | hxF1
                    · have := (hΔ1mem x hxΔ1).2
                      omega
                    · omega
                · exact hvis x (List.mem_append.2 (Or.inl hx)) hcv
              simp only [decodeHList, hChild]
              rw [hRest2]
              simp [List.append_assoc]

/-- Hooking an already-hooked value succeeds and yields a content-equal
value: see `HookIdem`. -/
theorem hookIdem_all : ∀ fuel, HookIdem fuel := by
  intro fuel
  induction fuel with
  | zero =>
    intro t v Δ h memo hDec hMemo
    exfalso
    have := hDec [] (by simp)
    simp [decodeHookedA] at this
  | succ f ih =>
    intro t v Δ h memo hDec hMemo
    have hD0 := hDec [] (by simp)
    rw [List.append_nil] at hD0
    cases v with
    | scalar s =>
      have hinj : some (PTree.scalar s, ([] : List Nat)) = some (t, Δ) := hD0
      have hinj2 := Option.some.inj hinj
      have ht := congrArg Prod.fst hinj2
      have hΔeq := congrArg Prod.snd hinj2
      dsimp only at ht hΔeq
      subst ht
      subst hΔeq
      exact ⟨h, memo, PyVal.scalar s, [], rfl, Nat.le_refl _, fun x _ _ => rfl,
        fun k c hc => hc, fun k c hc => Or.inl hc, by simp, fun vis _ => rfl⟩
    | ref a =>
      have hstep : decodeHookedStep (decodeHookedA f) h [] (PyVal.ref a) = some (t, Δ) := hD0
      simp only [decodeHookedStep] at hstep
      rw [if_neg (List.not_mem_nil a)] at hstep
      cases hg : heapGet h a with
      | none => rw [hg] at hstep; exact absurd hstep (by simp)
      | some o =>
        rw [hg] at hstep
        have haLt : a < h.length := heapGet_lt_length hg
        cases o with
        | dict es => exact absurd hstep (by simp)
        | magi fn fm es =>
          cases fn with
          | true => exact absurd hstep (by simp)
          | false =>
            cases fm with
            | true => exact absurd hstep (by simp)
            | false =>
              dsimp only at hstep
              cases hEnt : decodeHEntries (decodeHookedA f) h [a] es with
              | none => rw [hEnt] at hstep; exact absurd hstep (by simp)
              | some q =>
                obtain ⟨ts, out⟩ := q
                rw [hEnt] at hstep
                simp only [Option.some.injEq, Prod.mk.injEq] at hstep
                obtain ⟨ht, hout⟩ := hstep
                subst ht
                subst hout
                obtain ⟨Δe, houteq, hΔe, halle⟩ :=
                  decodeHEntries_frame (decodeHookedA_frame f h) es [a] ts out hEnt
                subst houteq
                have haΔ : a ∈ Δe ++ [a] :=
                  List.mem_append.2 (Or.inr (List.mem_singleton.2 rfl))
                have hma : memoFind memo a = Option.none := by
                  cases hmm : memoFind memo a with
                  | none => rfl
                  | some w => exact absurd haΔ (hMemo a w hmm)
                have hEqn : hookWithMemo (f + 1) h memo (PyVal.ref a)
                    = some (h, (a, PyVal.ref a) :: memo, PyVal.ref a) := by
                  show hookStep (hookWithMemo f) h memo (PyVal.ref a) = _
                  simp only [hookStep, hma, hg]
                refine ⟨h, (a, PyVal.ref a) :: memo, PyVal.ref a, Δe ++ [a], hEqn,
                  Nat.le_refl _, fun x _ _ => rfl, ?_, ?_, fun x hx => Or.inl hx, hDec⟩
                · intro k w hk
                  rw [memoFind_cons]
                  by_cases hak : a = k
                  · exfalso
                    subst hak
                    rw [hma] at hk
                    exact Option.noConfusion hk
                  · rw [if_neg hak]
                    exact hk
                · intro k w hk
                  rw [memoFind_cons] at hk
                  by_cases hak : a = k
                  · subst hak
                    exact Or.inr haΔ
                  · rw [if_neg hak] at hk
                    exact Or.inl hk
        | list xs =>
          dsimp only at hstep
          cases hEnt : decodeHList (decodeHookedA f) h [a] xs with
          | none => rw [hEnt] at hstep; exact absurd hstep (by simp)
          | some q =>
            obtain ⟨ts, out⟩ := q
            rw [hEnt] at hstep
            simp only [Option.some.injEq, Prod.mk.injEq] at hstep
            obtain ⟨ht, hout⟩ := hstep
            subst ht
            subst hout
            obtain ⟨Δe, houteq, hΔe, halle⟩ :=
              decodeHList_frame (decodeHookedA_frame f h) xs [a] ts out hEnt
            subst houteq
            have haΔ : a ∈ Δe ++ [a] :=
              List.mem_append.2 (Or.inr (List.mem_singleton.2 rfl))
            have hnotaΔe : a ∉ Δe := by
              intro hc
              exact (hΔe a hc).1 (List.mem_singleton.2 rfl)
            have hma : memoFind memo a = Option.none := by
              cases hmm : memoFind memo a with
              | none => rfl
              | some w => exact absurd haΔ (hMemo a w hmm)
            have hallE : ∀ vis, (∀ x ∈ Δe, x ∉ vis) →
                decodeHList (decodeHookedA f) h vis xs = some (ts, Δe ++ vis) := halle
            have hg0 : heapGet h a = some (PyObj.list ([] ++ xs)) := hg
            obtain ⟨h', memo', B, ws, hdE, hLenE, hPresE, hExtE, hNewE, hDgetE, hBB, hDecE⟩ :=
              hookIdemListElems f ih ts xs Δe a h ((a, PyVal.ref a) :: memo) []
                hallE
                (fun k w hw => by
                  rw [memoFind_cons] at hw
                  by_cases hak : a = k
                  · subst hak
                    exact hnotaΔe
                  · rw [if_neg hak] at hw
                    intro hc
                    exact hMemo k w hw (List.mem_append.2 (Or.inl hc)))
                hg0
                hnotaΔe
            have hdE0 : hookListElems (hookWithMemo f) a xs 0 h
                ((a, PyVal.ref a) :: memo) = some (h', memo') := hdE
            have hEqn : hookWithMemo (f + 1) h memo (PyVal.ref a)
                = some (h', memo', PyVal.ref a) := by
              show hookStep (hookWithMemo f) h memo (PyVal.ref a) = _
              simp only [hookStep, hma, hg]
              rw [hdE0]
            refine ⟨h', memo', PyVal.ref a, B ++ [a], hEqn, hLenE, ?_, ?_, ?_, ?_, ?_⟩
            · intro x hx hxΔ
              exact hPresE x hx (fun hc => hxΔ (List.mem_append.2 (Or.inl hc)))
                (fun hc => hxΔ (hc ▸ haΔ))
            · intro k w hk
              refine hExtE k w ?_
              rw [memoFind_cons]
              by_cases hak : a = k
              · exfalso
                subst hak
                rw [hma] at hk
                exact Option.noConfusion hk
              · rw [if_neg hak]
                exact hk
            · intro k w hk
              rcases hNewE k w hk with hm1 | hΔem
              · rw [memoFind_cons] at hm1
                by_cases hak : a = k
                · subst hak
                  exact Or.inr haΔ
                · rw [if_neg hak] at hm1
                  exact Or.inl hm1
              · exact Or.inr (List.mem_append.2 (Or.inl hΔem))
            · intro x hx
              rcases List.mem_append.1 hx with hxb | hxa
              · rcases hBB x hxb with hxΔ | hxF
                · exact Or.inl (List.mem_append.2 (Or.inl hxΔ))
                · exact Or.inr hxF
              · rw [List.mem_singleton.1 hxa]
                exact Or.inl haΔ
            · intro vis hvis
              have hnv : a ∉ vis :=
                hvis a (List.mem_append.2 (Or.inr (List.mem_singleton.2 rfl)))
              have hDgetE' : heapGet h' a = some (PyObj.list ws) := by
                simpa using hDgetE
              have hEntD : decodeHList (decodeHookedA f) h' (a :: vis) ws
                  = some (ts, B ++ (a :: vis)) := by
                refine hDecE (a :: vis) ?_
                intro x hxe hc
                rcases List.mem_cons.1 hc with hch | hcv
                · rcases hBB x hxe with hxΔ | hxF
                  · exact hnotaΔe (hch ▸ hxΔ)
                  · omega
                · exact hvis x (List.mem_append.2 (Or.inl hxe)) hcv
              show decodeHookedA (f + 1) h' vis (PyVal.ref a)
                = some (PTree.plist ts, (B ++ [a]) ++ vis)
              simp only [decodeHookedA, decodeHookedStep, if_neg hnv, hDgetE', hEntD]
              simp
        | tuple xs =>
          dsimp only at hstep
          cases hEnt : decodeHList (decodeHookedA f) h [a] xs with
          | none => rw [hEnt] at hstep; exact absurd hstep (by simp)
          | some q =>
            obtain ⟨ts, out⟩ := q
            rw [hEnt] at hstep
            simp only [Option.some.injEq, Prod.mk.injEq] at hstep
            obtain ⟨ht, hout⟩ := hstep
            subst ht
            subst hout
            obtain ⟨Δe, houteq, hΔe, halle⟩ :=
              decodeHList_frame (decodeHookedA_frame f h) xs [a] ts out hEnt
            subst houteq
            have haΔ : a ∈ Δe ++ [a] :=
              List.mem_append.2 (Or.inr (List.mem_singleton.2 rfl))
            have hnotaΔe : a ∉ Δe := by
              intro hc
              exact (hΔe a hc).1 (List.mem_singleton.2 rfl)
            have hma : memoFind memo a = Option.none := by
              cases hmm : memoFind memo a with
              | none => rfl
              | some w => exact absurd haΔ (hMemo a w hmm)
            have hlen2 : (h ++ [PyObj.tuple (xs.map fun _ => PyVal.scalar .none)]).length
                = h.length + 1 := by simp
            have hEntH1 : ∀ vis, (∀ x ∈ Δe, x ∉ vis) →
                decodeHList (decodeHookedA f)
                  (h ++ [PyObj.tuple (xs.map fun _ => PyVal.scalar .none)]) vis xs
                  = some (ts, Δe ++ vis) := by
              intro vis hv
              refine decodeHList_agree (decodeHookedA_frame f h)
                (decodeHookedA_agree f h _) xs vis ts (Δe ++ vis) (halle vis hv) ?_
              intro x hxout hxnv
              have hxe : x ∈ Δe := by
                rcases List.mem_append.1 hxout with h1 | h2
                · exact h1
                · exact absurd h2 hxnv
              exact heapGet_append_left _ (hΔe x hxe).2
            obtain ⟨h', memo', B, ws, hdE, hLenE, hPresE, hExtE, hNewE, hDgetE, hBB, hDecE⟩ :=
              hookIdemTupleElems f ih ts xs Δe h.length
                (h ++ [PyObj.tuple (xs.map fun _ => PyVal.scalar .none)])
                memo []
                (xs.map fun _ => PyVal.scalar .none)
                hEntH1
                (fun k w hw hc => hMemo k w hw (List.mem_append.2 (Or.inl hc)))
                (heapGet_append_self h (PyObj.tuple (xs.map fun _ => PyVal.scalar .none)))
                (by simp)
                (fun hc => by
                  have := (hΔe h.length hc).2
                  omega)
            have hdE0 : hookTupleElems (hookWithMemo f) h.length xs 0
                (h ++ [PyObj.tuple (xs.map fun _ => PyVal.scalar .none)])
                memo = some (h', memo') := hdE
            have hEqn : hookWithMemo (f + 1) h memo (PyVal.ref a)
                = some (h', memo', PyVal.ref h.length) := by
              show hookStep (hookWithMemo f) h memo (PyVal.ref a) = _
              simp only [hookStep, hma, hg]
              rw [hdE0]
            refine ⟨h', memo', PyVal.ref h.length, B ++ [h.length], hEqn,
              by omega, ?_, ?_, ?_, ?_, ?_⟩
            · intro x hx hxΔ
              rw [hPresE x (by omega)
                (fun hc => hxΔ (List.mem_append.2 (Or.inl hc))) (by omega),
                heapGet_append_left _ hx]
            · exact fun k c hk => hExtE k c hk
            · intro k c hk
              rcases hNewE k c hk with hm1 | hΔem
              · exact Or.inl hm1
              · exact Or.inr (List.mem_append.2 (Or.inl hΔem))
            · intro x hx
              rcases List.mem_append.1 hx with hxb | hxa
              · rcases hBB x hxb with hxΔ | hxF
                · exact Or.inl (List.mem_append.2 (Or.inl hxΔ))
                · right
                  omega
              · rw [List.mem_singleton.1 hxa]
                right
                omega
            · intro vis hvis
              have hnv : h.length ∉ vis :=
                hvis h.length (List.mem_append.2 (Or.inr (List.mem_singleton.2 rfl)))
              have hDgetE' : heapGet h' h.length = some (PyObj.tuple ws) := by
                simpa using hDgetE
              have hEntD : decodeHList (decodeHookedA f) h' (h.length :: vis) ws
                  = some (ts, B ++ (h.length :: vis)) := by
                refine hDecE (h.length :: vis) ?_
                intro x hxe hc
                rcases List.mem_cons.1 hc with hch | hcv
                · rcases hBB x hxe with hxΔ | hxF
                  · have := (hΔe x hxΔ).2
                    omega
                  · omega
                · exact hvis x (List.mem_append.2 (Or.inl hxe)) hcv
              show decodeHookedA (f + 1) h' vis (PyVal.ref h.length)
                = some (PTree.ptuple ts, (B ++ [h.length]) ++ vis)
              simp only [decodeHookedA, decodeHookedStep, if_neg hnv, hDgetE', hEntD]
              simp

/-! ## C1: every mutation primitive on a protected MagiDict fails with
`ProtectedMutation` and leaves heap (hence mapping and flags) unchanged -/

/-- C1.  If either provenance flag of the MagiDict at `a` is set, then
set-key, delete-key, update, clear, pop, pop-arbitrary-item and
set-if-absent all return the `protectedMutation` error and return the heap
unchanged, so the container's mapping and flags are untouched. -/
theorem protected_mutation_rejected (h : Heap) (a : Nat) (fn fm : Bool)
    (es : List (PyVal × PyVal)) (hget : heapGet h a = some (.magi fn fm es))
    (hp : (fn || fm) = true) (fuel : Nat) (k v d : PyVal)
    (other kwds : List (PyVal × PyVal)) (args : List PyVal) :
    magidict_setitem fuel h a k v = (h, .error .protectedMutation) ∧
    magidict_delitem h a k = (h, .error .protectedMutation) ∧
    magidict_update fuel h a other kwds = (h, .error .protectedMutation) ∧
    magidict_clear h a = (h, .error .protectedMutation) ∧
    magidict_pop h a args = (h, .error .protectedMutation) ∧
    magidict_popitem h a = (h, .error .protectedMutation) ∧
    magidict_setdefault fuel h a k d = (h, .error .protectedMutation) := by
  refine ⟨?_, ?_, ?_, ?_, ?_, ?_, ?_⟩ <;>
    simp [magidict_setitem, magidict_delitem, magidict_update, magidict_clear,
      magidict_pop, magidict_popitem, magidict_setdefault, hget, hp]

/-- Witness for C1 at a concrete protected sentinel. -/
theorem protected_mutation_rejected_witness :
    heapGet [PyObj.magi true false []] 0 = some (.magi true false []) ∧
    ((true : Bool) || false) = true ∧
    magidict_clear [PyObj.magi true false []] 0 =
      ([PyObj.magi true false []], .error .protectedMutation) := by
  refine ⟨by decide, by decide, ?_⟩
  exact (protected_mutation_rejected [PyObj.magi true false []] 0 true false []
    (by decide) (by decide) 1 (.scalar .none) (.scalar .none) (.scalar .none)
    [] [] []).2.2.2.1

/-! ## C2: round trip — `disenchant(hook(plainTree)) == plainTree` -/

/-- C2: for every acyclic well-formed plain tree `t` laid out in a heap by
`encodeT`, hooking the encoding succeeds, disenchanting the hooked result
succeeds (both with a fresh memo, as the public entry points do), and the
disenchanted value reads back through `decodePlainA` as exactly the original
tree `t`: `disenchant(hook(plainTree)) == plainTree`. -/
theorem hook_disenchant_round_trip (t : PTree) (h0 : Heap)
    (hWf : PTree.wf t = true) :
    ∃ h1 memo1 v1 h2 memo2 w B,
      hookWithMemo (PTree.depth t + 1) (encodeT t h0).1 [] (encodeT t h0).2
        = some (h1, memo1, v1) ∧
      disenchantRec (PTree.depth t + 1) h1 [] v1 = some (h2, memo2, w) ∧
      decodePlainA (PTree.depth t + 1) h2 [] w = some (t, B) := by
  obtain ⟨h1, memo1, v1, Δ, hHook, hLen1, hFrame1, hExt1, hNew1, hΔb, hDec1, hRoot⟩ :=
    hookEnc_all (PTree.depth t + 1) t h0 (encodeT t h0).1 (encodeT t h0).2
      (encodeT t h0).1 [] rfl (Nat.lt_succ_self _) hWf (Nat.le_refl _)
      (fun _ _ _ => rfl)
      (fun _ _ hk => Option.noConfusion hk)
  obtain ⟨h2, memo2, w, B, hDis, hLen2, hPres, hExt2, hNew2, hBB, hDecP⟩ :=
    disSpec_all (PTree.depth t + 1) t v1 Δ h1 [] hWf hDec1
      (fun _ _ hk => Option.noConfusion hk)
  refine ⟨h1, memo1, v1, h2, memo2, w, B, hHook, hDis, ?_⟩
  have hfin := hDecP [] (fun x _ => List.not_mem_nil x)
  simpa using hfin

/-- Witness for C2 at the spec's own example tree
`\x7b"a": 1, "b": [\x7b"c": None\x7d]\x7d`, starting from the empty heap. -/
theorem hook_disenchant_round_trip_witness :
    PTree.wf (PTree.pmap [(PyScalar.str "a", PTree.scalar (PyScalar.int 1)),
      (PyScalar.str "b",
        PTree.plist [PTree.pmap [(PyScalar.str "c", PTree.scalar PyScalar.none)]])]) = true ∧
    (∃ h1 memo1 v1 h2 memo2 w B,
      hookWithMemo (PTree.depth (PTree.pmap [(PyScalar.str "a", PTree.scalar (PyScalar.int 1)),
          (PyScalar.str "b",
            PTree.plist [PTree.pmap [(PyScalar.str "c", PTree.scalar PyScalar.none)]])]) + 1)
        (encodeT (PTree.pmap [(PyScalar.str "a", PTree.scalar (PyScalar.int 1)),
          (PyScalar.str "b",
            PTree.plist [PTree.pmap [(PyScalar.str "c", PTree.scalar PyScalar.none)]])]) []).1 []
        (encodeT (PTree.pmap [(PyScalar.str "a", PTree.scalar (PyScalar.int 1)),
          (PyScalar.str "b",
            PTree.plist [PTree.pmap [(PyScalar.str "c", PTree.scalar PyScalar.none)]])]) []).2
        = some (h1, memo1, v1) ∧
      disenchantRec (PTree.depth (PTree.pmap [(PyScalar.str "a", PTree.scalar (PyScalar.int 1)),
          (PyScalar.str "b",
            PTree.plist [PTree.pmap [(PyScalar.str "c", PTree.scalar PyScalar.none)]])]) + 1)
        h1 [] v1 = some (h2, memo2, w) ∧
      decodePlainA (PTree.depth (PTree.pmap [(PyScalar.str "a", PTree.scalar (PyScalar.int 1)),
          (PyScalar.str "b",
            PTree.plist [PTree.pmap [(PyScalar.str "c", PTree.scalar PyScalar.none)]])]) + 1)
        h2 [] w
        = some (PTree.pmap [(PyScalar.str "a", PTree.scalar (PyScalar.int 1)),
          (PyScalar.str "b",
            PTree.plist [PTree.pmap [(PyScalar.str "c", PTree.scalar PyScalar.none)]])], B)) :=
  ⟨by decide,
    hook_disenchant_round_trip
      (PTree.pmap [(PyScalar.str "a", PTree.scalar (PyScalar.int 1)),
        (PyScalar.str "b",
          PTree.plist [PTree.pmap [(PyScalar.str "c", PTree.scalar PyScalar.none)]])])
      [] (by decide)⟩

/-! ## C3: cycle safety — hooking `m` with `m["self"] = m` terminates and the
resulting container's `"self"` entry is the container itself -/

/-- C3: for every self-referential input dict (every value a scalar or the
back-reference to the dict itself, with a `"self"` key holding the
back-reference), constructing a MagiDict from it terminates with result
address `h.length`, and the constructed container's `"self"` entry is the
reference to that very address — identity-equality with the container
itself (the memo, seeded with the input before hooking the values, turns
the back-reference into the container under construction). -/
theorem hook_cycle_safety (f : Nat) (h : Heap) (d : Nat) (es : List (PyVal × PyVal))
    (hget : heapGet h d = some (PyObj.dict es))
    (hself : dictGet es (PyVal.scalar (PyScalar.str "self")) = some (PyVal.ref d))
    (hvals : ∀ p ∈ es, (∃ sc, p.2 = PyVal.scalar sc) ∨ p.2 = PyVal.ref d)
    (hpw : List.Pairwise (fun p q => p.1 ≠ q.1) es) :
    ∃ h' es',
      magidict_new_init (f + 1) h d = some (h', h.length) ∧
      heapGet h' h.length = some (PyObj.magi false false es') ∧
      dictGet es' (PyVal.scalar (PyScalar.str "self")) = some (PyVal.ref h.length) := by
  have hget1 : heapGet (h ++ [PyObj.magi false false []]) h.length
      = some (PyObj.magi false false []) := heapGet_append_self h _
  have hmemo : memoFind [(d, PyVal.ref h.length)] d = some (PyVal.ref h.length) := by
    simp [memoFind]
  obtain ⟨h2, hrec, hlen2, hget3⟩ := selfref_hookEntries f es
    (h ++ [PyObj.magi false false []]) [(d, PyVal.ref h.length)] [] h.length d
    hget1 hmemo hvals (fun p _ q hq => absurd hq (List.not_mem_nil q)) hpw
  refine ⟨h2,
    es.map fun p => (p.1, if p.2 = PyVal.ref d then PyVal.ref h.length else p.2),
    ?_, ?_, ?_⟩
  · simp only [magidict_new_init, hget]
    rw [hrec]
  · simpa using hget3
  · have hmv := dictGet_map_val
      (fun w => if w = PyVal.ref d then PyVal.ref h.length else w) es
      (PyVal.scalar (PyScalar.str "self"))
    rw [hself] at hmv
    simpa using hmv

/-- Witness for C3 on the one-entry self-referential dict, with fuel 1. -/
theorem hook_cycle_safety_witness :
    heapGet [PyObj.dict [(PyVal.scalar (PyScalar.str "self"), PyVal.ref 0)]] 0
      = some (PyObj.dict [(PyVal.scalar (PyScalar.str "self"), PyVal.ref 0)]) ∧
    dictGet [(PyVal.scalar (PyScalar.str "self"), PyVal.ref 0)]
      (PyVal.scalar (PyScalar.str "self")) = some (PyVal.ref 0) ∧
    ∃ h' es',
      magidict_new_init 1 [PyObj.dict [(PyVal.scalar (PyScalar.str "self"), PyVal.ref 0)]] 0
        = some (h', 1) ∧
      heapGet h' 1 = some (PyObj.magi false false es') ∧
      dictGet es' (PyVal.scalar (PyScalar.str "self")) = some (PyVal.ref 1) :=
  ⟨by decide, by decide,
    hook_cycle_safety 0 [PyObj.dict [(PyVal.scalar (PyScalar.str "self"), PyVal.ref 0)]] 0
      [(PyVal.scalar (PyScalar.str "self"), PyVal.ref 0)]
      (by decide) (by decide)
      (fun p hp => Or.inr (by rw [List.mem_singleton.1 hp]))
      (by simp)⟩

/-! ## C4: idempotence of hook -/

/-- C4: hook is idempotent.  First conjunct (content equality): for every
well-formed plain tree `t` laid out by `encodeT`, hooking it succeeds and
yields `v1` reading back as `t`, and hooking `v1` again (fresh memo, as the
public `hook` does) succeeds and yields `v2` that again reads back as the
very same tree `t` — `hook(hook(x)) == hook(x)`, both content-equal to `x`.
Second conjunct: hooking a value that is already a MagiDict returns it
identically (same heap, same reference), merely memoizing it to itself. -/
theorem hook_idempotent (t : PTree) (h0 : Heap) (hWf : PTree.wf t = true) :
    (∃ h1 memo1 v1 Δ1 h2 memo2 v2 B,
      hookWithMemo (PTree.depth t + 1) (encodeT t h0).1 [] (encodeT t h0).2
        = some (h1, memo1, v1) ∧
      decodeHookedA (PTree.depth t + 1) h1 [] v1 = some (t, Δ1) ∧
      hookWithMemo (PTree.depth t + 1) h1 [] v1 = some (h2, memo2, v2) ∧
      decodeHookedA (PTree.depth t + 1) h2 [] v2 = some (t, B)) ∧
    (∀ (f : Nat) (h : Heap) (memo : Memo) (a : Nat) (fn fm : Bool)
        (es : List (PyVal × PyVal)),
      memoFind memo a = Option.none →
      heapGet h a = some (PyObj.magi fn fm es) →
      hookWithMemo (f + 1) h memo (PyVal.ref a)
        = some (h, (a, PyVal.ref a) :: memo, PyVal.ref a)) := by
  constructor
  · obtain ⟨h1, memo1, v1, Δ, hHook, hLen1, hFrame1, hExt1, hNew1, hΔb, hDec1, hRoot⟩ :=
      hookEnc_all (PTree.depth t + 1) t h0 (encodeT t h0).1 (encodeT t h0).2
        (encodeT t h0).1 [] rfl (Nat.lt_succ_self _) hWf (Nat.le_refl _)
        (fun _ _ _ => rfl)
        (fun _ _ hk => Option.noConfusion hk)
    obtain ⟨h2, memo2, v2, B, hHook2, hLen2, hFrame2, hExt2, hNew2, hBb, hDec2⟩ :=
      hookIdem_all (PTree.depth t + 1) t v1 Δ h1 [] hDec1
        (fun _ _ hk => Option.noConfusion hk)
    refine ⟨h1, memo1, v1, Δ, h2, memo2, v2, B, hHook, ?_, hHook2, ?_⟩
    · simpa using hDec1 [] (fun x _ => List.not_mem_nil x)
    · simpa using hDec2 [] (fun x _ => List.not_mem_nil x)
  · intro f h memo a fn fm es hm hg
    show hookStep (hookWithMemo f) h memo (PyVal.ref a)
      = some (h, (a, PyVal.ref a) :: memo, PyVal.ref a)
    simp only [hookStep, hm, hg]

/-- Witness for C4 at the tree `\x7b"a": 1\x7d`, empty starting heap; the
MagiDict conjunct is instantiated inside the applied theorem. -/
theorem hook_idempotent_witness :
    PTree.wf (PTree.pmap [(PyScalar.str "a", PTree.scalar (PyScalar.int 1))]) = true ∧
    ((∃ h1 memo1 v1 Δ1 h2 memo2 v2 B,
      hookWithMemo (PTree.depth (PTree.pmap
            [(PyScalar.str "a", PTree.scalar (PyScalar.int 1))]) + 1)
        (encodeT (PTree.pmap [(PyScalar.str "a", PTree.scalar (PyScalar.int 1))]) []).1 []
        (encodeT (PTree.pmap [(PyScalar.str "a", PTree.scalar (PyScalar.int 1))]) []).2
        = some (h1, memo1, v1) ∧
      decodeHookedA (PTree.depth (PTree.pmap
            [(PyScalar.str "a", PTree.scalar (PyScalar.int 1))]) + 1) h1 [] v1
        = some (PTree.pmap [(PyScalar.str "a", PTree.scalar (PyScalar.int 1))], Δ1) ∧
      hookWithMemo (PTree.depth (PTree.pmap
            [(PyScalar.str "a", PTree.scalar (PyScalar.int 1))]) + 1) h1 [] v1
        = some (h2, memo2, v2) ∧
      decodeHookedA (PTree.depth (PTree.pmap
            [(PyScalar.str "a", PTree.scalar (PyScalar.int 1))]) + 1) h2 [] v2
        = some (PTree.pmap [(PyScalar.str "a", PTree.scalar (PyScalar.int 1))], B)) ∧
    (∀ (f : Nat) (h : Heap) (memo : Memo) (a : Nat) (fn fm : Bool)
        (es : List (PyVal × PyVal)),
      memoFind memo a = Option.none →
      heapGet h a = some (PyObj.magi fn fm es) →
      hookWithMemo (f + 1) h memo (PyVal.ref a)
        = some (h, (a, PyVal.ref a) :: memo, PyVal.ref a))) :=
  ⟨by decide,
    hook_idempotent (PTree.pmap [(PyScalar.str "a", PTree.scalar (PyScalar.int 1))]) []
      (by decide)⟩

/-! ## C5: hook preserves shared substructure — two keys referring to the
identical sub-mapping convert to the identical MagiDict instance -/

/-- C5: for every well-formed sub-mapping `shared` laid out in the heap and
every input dict `\x7b ka: shared, kb: shared \x7d` whose two distinct keys hold
the identical reference to it, constructing a MagiDict succeeds and stores,
under both keys, the very same reference `ref n` — the identical converted
MagiDict instance.  The first conversion memoizes `id(shared) ↦ converted`
before recursing; the second lookup hits the memo and returns the same
object. -/
theorem hook_shared_substructure (ses : List (PyScalar × PTree)) (h0 : Heap)
    (ka kb : PyVal) (hne : ka ≠ kb)
    (hwf : PTree.wf (PTree.pmap ses) = true) :
    ∃ h' n,
      magidict_new_init (PTree.depth (PTree.pmap ses) + 1)
        ((encodeT (PTree.pmap ses) h0).1
          ++ [PyObj.dict [(ka, (encodeT (PTree.pmap ses) h0).2),
                          (kb, (encodeT (PTree.pmap ses) h0).2)]])
        (encodeT (PTree.pmap ses) h0).1.length
        = some (h', (encodeT (PTree.pmap ses) h0).1.length + 1) ∧
      heapGet h' ((encodeT (PTree.pmap ses) h0).1.length + 1)
        = some (PyObj.magi false false [(ka, PyVal.ref n), (kb, PyVal.ref n)]) := by
  generalize hE : encodeT (PTree.pmap ses) h0 = pv
  obtain ⟨henc, v⟩ := pv
  set h : Heap := henc ++ [PyObj.dict [(ka, v), (kb, v)]] with hh
  have hlenh : h.length = henc.length + 1 := by simp [hh]
  have hgetd : heapGet h henc.length = some (PyObj.dict [(ka, v), (kb, v)]) :=
    heapGet_append_self henc _
  have hmagi1 : heapGet (h ++ [PyObj.magi false false []]) h.length
      = some (PyObj.magi false false []) := heapGet_append_self h _
  have hlenh1 : (h ++ [PyObj.magi false false []]).length = h.length + 1 := by simp
  obtain ⟨h2, memo2, v2, Δ, hHook, hLen, hFrame, hExt, hNew, hΔb, hDec, hRoot⟩ :=
    hookEnc_all (PTree.depth (PTree.pmap ses) + 1) (PTree.pmap ses) h0 henc v
      (h ++ [PyObj.magi false false []])
      [(henc.length, PyVal.ref h.length)]
      hE (Nat.lt_succ_self _) hwf
      (by rw [hlenh1, hlenh]; omega)
      (fun x hx1 hx2 => by
        rw [hh, List.append_assoc]
        exact heapGet_append_left _ hx2)
      (fun k w hk => by
        by_cases hik : henc.length = k
        · subst hik
          omega
        · rw [memoFind_cons, if_neg hik] at hk
          exact Option.noConfusion hk)
  obtain ⟨r, hvr, hmr⟩ := hRoot ses rfl
  have hD0 := hDec [] (by simp)
  rw [List.append_nil] at hD0
  cases v2 with
  | scalar sc =>
    exfalso
    have hx : some (PTree.scalar sc, ([] : List Nat)) = some (PTree.pmap ses, Δ) := hD0
    simp at hx
  | ref n =>
    have hget2s : heapGet h2 h.length = some (PyObj.magi false false []) := by
      rw [hFrame h.length (by omega) (by rw [hlenh]; omega)]
      exact hmagi1
    have hsLt2 : h.length < h2.length := by omega
    have hdset1 : heapDictSet h2 h.length ka (PyVal.ref n)
        = some (heapSet h2 h.length (PyObj.magi false false [(ka, PyVal.ref n)])) := by
      simp only [heapDictSet, hget2s]
      rfl
    have hhook2 : hookWithMemo (PTree.depth (PTree.pmap ses) + 1)
        (heapSet h2 h.length (PyObj.magi false false [(ka, PyVal.ref n)])) memo2 v
        = some (heapSet h2 h.length (PyObj.magi false false [(ka, PyVal.ref n)]),
            memo2, PyVal.ref n) := by
      rw [hvr]
      show hookStep (hookWithMemo (PTree.depth (PTree.pmap ses)))
        (heapSet h2 h.length (PyObj.magi false false [(ka, PyVal.ref n)])) memo2
        (PyVal.ref r) = _
      simp only [hookStep, hmr]
    have hget3s : heapGet (heapSet h2 h.length
          (PyObj.magi false false [(ka, PyVal.ref n)])) h.length
        = some (PyObj.magi false false [(ka, PyVal.ref n)]) :=
      heapGet_heapSet_eq hsLt2 _
    have hdset2 : heapDictSet
        (heapSet h2 h.length (PyObj.magi false false [(ka, PyVal.ref n)]))
        h.length kb (PyVal.ref n)
        = some (heapSet (heapSet h2 h.length (PyObj.magi false false [(ka, PyVal.ref n)]))
            h.length (PyObj.magi false false [(ka, PyVal.ref n), (kb, PyVal.ref n)])) := by
      simp only [heapDictSet, hget3s]
      rw [show dictSet [(ka, PyVal.ref n)] kb (PyVal.ref n)
        = [(ka, PyVal.ref n), (kb, PyVal.ref n)] from by simp [dictSet, hne]]
    have hEnt : hookEntries (hookWithMemo (PTree.depth (PTree.pmap ses) + 1)) h.length
        [(ka, v), (kb, v)] (h ++ [PyObj.magi false false []])
        [(henc.length, PyVal.ref h.length)]
        = some (heapSet (heapSet h2 h.length (PyObj.magi false false [(ka, PyVal.ref n)]))
            h.length (PyObj.magi false false [(ka, PyVal.ref n), (kb, PyVal.ref n)]),
            memo2) := by
      simp only [hookEntries]
      rw [hHook]
      dsimp only
      rw [hdset1]
      dsimp only
      rw [hhook2]
      dsimp only
      rw [hdset2]
    refine ⟨heapSet (heapSet h2 h.length (PyObj.magi false false [(ka, PyVal.ref n)]))
      h.length (PyObj.magi false false [(ka, PyVal.ref n), (kb, PyVal.ref n)]), n, ?_, ?_⟩
    · simp only [magidict_new_init, hgetd]
      rw [hEnt]
      rw [← hlenh]
    · rw [← hlenh]
      exact heapGet_heapSet_eq (by rw [length_heapSet]; exact hsLt2) _

/-- Witness for C5 with `shared = \x7b"x": 1\x7d` under keys `"a"` and `"b"`. -/
theorem hook_shared_substructure_witness :
    (PyVal.scalar (PyScalar.str "a") ≠ PyVal.scalar (PyScalar.str "b")) ∧
    PTree.wf (PTree.pmap [(PyScalar.str "x", PTree.scalar (PyScalar.int 1))]) = true ∧
    ∃ h' n,
      magidict_new_init
        (PTree.depth (PTree.pmap [(PyScalar.str "x", PTree.scalar (PyScalar.int 1))]) + 1)
        ((encodeT (PTree.pmap [(PyScalar.str "x", PTree.scalar (PyScalar.int 1))]) []).1
          ++ [PyObj.dict [(PyVal.scalar (PyScalar.str "a"),
                (encodeT (PTree.pmap [(PyScalar.str "x", PTree.scalar (PyScalar.int 1))]) []).2),
              (PyVal.scalar (PyScalar.str "b"),
                (encodeT (PTree.pmap [(PyScalar.str "x", PTree.scalar (PyScalar.int 1))]) []).2)]])
        (encodeT (PTree.pmap [(PyScalar.str "x", PTree.scalar (PyScalar.int 1))]) []).1.length
        = some (h',
          (encodeT (PTree.pmap [(PyScalar.str "x", PTree.scalar (PyScalar.int 1))]) []).1.length
            + 1) ∧
      heapGet h'
        ((encodeT (PTree.pmap [(PyScalar.str "x", PTree.scalar (PyScalar.int 1))]) []).1.length
          + 1)
        = some (PyObj.magi false false
            [(PyVal.scalar (PyScalar.str "a"), PyVal.ref n),
             (PyVal.scalar (PyScalar.str "b"), PyVal.ref n)]) :=
  ⟨by decide, by decide,
    hook_shared_substructure [(PyScalar.str "x", PTree.scalar (PyScalar.int 1))] []
      (PyVal.scalar (PyScalar.str "a")) (PyVal.scalar (PyScalar.str "b"))
      (by decide) (by decide)⟩

/-! ## C6: `mget` distinguishes a stored null from a missing key -/

/-- C6.  On a MagiDict built from `{"a": None}`, the safe accessor `mget`
returns for key `"a"` a fresh empty protected MagiDict with `from_none`
(standsForNull) set, and for the absent key `"b"` (no default supplied) a
fresh empty protected MagiDict with `from_missing` (standsForMissing) set;
both results are empty and differ only in those flags. -/
theorem mget_null_missing_distinction (h : Heap) (a : Nat)
    (hget : heapGet h a = some (.magi false false [(.scalar (.str "a"), .scalar .none)])) :
    (∃ h1 p1, magidict_mget h a (.scalar (.str "a")) Option.none = (h1, .ref p1) ∧
      heapGet h1 p1 = some (.magi true false [])) ∧
    (∃ h2 p2, magidict_mget h a (.scalar (.str "b")) Option.none = (h2, .ref p2) ∧
      heapGet h2 p2 = some (.magi false true [])) := by
  have ha : a < h.length := heapGet_lt_length hget
  constructor
  · refine ⟨(h ++ [PyObj.magi false true []]) ++ [PyObj.magi true false []],
      (h ++ [PyObj.magi false true []]).length, ?_, ?_⟩
    · simp only [magidict_mget, createProtected]
      rw [heapGet_append_left _ ha, hget]
      simp [dictGet]
    · exact heapGet_append_self _ _
  · refine ⟨h ++ [PyObj.magi false true []], h.length, ?_, ?_⟩
    · simp only [magidict_mget, createProtected]
      rw [heapGet_append_left _ ha, hget]
      simp [dictGet]
    · exact heapGet_append_self _ _

/-- Witness for C6 at the concrete heap holding `{"a": None}`. -/
theorem mget_null_missing_distinction_witness :
    heapGet [PyObj.magi false false [(.scalar (.str "a"), .scalar .none)]] 0 =
      some (.magi false false [(.scalar (.str "a"), .scalar .none)]) ∧
    ((∃ h1 p1, magidict_mget [PyObj.magi false false [(.scalar (.str "a"), .scalar .none)]] 0
        (.scalar (.str "a")) Option.none = (h1, .ref p1) ∧
        heapGet h1 p1 = some (.magi true false [])) ∧
      (∃ h2 p2, magidict_mget [PyObj.magi false false [(.scalar (.str "a"), .scalar .none)]] 0
        (.scalar (.str "b")) Option.none = (h2, .ref p2) ∧
        heapGet h2 p2 = some (.magi false true []))) :=
  ⟨by decide, mget_null_missing_distinction _ 0 (by decide)⟩

/-! ## C7: propagation of the missing sentinel

The claim as stated is false: plain index access `p["anything"]` on the
empty protected MagiDict `p` goes through `magidict_getitem`'s standard
branch, whose miss (no dot in the key) raises `KeyError`; the code comment
"Key not found - raise KeyError" shows this is deliberate.  What does
propagate without raising is the sequence-of-keys index access
`p[["anything"]]` (and attribute access), which again yields a protected
`from_missing` MagiDict.  The truth value of `p` is false as claimed. -/

/-- C7 counterexample: on the concrete empty protected MagiDict produced by
a missing-key lookup, plain index access with `"anything"` raises
`KeyNotFound` instead of yielding a protected MagiDict as the claim
states. -/
theorem protected_propagation_counterexample :
    magidict_getitem [PyObj.magi false true []] 0 (.scalar (.str "anything")) =
      ([PyObj.magi false true []], .error .keyNotFound) := by decide

/-- C7 amended.  For every empty protected MagiDict `p` from a missing-key
lookup: plain index access `p["anything"]` raises `KeyNotFound`;
sequence-of-keys index access `p[["anything"]]` yields again a fresh
protected MagiDict with `from_missing` (standsForMissing) true; and the
truth value of `p` is false. -/
theorem protected_propagation_amended (h : Heap) (p la : Nat)
    (hp : heapGet h p = some (.magi false true []))
    (hl : heapGet h la = some (.list [.scalar (.str "anything")])) :
    magidict_getitem h p (.scalar (.str "anything")) = (h, .error .keyNotFound) ∧
    magidict_getitem h p (.ref la) =
      (h ++ [PyObj.magi false true []], .ok (.ref h.length)) ∧
    magidict_bool h p = false := by
  have hcd : strContainsDot "anything" = false := by decide
  refine ⟨?_, ?_, ?_⟩
  · simp [magidict_getitem, hp, getitemStd, dictGet, hcd]
  · simp [magidict_getitem, hp, hl, pathLookupSafe, dictGet, pathResult, createProtected]
  · simp [magidict_bool, hp]

/-- Witness for the amended C7 at a concrete heap. -/
theorem protected_propagation_amended_witness :
    heapGet [PyObj.magi false true [], PyObj.list [.scalar (.str "anything")]] 0 =
      some (.magi false true []) ∧
    heapGet [PyObj.magi false true [], PyObj.list [.scalar (.str "anything")]] 1 =
      some (.list [.scalar (.str "anything")]) ∧
    (magidict_getitem [PyObj.magi false true [], PyObj.list [.scalar (.str "anything")]] 0
        (.scalar (.str "anything")) =
      ([PyObj.magi false true [], PyObj.list [.scalar (.str "anything")]],
        .error .keyNotFound) ∧
    magidict_getitem [PyObj.magi false true [], PyObj.list [.scalar (.str "anything")]] 0
        (.ref 1) =
      ([PyObj.magi false true [], PyObj.list [.scalar (.str "anything")]] ++
        [PyObj.magi false true []], .ok (.ref 2)) ∧
    magidict_bool [PyObj.magi false true [], PyObj.list [.scalar (.str "anything")]] 0 = false) :=
  ⟨by decide, by decide,
    protected_propagation_amended _ 0 1 (by decide) (by decide)⟩

/-! ## C8: dotted-path lookup in `__getitem__` -/

theorem dottedWalk_eq_spec (h : Heap) :
    ∀ (segs : List String) (obj : PyVal),
      dottedWalk h obj segs = specDottedLookup h obj segs := by
  intro segs
  induction segs with
  | nil => intro obj; rfl
  | cons seg rest ih =>
    intro obj
    show dottedWalk h obj (seg :: rest) = (specResolveSeg h obj seg).bind
      fun o => specDottedLookup h o rest
    cases obj with
    | scalar s => simp [dottedWalk, specResolveSeg]
    | ref b =>
      simp only [dottedWalk, specResolveSeg]
      cases hg : heapGet h b with
      | none => simp
      | some o =>
        cases o with
        | magi fn fm es =>
          cases hd : dictGet es (.scalar (.str seg)) with
          | none => simp [hd]
          | some nxt => simp [hd, ih nxt]
        | dict es =>
          cases hd : dictGet es (.scalar (.str seg)) with
          | none => simp [hd]
          | some nxt => simp [hd, ih nxt]
        | list xs =>
          cases hI : pyStrToInt? seg with
          | none => simp [hI]
          | some i =>
            cases hs : seqGetElem xs i with
            | none => simp [hI, hs]
            | some nxt => simp [hI, hs, ih nxt]
        | tuple xs =>
          cases hI : pyStrToInt? seg with
          | none => simp [hI]
          | some i =>
            cases hs : seqGetElem xs i with
            | none => simp [hI, hs]
            | some nxt => simp [hI, hs, ih nxt]

/-- C8.  Index-style lookup with a text key that contains the delimiter
`'.'` (character 46) and is not itself a key of the backing mapping splits
the key on `'.'` and performs the segment-by-segment walk (mapping lookups
and integer-indexed sequence accesses, as formalized by
`specDottedLookup`): it returns the value at that path when every segment
resolves and raises `KeyNotFound` when any segment fails to resolve. -/
theorem getitem_dotted_path (h : Heap) (a : Nat) (fn fm : Bool)
    (es : List (PyVal × PyVal)) (s : String)
    (hget : heapGet h a = some (.magi fn fm es))
    (hmiss : dictGet es (.scalar (.str s)) = Option.none)
    (hdot : strContainsDot s = true) :
    magidict_getitem h a (.scalar (.str s)) =
      (h, match specDottedLookup h (.ref a) (splitDot s) with
          | some v => .ok v
          | Option.none => .error .keyNotFound) := by
  simp only [magidict_getitem, hget, getitemStd, hmiss, hdot, if_true,
    dottedWalk_eq_spec]
  cases specDottedLookup h (.ref a) (splitDot s) <;> rfl

/-- Witness for C8 on the hooked image of `{"a": {"b": {"c": 42}}}`:
`m["a.b.c"]` resolves to `42`. -/
theorem getitem_dotted_path_witness :
    heapGet [PyObj.magi false false [(.scalar (.str "c"), .scalar (.int 42))],
        PyObj.magi false false [(.scalar (.str "b"), .ref 0)],
        PyObj.magi false false [(.scalar (.str "a"), .ref 1)]] 2 =
      some (.magi false false [(.scalar (.str "a"), .ref 1)]) ∧
    magidict_getitem [PyObj.magi false false [(.scalar (.str "c"), .scalar (.int 42))],
        PyObj.magi false false [(.scalar (.str "b"), .ref 0)],
        PyObj.magi false false [(.scalar (.str "a"), .ref 1)]] 2
      (.scalar (.str "a.b.c")) =
      ([PyObj.magi false false [(.scalar (.str "c"), .scalar (.int 42))],
        PyObj.magi false false [(.scalar (.str "b"), .ref 0)],
        PyObj.magi false false [(.scalar (.str "a"), .ref 1)]],
        .ok (.scalar (.int 42))) :=
  ⟨by decide,
    (getitem_dotted_path
      [PyObj.magi false false [(.scalar (.str "c"), .scalar (.int 42))],
        PyObj.magi false false [(.scalar (.str "b"), .ref 0)],
        PyObj.magi false false [(.scalar (.str "a"), .ref 1)]] 2 false false
      [(.scalar (.str "a"), .ref 1)] "a.b.c" (by decide) (by decide)
      (by decide)).trans (by decide)⟩

/-! ## C9: `pop` with a fallback — the code does not return the fallback

`magidict_pop` delegates to `PyDict_Type.tp_methods[0].ml_meth`.  The first
entry of CPython's dict method table is `__contains__`, not `pop`, so the
delegated call performs a containment test of the raw `args` tuple and
returns a boolean; the method's own docstring ("Remove and return value for
key") and the spec say it should return the supplied fallback. -/

/-- C9 failing input evaluated: on the unprotected MagiDict `{"a": 1}`,
`pop("b", 42)` returns `False` (the containment test of the `("b", 42)`
argument tuple) instead of the fallback `42`, and deletes nothing. -/
theorem pop_fallback_returns_bool :
    magidict_pop [PyObj.magi false false [(.scalar (.str "a"), .scalar (.int 1))]] 0
        [.scalar (.str "b"), .scalar (.int 42)] =
      ([PyObj.magi false false [(.scalar (.str "a"), .scalar (.int 1))],
        PyObj.tuple [.scalar (.str "b"), .scalar (.int 42)]],
        .ok (.scalar (.bool false))) := by decide

/-! ## C10: `mget` with an explicit `None` default returns the stored
`None` itself -/

/-- C10.  When the stored value under `k` is `None`: `mget` with the
explicit default `None` returns the stored `None` itself and allocates
nothing; with any other explicit default it substitutes a fresh
`from_none` sentinel; and with no default at all it also substitutes a
fresh `from_none` sentinel. -/
theorem mget_explicit_none_default (h : Heap) (a : Nat) (fn fm : Bool)
    (es : List (PyVal × PyVal)) (k : PyVal)
    (hget : heapGet h a = some (.magi fn fm es))
    (hval : dictGet es k = some (.scalar .none)) :
    magidict_mget h a k (some (.scalar .none)) = (h, .scalar .none) ∧
    (∀ d : PyVal, d ≠ .scalar .none →
      magidict_mget h a k (some d) = (h ++ [PyObj.magi true false []], .ref h.length)) ∧
    magidict_mget h a k Option.none =
      ((h ++ [PyObj.magi false true []]) ++ [PyObj.magi true false []],
        .ref (h ++ [PyObj.magi false true []]).length) := by
  have ha : a < h.length := heapGet_lt_length hget
  refine ⟨?_, ?_, ?_⟩
  · simp [magidict_mget, hget, hval]
  · intro d hd
    simp [magidict_mget, hget, hval, hd, createProtected]
  · simp only [magidict_mget, createProtected]
    rw [heapGet_append_left _ ha, hget]
    simp [hval]

/-- Witness for C10 at the concrete heap holding `{"a": None}`. -/
theorem mget_explicit_none_default_witness :
    heapGet [PyObj.magi false false [(.scalar (.str "a"), .scalar .none)]] 0 =
      some (.magi false false [(.scalar (.str "a"), .scalar .none)]) ∧
    dictGet [(.scalar (.str "a"), .scalar .none)] (.scalar (.str "a")) =
      some (.scalar .none) ∧
    magidict_mget [PyObj.magi false false [(.scalar (.str "a"), .scalar .none)]] 0
      (.scalar (.str "a")) (some (.scalar .none)) =
      ([PyObj.magi false false [(.scalar (.str "a"), .scalar .none)]], .scalar .none) :=
  ⟨by decide, by decide,
    (mget_explicit_none_default [PyObj.magi false false [(.scalar (.str "a"), .scalar .none)]]
      0 false false [(.scalar (.str "a"), .scalar .none)] (.scalar (.str "a"))
      (by decide) (by decide)).1⟩

end MagiDict
